import Mathlib

/-!
TSP exact solver (`src/main.cpp`): embedding and verification

The C++ program keeps every number in a `double`.  The embedding is generic in the
arithmetic: `DoubleOps R` lists exactly the primitive operations on `double` that
`main.cpp` uses (`+`, `-`, `*`, `std::sqrt`, `<`, `!=` and
`numeric_limits<double>::max()`).  Three kinds of instance are used:

`F64` is an executable model of IEEE-754 binary64 with round-to-nearest-even: the
numbers a `double` can stand for, the two zeros being the one number `0`.  `Double` is
the `double` as it is stored, with the zero of negative sign kept apart from `+0`;
`Double.toF64` commutes with every operation (`Double.toF64_hom`), so that a run on
stored values is, number for number, the run on `F64` (`solveTSPRun_map`).  The program
is evaluated on both at concrete inputs.  The universally quantified results are
proved for every arithmetic that obeys the few laws of `Lawful` (the comparisons are
those of a linear order on well-formed coordinates and on path lengths; nothing is
assumed of the values computed), and `F64.lawful` shows that binary64 obeys them with
the finite numbers as coordinates, the specification's "real-valued coordinates".
The results that depend on which of the two zeros is stored are stated on `Double`.

`std::sort` and `std::next_permutation` are library code; they are embedded on lists
following the algorithms of the C++ standard library.
-/

namespace TSP

/-! ## The arithmetic of `double` -/

/-- The operations on `double` used by `main.cpp`. -/
class DoubleOps (R : Type) where
  /-- binary `+` -/
  add : R → R → R
  /-- binary `-` -/
  sub : R → R → R
  /-- binary `*` -/
  mul : R → R → R
  /-- `std::sqrt` -/
  sqrt : R → R
  /-- comparison `<` -/
  lt : R → R → Bool
  /-- comparison `!=` -/
  ne : R → R → Bool
  /-- `numeric_limits<double>::max()` -/
  maxVal : R

/-! ## Data model -/

/-- `class Point3D`: three coordinates. -/
structure Point3D (R : Type) where
  x : R
  y : R
  z : R
  deriving DecidableEq, Repr

/-- `Point3D::operator<`: compare `x`, then `y`, then `z`. -/
def Point3D.lt {R : Type} [DoubleOps R] (a other : Point3D R) : Bool :=
  if DoubleOps.ne a.x other.x then DoubleOps.lt a.x other.x
  else if DoubleOps.ne a.y other.y then DoubleOps.lt a.y other.y
  else DoubleOps.lt a.z other.z

/-- `struct TSPResult`. -/
structure TSPResult (R : Type) where
  minDistance : R
  bestPath : List (Point3D R)
  deriving DecidableEq, Repr

/-- `calcDistance`: `sqrt(dx*dx + dy*dy + dz*dz)`. -/
def calcDistance {R : Type} [DoubleOps R] (a b : Point3D R) : R :=
  let dx := DoubleOps.sub a.x b.x
  let dy := DoubleOps.sub a.y b.y
  let dz := DoubleOps.sub a.z b.z
  DoubleOps.sqrt (DoubleOps.add (DoubleOps.add (DoubleOps.mul dx dx) (DoubleOps.mul dy dy))
    (DoubleOps.mul dz dz))

/-- A point whose coordinates are well-formed. -/
def Point3D.WF {R : Type} (isCoord : R → Prop) (p : Point3D R) : Prop :=
  isCoord p.x ∧ isCoord p.y ∧ isCoord p.z

/-- The laws of the arithmetic that the results rest on, for a set `isCoord` of
well-formed coordinates and a set `isLength` of values a path length can take: on
each set the comparisons `<` and `!=` are those of the linear order of the carrier,
and distances and their sums are path lengths.  For binary64 the coordinates are the
finite numbers and the lengths are the numbers from `0` to `+∞` (`F64.lawful`). -/
structure Lawful {R : Type} [DoubleOps R] [LinearOrder R] (isCoord isLength : R → Prop) :
    Prop where
  coord_lt : ∀ a b : R, isCoord a → isCoord b → (DoubleOps.lt a b = true ↔ a < b)
  coord_ne : ∀ a b : R, isCoord a → isCoord b → (DoubleOps.ne a b = true ↔ a ≠ b)
  length_lt : ∀ a b : R, isLength a → isLength b → (DoubleOps.lt a b = true ↔ a < b)
  length_max : isLength (DoubleOps.maxVal : R)
  length_add : ∀ a b : R, isLength a → isLength b → isLength (DoubleOps.add a b)
  length_dist : ∀ a b : Point3D R, a.WF isCoord → b.WF isCoord →
    isLength (calcDistance a b)

/-! ## Library algorithms -/

/-- `std::sort(first, last)` with comparison `less`: the sequence is rearranged into
non-descending order.  Embedded as insertion sort (the algorithm libstdc++ runs on
ranges of at most 16 elements); `a` is placed before the first `b` with `¬ less b a`. -/
def sort {α : Type} (less : α → α → Bool) (l : List α) : List α :=
  l.insertionSort (fun a b => less b a = false)

/-- First phase of `std::next_permutation`, on the reversed sequence: walk from the
back while the elements do not descend.  Returns the non-increasing tail of the original
sequence (reversed, so ascending) and what is left, whose head is the pivot `*i` with
`*i < *ii`. -/
def splitPivot {α : Type} (less : α → α → Bool) : List α → List α × List α
  | [] => ([], [])
  | [a] => ([a], [])
  | a :: b :: l =>
    if less b a then ([a], b :: l)
    else ((a :: (splitPivot less (b :: l)).1), (splitPivot less (b :: l)).2)

/-- Second phase of `std::next_permutation`: `while (!(*i < *--j))` scans the tail from
the back for the first element `e` greater than the pivot `p`, and `iter_swap(i, j)`
exchanges them.  Returns `e` and the tail with `p` in the place of `e`. -/
def swapPivot {α : Type} (less : α → α → Bool) (p : α) : List α → α × List α
  | [] => (p, [])
  | e :: s =>
    if less p e then (e, p :: s)
    else ((swapPivot less p s).1, e :: (swapPivot less p s).2)

/-- `std::next_permutation(first, last)` with comparison `less`: the new content of the
range and the returned flag.  When there is a pivot, it is exchanged with the last
element greater than it and the tail behind it is reversed (flag `true`); otherwise the
whole range is reversed (flag `false`). -/
def next_permutation {α : Type} (less : α → α → Bool) (xs : List α) : List α × Bool :=
  match splitPivot less xs.reverse with
  | (s, []) => (s, false)
  | (s, p :: front) => (front.reverse ++ (swapPivot less p s).1 :: (swapPivot less p s).2, true)

/-! ## `solveTSP` -/

/-- What the embedding reports instead of a result. -/
inductive Fault where
  /-- an element access `points[i]` with `i` outside `[0, size)` (undefined behaviour) -/
  | outOfRange
  /-- the iteration budget of the embedded `do`/`while` loop ran out -/
  | fuelExhausted
  deriving DecidableEq, Repr

/-- `points[i]`. -/
def elemAt {α : Type} (points : List α) (i : Nat) : Except Fault α :=
  match points[i]? with
  | some p => .ok p
  | none => .error .outOfRange

/-- The `for` loop of `solveTSP`, with `iters` iterations to go from index `i`:
`currentDistance += calcDistance(points[i], points[i + 1])`. -/
def sumLoop {R : Type} [DoubleOps R] (points : List (Point3D R)) :
    Nat → Nat → R → Except Fault R
  | 0, _, cur => .ok cur
  | iters + 1, i, cur =>
    match elemAt points i, elemAt points (i + 1) with
    | .ok a, .ok b => sumLoop points iters (i + 1) (DoubleOps.add cur (calcDistance a b))
    | _, _ => .error .outOfRange

/-- The length computed by one pass of the `do` body (lines 73 to 78):
`calcDistance(start, points[0])` plus the consecutive distances.  The loop bound
`points.size() - 1` is `size_t` arithmetic, modulo `2^64`. -/
def pathLength {R : Type} [DoubleOps R] (start : Point3D R) (points : List (Point3D R)) :
    Except Fault R :=
  match elemAt points 0 with
  | .ok p0 => sumLoop points ((points.length + 2 ^ 64 - 1) % 2 ^ 64) 0 (calcDistance start p0)
  | .error e => .error e

/-- Everything a call of `solveTSP` leaves behind. -/
structure Run (R : Type) where
  /-- the returned `TSPResult` -/
  result : TSPResult R
  /-- the content of the by-reference argument `points` at return -/
  points : List (Point3D R)
  /-- the orderings whose length the loop computed, in order (ghost) -/
  evaluated : List (List (Point3D R))
  deriving DecidableEq, Repr

/-- The `do { ... } while (next_permutation(...))` loop of `solveTSP`, with an iteration
budget. -/
def searchLoop {R : Type} [DoubleOps R] (start : Point3D R) :
    Nat → List (Point3D R) → R → List (Point3D R) → List (List (Point3D R)) →
      Except Fault (Run R)
  | 0, _, _, _, _ => .error .fuelExhausted
  | fuel + 1, points, minDistance, bestPath, log =>
    match pathLength start points with
    | .error e => .error e
    | .ok currentDistance =>
      let upd : R × List (Point3D R) :=
        if DoubleOps.lt currentDistance minDistance then (currentDistance, points)
        else (minDistance, bestPath)
      match next_permutation Point3D.lt points with
      | (points', true) => searchLoop start fuel points' upd.1 upd.2 (log ++ [points])
      | (points', false) => .ok ⟨⟨upd.1, upd.2⟩, points', log ++ [points]⟩

/-- `solveTSP` together with its effect on the argument and the log of orderings.
The budget `n!` is enough for every run over a lawful arithmetic
(`solveTSPRun_spec`): the loop then ends by `next_permutation` returning `false`. -/
def solveTSPRun {R : Type} [DoubleOps R] (start : Point3D R) (points : List (Point3D R)) :
    Except Fault (Run R) :=
  searchLoop start points.length.factorial (sort Point3D.lt points) DoubleOps.maxVal [] []

/-- `solveTSP(start, points)`: the returned `TSPResult`. -/
def solveTSP {R : Type} [DoubleOps R] (start : Point3D R) (points : List (Point3D R)) :
    Except Fault (TSPResult R) :=
  match solveTSPRun start points with
  | .ok run => .ok run.result
  | .error e => .error e

/-! ## IEEE-754 binary64

Finite values are kept as integers in units of `2^-1074` (the least subnormal): every
finite `double` is `k * 2^-1074` with `k` an integer of at most 53 significant bits and
`|k| < 2^2098`.  `F64` holds the number only: `+0` and `-0` are the one number `0`.
`solveTSP` applies `+`, `-`, `*`, `sqrt`, `<` and `!=`, none of which tells the two
zeros apart, so every comparison and every computed length is the same for either
zero; which zero a stored coordinate is, is kept by `Double` below.  Each operation
is the exact result rounded to nearest, ties to even (the default rounding mode; no
fused multiply-add). -/

/-- A binary64 value; `fin k` is the finite number `k * 2^-1074`. -/
inductive F64 where
  | nan
  | ninf
  | fin (k : Int)
  | pinf
  deriving DecidableEq, Repr

namespace F64

/-- Least `j' ≥ j` with `n < 2^(2^j')` (given enough fuel). -/
def log2Bound (n : Nat) : Nat → Nat → Nat
  | 0, j => j
  | fuel + 1, j => if n < 2 ^ 2 ^ j then j else log2Bound n fuel (j + 1)

/-- Binary search: with `2^lo ≤ n < 2^(lo + 2^j)`, the `e` with `2^e ≤ n < 2^(e + 1)`. -/
def log2Search (n : Nat) : Nat → Nat → Nat
  | 0, lo => lo
  | j + 1, lo => if 2 ^ (lo + 2 ^ j) ≤ n then log2Search n j (lo + 2 ^ j) else log2Search n j lo

/-- Number of binary digits of `n`. -/
def bitLen (n : Nat) : Nat :=
  if n = 0 then 0 else log2Search n (log2Bound n n 0) 0 + 1

/-- Round to nearest, ties to even, to 53 significant bits: the value is
`(n + θ) / 2^d` units with `θ = 0`, or `0 < θ < 1` when `sticky`; the result is a whole
number of units. -/
def roundUnits (n d : Nat) (sticky : Bool) : Nat :=
  let drop := max d (bitLen n - 53)
  let q := n / 2 ^ drop
  let rem := n % 2 ^ drop
  let half := 2 ^ drop / 2
  let up : Bool :=
    decide (drop ≠ 0) &&
      (decide (half < rem) || (decide (rem = half) && (sticky || decide (q % 2 = 1))))
  (if up then q + 1 else q) * 2 ^ (drop - d)

/-- The number `1` in units of `2^-1074`. -/
@[irreducible] def unitsPerOne : Nat := 2 ^ 1074

/-- The least magnitude, in units, that is beyond the finite range: `2^1024`. -/
@[irreducible] def overflowUnits : Nat := 2 ^ 2098

/-- A signed number of units as a binary64 value: `2^2098` units (that is `2^1024`)
and above overflow to infinity. -/
def ofUnits (negative : Bool) (u : Nat) : F64 :=
  if overflowUnits ≤ u then (if negative then ninf else pinf)
  else fin (if negative then -(u : Int) else (u : Int))

/-- The exact value `k / 2^d` units, rounded. -/
def round (k : Int) (d : Nat) (sticky : Bool) : F64 :=
  ofUnits (decide (k < 0)) (roundUnits k.natAbs d sticky)

/-- Unary minus. -/
def neg : F64 → F64
  | nan => nan
  | ninf => pinf
  | pinf => ninf
  | fin k => fin (-k)

/-- Binary `+`. -/
def add : F64 → F64 → F64
  | nan, _ => nan
  | _, nan => nan
  | pinf, ninf => nan
  | ninf, pinf => nan
  | pinf, _ => pinf
  | _, pinf => pinf
  | ninf, _ => ninf
  | _, ninf => ninf
  | fin a, fin b => round (a + b) 0 false

/-- Binary `-`. -/
def sub (a b : F64) : F64 := add a (neg b)

/-- Sign of a value that is not NaN. -/
def sgn : F64 → Int
  | nan => 0
  | ninf => -1
  | pinf => 1
  | fin k => Int.sign k

/-- Binary `*`. -/
def mul : F64 → F64 → F64
  | nan, _ => nan
  | _, nan => nan
  | fin a, fin b => round (a * b) 1074 false
  | a, b =>
    if sgn a * sgn b = 0 then nan else if 0 < sgn a * sgn b then pinf else ninf

/-- Newton iteration for the integer square root, from `x` above the root. -/
def isqrtIter (n : Nat) : Nat → Nat → Nat
  | 0, x => x
  | fuel + 1, x => if (x + n / x) / 2 < x then isqrtIter n fuel ((x + n / x) / 2) else x

/-- Integer square root: the greatest `r` with `r * r ≤ n`. -/
def isqrt (n : Nat) : Nat :=
  if n = 0 then 0 else isqrtIter n (bitLen n) (2 ^ ((bitLen n + 1) / 2))

/-- The function `std::sqrt`. -/
def sqrt : F64 → F64
  | nan => nan
  | ninf => nan
  | pinf => pinf
  | fin k =>
    if k < 0 then nan
    else
      let n := k.toNat * unitsPerOne
      round (isqrt n) 0 (decide (isqrt n * isqrt n ≠ n))

/-- Comparison `<`. -/
def lt : F64 → F64 → Bool
  | nan, _ => false
  | _, nan => false
  | _, ninf => false
  | ninf, _ => true
  | pinf, _ => false
  | fin _, pinf => true
  | fin a, fin b => decide (a < b)

/-- Comparison `!=`. -/
def ne : F64 → F64 → Bool
  | nan, _ => true
  | _, nan => true
  | a, b => decide (a ≠ b)

/-- The constant `numeric_limits<double>::max()`, `(2^53 - 1) * 2^971`. -/
def maxVal : F64 := fin (((2 ^ 53 - 1) * 2 ^ 2045 : Nat) : Int)

/-- The `double` with the integer value `n` (exact for `|n| < 2^53`). -/
def ofInt (n : Int) : F64 := fin (n * (unitsPerOne : Int))

instance : DoubleOps F64 where
  add := add
  sub := sub
  mul := mul
  sqrt := sqrt
  lt := lt
  ne := ne
  maxVal := maxVal

/-- Position of a value in the total order below. -/
def key : F64 → Nat × Int
  | nan => (0, 0)
  | ninf => (1, 0)
  | fin k => (2, k)
  | pinf => (3, 0)

/-- A total order on the values: `-∞`, the finite numbers in their order, `+∞`, that
is the order of `<` on the values that are not NaN; NaN is put below all of them,
only to have a linear order, and no result depends on its place. -/
instance instLinearOrder : LinearOrder F64 :=
  LinearOrder.lift' (fun a : F64 => toLex ((key a).1, (key a).2))
    (fun a b h => by
      simp only [EmbeddingLike.apply_eq_iff_eq, Prod.mk.injEq] at h
      cases a <;> cases b <;> simp_all [key])

/-- The finite values: the "real-valued" coordinates. -/
def isFinite : F64 → Prop
  | fin _ => True
  | _ => False

/-- The values from `0` to `+∞`: what a distance or a sum of distances can be. -/
def isLength : F64 → Prop
  | fin k => 0 ≤ k
  | pinf => True
  | _ => False

end F64

/-- The `double` with the value `2^e`, for `0 ≤ e ≤ 1023`. -/
def F64.pow2 (e : Nat) : F64 := F64.fin ((2 ^ (e + 1074) : Nat) : Int)

/-- The point with integer coordinates, in binary64. -/
def pt (x y z : Int) : Point3D F64 := ⟨F64.ofInt x, F64.ofInt y, F64.ofInt z⟩

/-- The start point of the reference usage, the origin. -/
def origin : Point3D F64 := pt 0 0 0

/-- Two destinations at distance `1` from the origin. -/
def twoPoints : List (Point3D F64) := [pt 1 0 0, pt 0 1 0]

/-- The destinations of the specification's first scenario. -/
def unitSquare : List (Point3D F64) := [pt 1 0 0, pt 0 1 0, pt 1 1 0]

/-- The point `(2^700, 0, 0)`: its distance from the origin overflows. -/
def farX : Point3D F64 := ⟨F64.pow2 700, F64.ofInt 0, F64.ofInt 0⟩

/-- The point `(0, 2^700, 0)`. -/
def farY : Point3D F64 := ⟨F64.ofInt 0, F64.pow2 700, F64.ofInt 0⟩

/-- The point `(0, 0, -2^600)`. -/
def farZ : Point3D F64 := ⟨F64.ofInt 0, F64.ofInt 0, F64.neg (F64.pow2 600)⟩

instance instDecidableEqExcept {ε α : Type} [DecidableEq ε] [DecidableEq α] :
    DecidableEq (Except ε α)
  | .ok a, .ok b =>
    if h : a = b then isTrue (by rw [h]) else isFalse (fun h2 => h (Except.ok.inj h2))
  | .error a, .error b =>
    if h : a = b then isTrue (by rw [h]) else isFalse (fun h2 => h (Except.error.inj h2))
  | .ok _, .error _ => isFalse (fun h => by cases h)
  | .error _, .ok _ => isFalse (fun h => by cases h)

/-! ## Binary64 as stored: the sign of zero

`F64` is the number a `double` stands for.  A stored `double` has two zeros, `+0.0` and
`-0.0` (typing `-0` gives the second): `<` and `!=` do not tell them apart, but they are
different values, which the program copies and prints as they are.  `Double` keeps
them apart, with the IEEE-754 rules for the sign of a zero result, and `Double.toF64`
is the number a `Double` stands for. -/

/-- A `double` as it is stored: `num v` is the value `v`, with `num (F64.fin 0)` the
zero of positive sign, and `negZero` is the zero of negative sign. -/
inductive Double where
  | num (v : F64)
  | negZero
  deriving DecidableEq, Repr

namespace Double

/-- The number a stored `double` stands for: both zeros are the number `0`. -/
def toF64 : Double → F64
  | num v => v
  | negZero => F64.fin 0

/-- The sign bit of a value that is not NaN. -/
def signBit : Double → Bool
  | negZero => true
  | num (F64.fin k) => decide (k < 0)
  | num F64.ninf => true
  | num _ => false

/-- Unary minus: it changes the sign, also of a zero. -/
def neg : Double → Double
  | negZero => num (F64.fin 0)
  | num v => if v = F64.fin 0 then negZero else num (F64.neg v)

/-- Binary `+`: a zero sum is `-0` only when both terms are `-0` (rounding to
nearest). -/
def add : Double → Double → Double
  | negZero, negZero => negZero
  | a, b => num (F64.add a.toF64 b.toF64)

/-- Binary `-`. -/
def sub (a b : Double) : Double := add a (neg b)

/-- Binary `*`: the sign of a zero product is the exclusive or of the signs of the
factors. -/
def mul (a b : Double) : Double :=
  if F64.mul a.toF64 b.toF64 = F64.fin 0 then
    (if a.signBit = b.signBit then num (F64.fin 0) else negZero)
  else num (F64.mul a.toF64 b.toF64)

/-- The function `std::sqrt`: the square root of `-0` is `-0`. -/
def sqrt : Double → Double
  | negZero => negZero
  | num v => num (F64.sqrt v)

/-- Comparison `<`: that of the numbers. -/
def lt (a b : Double) : Bool := F64.lt a.toF64 b.toF64

/-- Comparison `!=`: that of the numbers. -/
def ne (a b : Double) : Bool := F64.ne a.toF64 b.toF64

/-- The constant `numeric_limits<double>::max()`. -/
def maxVal : Double := num F64.maxVal

instance : DoubleOps Double where
  add := add
  sub := sub
  mul := mul
  sqrt := sqrt
  lt := lt
  ne := ne
  maxVal := maxVal

/-- The finite values: the "real-valued" coordinates. -/
def isFinite (a : Double) : Prop := F64.isFinite a.toF64

end Double

/-- Apply `f` to each coordinate. -/
def Point3D.map {R S : Type} (f : R → S) (p : Point3D R) : Point3D S := ⟨f p.x, f p.y, f p.z⟩

/-- Apply `f` to the length and to each coordinate of the ordering. -/
def TSPResult.map {R S : Type} (f : R → S) (r : TSPResult R) : TSPResult S :=
  ⟨f r.minDistance, r.bestPath.map (Point3D.map f)⟩

/-- Apply `f` to every number of a run. -/
def Run.map {R S : Type} (f : R → S) (run : Run R) : Run S :=
  ⟨run.result.map f, run.points.map (Point3D.map f),
    run.evaluated.map (List.map (Point3D.map f))⟩

/-- A map between two arithmetics that commutes with every operation of `DoubleOps`. -/
structure DoubleOps.Hom {R S : Type} [DoubleOps R] [DoubleOps S] (f : R → S) : Prop where
  add : ∀ a b : R, f (DoubleOps.add a b) = DoubleOps.add (f a) (f b)
  sub : ∀ a b : R, f (DoubleOps.sub a b) = DoubleOps.sub (f a) (f b)
  mul : ∀ a b : R, f (DoubleOps.mul a b) = DoubleOps.mul (f a) (f b)
  sqrt : ∀ a : R, f (DoubleOps.sqrt a) = DoubleOps.sqrt (f a)
  lt : ∀ a b : R, DoubleOps.lt (f a) (f b) = DoubleOps.lt a b
  ne : ∀ a b : R, DoubleOps.ne (f a) (f b) = DoubleOps.ne a b
  maxVal : f DoubleOps.maxVal = DoubleOps.maxVal

/-- The point `(0, 0, 0)` as stored, every zero of positive sign. -/
def zeroPos : Point3D Double :=
  ⟨Double.num (F64.ofInt 0), Double.num (F64.ofInt 0), Double.num (F64.ofInt 0)⟩

/-- The point `(-0, 0, 0)` as stored: what typing `-0 0 0` gives. -/
def zeroNeg : Point3D Double :=
  ⟨Double.negZero, Double.num (F64.ofInt 0), Double.num (F64.ofInt 0)⟩

/-- The point with integer coordinates, as stored. -/
def dpt (x y z : Int) : Point3D Double :=
  ⟨Double.num (F64.ofInt x), Double.num (F64.ofInt y), Double.num (F64.ofInt z)⟩

/-! ## Specification devices -/

/-- The orderings visited by repeating `next_permutation` from `c` until it returns
`false`, and the content it leaves behind; `none` when the budget runs out first. -/
def enumerate {α : Type} (less : α → α → Bool) : Nat → List α → Option (List (List α) × List α)
  | 0, _ => none
  | fuel + 1, c =>
    match next_permutation less c with
    | (c', true) =>
      match enumerate less fuel c' with
      | some (tr, last) => some (c :: tr, last)
      | none => none
    | (c', false) => some ([c], c')

/-- Number of distinct arrangements of `ps` lexicographically above `c`. -/
def morePerms {α : Type} [LinearOrder α] (ps c : List α) : Nat :=
  ((ps.permutations.toFinset).filter (fun q => List.Lex (· < ·) c q)).card

/-- The update of lines 81 to 84: the pair `(minDistance, bestPath)` after the ordering
`o` has been measured. -/
def improve {R : Type} [DoubleOps R] (start : Point3D R) (acc : R × List (Point3D R))
    (o : List (Point3D R)) : R × List (Point3D R) :=
  match pathLength start o with
  | .ok currentDistance => if DoubleOps.lt currentDistance acc.1 then (currentDistance, o) else acc
  | .error _ => acc

/-- The path length as the specification writes it:
`distance(start, q[0]) + Σ distance(q[i], q[i+1])` for `i` in `[0, n-2]`, summed from the
left; it is not defined for the empty ordering. -/
def specLength {R : Type} [DoubleOps R] (start : Point3D R) : List (Point3D R) → Option R
  | [] => none
  | p :: rest =>
    some ((List.zip (p :: rest) rest).foldl
      (fun acc ab => DoubleOps.add acc (calcDistance ab.1 ab.2)) (calcDistance start p))

/-- The lexicographic order on `(x, y, z)`. -/
instance Point3D.instLinearOrder {R : Type} [LinearOrder R] : LinearOrder (Point3D R) :=
  LinearOrder.lift' (fun p : Point3D R => toLex (p.x, toLex (p.y, p.z)))
    (fun a b h => by
      cases a; cases b
      simp only [EmbeddingLike.apply_eq_iff_eq, Prod.mk.injEq] at h
      obtain ⟨h1, h2, h3⟩ := h
      subst h1 h2 h3
      rfl)

/-! ## The closed route, the input collaborator and further inputs -/

/-- The length of the closed route that the header comment of `main.cpp` describes
("returns to the origin"): the open path length plus `distance(q[n-1], start)`. -/
def roundTripLength {R : Type} [DoubleOps R] (start : Point3D R) (q : List (Point3D R)) :
    Option R :=
  match specLength start q, q.getLast? with
  | some len, some last => some (DoubleOps.add len (calcDistance last start))
  | _, _ => none

/-! ## The input collaborator -/

/-- The operations on `std::cin` used by `getPointsFromUser`, on the state `S` of the
input stream; `R` is the carrier of `double`. -/
class InputStream (S : Type) (R : outParam Type) where
  /-- `cin >> numPoints` for the `int numPoints`: the value when the extraction
  succeeds (`none` when the stream fails), and the stream after it -/
  readInt : S → Option Int × S
  /-- `cin.clear(); cin.ignore(numeric_limits<streamsize>::max(), '\n')` -/
  discardLine : S → S
  /-- `cin >> x` for a `double x`: the value `x` holds afterwards, and the stream after
  it -/
  readDouble : S → R × S

/-- The validation loop of lines 98 to 102,
`while (!(cin >> numPoints) || numPoints < 1) { clear; ignore; }`, with a budget of
attempts: the accepted count and the stream after it, `none` when the budget runs out
(the user may answer wrongly for ever). -/
def readCount {S R : Type} [InputStream S R] : Nat → S → Option (Int × S)
  | 0, _ => none
  | fuel + 1, s =>
    match InputStream.readInt s with
    | (some numPoints, s') =>
      if numPoints < 1 then readCount fuel (InputStream.discardLine s')
      else some (numPoints, s')
    | (none, s') => readCount fuel (InputStream.discardLine s')

/-- The `for` loop of lines 105 to 111, with `n` iterations to go:
`cin >> x >> y >> z; points.emplace_back(x, y, z)`. -/
def readPoints {S R : Type} [InputStream S R] :
    Nat → S → List (Point3D R) → List (Point3D R) × S
  | 0, s, points => (points, s)
  | n + 1, s, points =>
    readPoints n (InputStream.readDouble (InputStream.readDouble (InputStream.readDouble s).2).2).2
      (points ++ [⟨(InputStream.readDouble s).1,
        (InputStream.readDouble (InputStream.readDouble s).2).1,
        (InputStream.readDouble (InputStream.readDouble (InputStream.readDouble s).2).2).1⟩])

/-- `getPointsFromUser`: the returned vector and the stream it leaves; `none` when the
budget of attempts runs out before a count is accepted. -/
def getPointsFromUser {S R : Type} [InputStream S R] (fuel : Nat) (s : S) :
    Option (List (Point3D R) × S) :=
  match readCount fuel s with
  | none => none
  | some (numPoints, s') => some (readPoints numPoints.toNat s' [])

/-- `main`, lines 134 to 139: `player` is `(0.0, 0.0, 0.0)`, `targets` is what
`getPointsFromUser` returns, and the result is that of `solveTSP(player, targets)`;
`zero` is the literal `0.0`. -/
def main {S R : Type} [InputStream S R] [DoubleOps R] (zero : R) (fuel : Nat) (s : S) :
    Option (Except Fault (TSPResult R)) :=
  match getPointsFromUser fuel s with
  | none => none
  | some (targets, _) => some (solveTSP ⟨zero, zero, zero⟩ targets)

/-- A token of typed input. -/
inductive Token where
  /-- an integer numeral -/
  | int (n : Int)
  /-- the numeral `-0` -/
  | negZero
  /-- some text that is not a number -/
  | word
  /-- the end of a line -/
  | newline
  deriving DecidableEq, Repr

/-- Skip the white space in front of the next token. -/
def skipSpace : List Token → List Token
  | Token.newline :: s => skipSpace s
  | s => s

/-- Drop the rest of the line, the newline included. -/
def dropLine : List Token → List Token
  | [] => []
  | Token.newline :: s => s
  | _ :: s => dropLine s

/-- The state of `std::cin`: whether an extraction has failed since the last
`clear()`, and the input that is left. -/
structure Cin where
  failed : Bool
  input : List Token
  deriving DecidableEq, Repr

/-- What `cin >> x` stores in the `double x` for the integer numeral `n`, and whether
the extraction fails: the nearest `double`; beyond the finite range the stream fails
and the value stored is `max()` with the sign of `n` (the C++11 rule, which libstdc++
follows). -/
def readNumeral (n : Int) : Double × Bool :=
  match F64.round (n * (F64.unitsPerOne : Int)) 0 false with
  | F64.pinf => (Double.num F64.maxVal, true)
  | F64.ninf => (Double.num (F64.neg F64.maxVal), true)
  | v => (Double.num v, false)

/-- A token-level model of `std::cin` on typed input.  An extraction from a failed
stream does nothing; an `int` is read from a numeral within the range of `int`; a
`double` is read from a numeral, `-0` giving the zero of negative sign; any other
extraction fails.  A failed extraction of a `double` stores `0` when text is in the
way, and leaves the variable unwritten at the end of the input and on a failed stream:
an unwritten variable is indeterminate in C++, and the model gives it the value `0`. -/
instance instInputStreamTokens : InputStream Cin Double where
  readInt s :=
    if s.failed then (none, s)
    else
      match skipSpace s.input with
      | Token.int n :: rest =>
        if -(2 ^ 31 : Int) ≤ n ∧ n < 2 ^ 31 then (some n, ⟨false, rest⟩)
        else (none, ⟨true, rest⟩)
      | Token.negZero :: rest => (some 0, ⟨false, rest⟩)
      | rest => (none, ⟨true, rest⟩)
  discardLine s := ⟨false, dropLine s.input⟩
  readDouble s :=
    if s.failed then (Double.num (F64.ofInt 0), s)
    else
      match skipSpace s.input with
      | Token.int n :: rest => ((readNumeral n).1, ⟨(readNumeral n).2, rest⟩)
      | Token.negZero :: rest => (Double.negZero, ⟨false, rest⟩)
      | rest => (Double.num (F64.ofInt 0), ⟨true, rest⟩)

/-- The input `abc`, `0`, `2`, `1 0 0`, `0 1 0`, one per line. -/
def typedInput : Cin :=
  ⟨false,
    [Token.word, Token.newline, Token.int 0, Token.newline, Token.int 2, Token.newline,
     Token.int 1, Token.int 0, Token.int 0, Token.newline,
     Token.int 0, Token.int 1, Token.int 0, Token.newline]⟩

/-- The input `2`, `0 0 0`, `-0 0 0`, one per line. -/
def signedInput : Cin :=
  ⟨false,
    [Token.int 2, Token.newline, Token.int 0, Token.int 0, Token.int 0, Token.newline,
     Token.negZero, Token.int 0, Token.int 0, Token.newline]⟩

/-- The input `2`, `-0 0 0`, `0 0 0`, one per line. -/
def signedInputSwapped : Cin :=
  ⟨false,
    [Token.int 2, Token.newline, Token.negZero, Token.int 0, Token.int 0, Token.newline,
     Token.int 0, Token.int 0, Token.int 0, Token.newline]⟩

/-- A point with an infinite coordinate (not a well-formed input): the difference of
its `x` with itself is NaN. -/
def infPoint : Point3D F64 := ⟨F64.pinf, F64.ofInt 0, F64.ofInt 0⟩

/-! ## Lexicographic order and permutations -/

section Order

variable {α : Type} [LinearOrder α]

/-- A non-descending sequence is the least arrangement of its elements. -/
theorem not_lex_of_sorted_le {s : List α} (hs : s.Sorted (· ≤ ·)) :
    ∀ {q : List α}, q.Perm s → ¬ List.Lex (· < ·) q s := by
  induction s with
  | nil =>
    intro q _ h
    cases h
  | cons a s ih =>
    intro q hq h
    have hsa := List.sorted_cons.mp hs
    cases h with
    | nil => exact absurd hq.length_eq (by simp)
    | cons h' =>
      exact ih hsa.2 ((List.perm_cons a).mp hq) h'
    | @rel b l₁ _ _ hlt =>
      have hb : b ∈ a :: s := hq.subset (List.mem_cons_self b l₁)
      rcases List.mem_cons.mp hb with hb | hb
      · exact absurd hlt (by simp [hb])
      · exact absurd hlt (not_lt.mpr (hsa.1 b hb))

/-- A non-ascending sequence is the greatest arrangement of its elements. -/
theorem not_lex_of_sorted_ge {s : List α} (hs : s.Sorted (· ≥ ·)) :
    ∀ {q : List α}, q.Perm s → ¬ List.Lex (· < ·) s q := by
  induction s with
  | nil =>
    intro q hq h
    have : q = [] := List.Perm.eq_nil hq
    subst this
    cases h
  | cons a s ih =>
    intro q hq h
    have hsa := List.sorted_cons.mp hs
    cases h with
    | cons h' =>
      exact ih hsa.2 ((List.perm_cons a).mp hq) h'
    | @rel b l₁ c l₂ hlt =>
      have hc : c ∈ a :: s := hq.subset (List.mem_cons_self c l₂)
      rcases List.mem_cons.mp hc with hc | hc
      · exact absurd hlt (by simp [hc])
      · exact absurd hlt (not_lt.mpr (hsa.1 c hc))

end Order

/-! ## `std::next_permutation` -/

theorem splitPivot_append {α : Type} (less : α → α → Bool) (r : List α) :
    (splitPivot less r).1 ++ (splitPivot less r).2 = r := by
  induction r with
  | nil => rfl
  | cons a r ih =>
    cases r with
    | nil => rfl
    | cons b l =>
      by_cases hba : less b a = true
      · simp [splitPivot, hba]
      · simpa [splitPivot, hba] using ih

theorem splitPivot_cons_fst {α : Type} (less : α → α → Bool) (a : α) (r : List α) :
    ∃ t, (splitPivot less (a :: r)).1 = a :: t := by
  cases r with
  | nil => exact ⟨[], rfl⟩
  | cons b l =>
    by_cases hba : less b a = true
    · exact ⟨[], by simp [splitPivot, hba]⟩
    · exact ⟨(splitPivot less (b :: l)).1, by simp [splitPivot, hba]⟩

theorem swap_perm {α : Type} (front : List α) (p e : α) (s₁ s₂ : List α) :
    (front ++ e :: (s₁ ++ p :: s₂)).Perm (front ++ p :: (s₁ ++ e :: s₂).reverse) := by
  refine List.Perm.append_left front ?_
  have h1 : (e :: (s₁ ++ p :: s₂)).Perm (e :: p :: (s₁ ++ s₂)) :=
    List.Perm.cons e List.perm_middle
  have h2 : (p :: (s₁ ++ e :: s₂).reverse).Perm (p :: e :: (s₁ ++ s₂)) :=
    List.Perm.cons p ((List.reverse_perm _).trans List.perm_middle)
  exact h1.trans ((List.Perm.swap p e _).trans h2.symm)

theorem swapPivot_perm {α : Type} (less : α → α → Bool) (p : α) (s : List α) :
    ((swapPivot less p s).1 :: (swapPivot less p s).2).Perm (p :: s) := by
  induction s with
  | nil => exact List.Perm.refl _
  | cons e s ih =>
    by_cases hpe : less p e = true
    · simp only [swapPivot, hpe, if_true]
      exact List.Perm.swap p e s
    · simp only [swapPivot, hpe]
      exact (List.Perm.swap e _ _).trans (((List.Perm.cons e ih)).trans (List.Perm.swap p e s))

/-- Whatever the comparison, `next_permutation` rearranges the sequence. -/
theorem next_permutation_perm {α : Type} (less : α → α → Bool) (xs : List α) :
    (next_permutation less xs).1.Perm xs := by
  have happ := splitPivot_append less xs.reverse
  unfold next_permutation
  rcases hsp : splitPivot less xs.reverse with ⟨s, rest⟩
  rw [hsp] at happ
  cases rest with
  | nil =>
    simp only [List.append_nil] at happ
    simp only [happ]
    exact List.reverse_perm xs
  | cons p front =>
    simp only
    have h1 : (front.reverse ++ (swapPivot less p s).1 :: (swapPivot less p s).2).Perm
        (front ++ p :: s) :=
      List.Perm.append (List.reverse_perm front) (swapPivot_perm less p s)
    have h2 : (front ++ p :: s).Perm (s ++ p :: front) := by
      have : (front ++ p :: s).Perm (p :: s ++ front) := List.perm_append_comm
      exact this.trans (List.perm_middle.symm)
    exact (h1.trans h2).trans (happ ▸ List.reverse_perm xs)

theorem splitPivot_congr {α : Type} {less less' : α → α → Bool} :
    ∀ r : List α, (∀ a ∈ r, ∀ b ∈ r, less a b = less' a b) →
      splitPivot less r = splitPivot less' r := by
  intro r
  induction r with
  | nil => intro _; rfl
  | cons a r ih =>
    intro h
    cases r with
    | nil => rfl
    | cons b l =>
      have hba : less b a = less' b a :=
        h b (List.mem_cons_of_mem a (List.mem_cons_self b l)) a (List.mem_cons_self a _)
      have ih' := ih (fun x hx y hy =>
        h x (List.mem_cons_of_mem a hx) y (List.mem_cons_of_mem a hy))
      simp only [splitPivot, hba, ih']

theorem swapPivot_congr {α : Type} {less less' : α → α → Bool} (p : α) :
    ∀ s : List α, (∀ e ∈ s, less p e = less' p e) →
      swapPivot less p s = swapPivot less' p s := by
  intro s
  induction s with
  | nil => intro _; rfl
  | cons e s ih =>
    intro h
    have hpe : less p e = less' p e := h e (List.mem_cons_self e s)
    have ih' := ih (fun x hx => h x (List.mem_cons_of_mem e hx))
    simp only [swapPivot, hpe, ih']

/-- The step only compares elements of the sequence. -/
theorem next_permutation_congr {α : Type} {less less' : α → α → Bool} (xs : List α)
    (h : ∀ a ∈ xs, ∀ b ∈ xs, less a b = less' a b) :
    next_permutation less xs = next_permutation less' xs := by
  have hsplit : splitPivot less xs.reverse = splitPivot less' xs.reverse :=
    splitPivot_congr xs.reverse
      (fun a ha b hb => h a (List.mem_reverse.mp ha) b (List.mem_reverse.mp hb))
  have happ := splitPivot_append less' xs.reverse
  unfold next_permutation
  rw [hsplit]
  rcases hsp : splitPivot less' xs.reverse with ⟨s, rest⟩
  rw [hsp] at happ
  cases rest with
  | nil => rfl
  | cons p front =>
    have hmem : ∀ x, x ∈ s ++ p :: front → x ∈ xs := by
      intro x hx
      rw [happ] at hx
      exact List.mem_reverse.mp hx
    have hsw : swapPivot less p s = swapPivot less' p s :=
      swapPivot_congr p s (fun e he =>
        h p (hmem p (by simp)) e (hmem e (List.mem_append_left _ he)))
    simp only [hsw]

theorem orderedInsert_congr {α : Type} {less less' : α → α → Bool} (a : α) :
    ∀ t : List α, (∀ b ∈ t, less b a = less' b a) →
      t.orderedInsert (fun a b => less b a = false) a =
        t.orderedInsert (fun a b => less' b a = false) a := by
  intro t
  induction t with
  | nil => intro _; rfl
  | cons b t ih =>
    intro h
    have hba : less b a = less' b a := h b (List.mem_cons_self b t)
    have ih' := ih (fun x hx => h x (List.mem_cons_of_mem b hx))
    simp only [List.orderedInsert, hba, ih']

/-- Sorting only compares elements of the sequence. -/
theorem sort_congr {α : Type} {less less' : α → α → Bool} :
    ∀ l : List α, (∀ a ∈ l, ∀ b ∈ l, less a b = less' a b) → sort less l = sort less' l := by
  intro l
  induction l with
  | nil => intro _; rfl
  | cons a l ih =>
    intro h
    have ih' : sort less l = sort less' l :=
      ih (fun x hx y hy => h x (List.mem_cons_of_mem a hx) y (List.mem_cons_of_mem a hy))
    unfold sort at ih' ⊢
    simp only [List.insertionSort]
    rw [← ih']
    apply orderedInsert_congr
    intro b hb
    have hb' : b ∈ l := (List.mem_insertionSort _).mp hb
    exact h b (List.mem_cons_of_mem a hb') a (List.mem_cons_self a l)

theorem enumerate_congr {α : Type} {less less' : α → α → Bool} (ps : List α)
    (h : ∀ a ∈ ps, ∀ b ∈ ps, less a b = less' a b) :
    ∀ (fuel : Nat) (c : List α), c.Perm ps → enumerate less fuel c = enumerate less' fuel c := by
  intro fuel
  induction fuel with
  | zero => intro c _; rfl
  | succ fuel ih =>
    intro c hc
    have hnp : next_permutation less c = next_permutation less' c :=
      next_permutation_congr c (fun a ha b hb => h a (hc.subset ha) b (hc.subset hb))
    have hperm := next_permutation_perm less' c
    rcases hn : next_permutation less' c with ⟨c', flag⟩
    rw [hn] at hperm
    cases flag with
    | false => simp only [enumerate, hnp, hn]
    | true => simp only [enumerate, hnp, hn, ih c' (hperm.trans hc)]

section NextPermutation

variable {α : Type} [LinearOrder α] {less : α → α → Bool}

theorem splitPivot_sorted (hless : ∀ a b, less a b = true ↔ a < b) (r : List α) :
    ((splitPivot less r).1).Sorted (· ≤ ·) := by
  induction r with
  | nil => simp [splitPivot]
  | cons a r ih =>
    cases r with
    | nil => simp [splitPivot]
    | cons b l =>
      by_cases hba : less b a = true
      · simp [splitPivot, hba]
      · obtain ⟨t, ht⟩ := splitPivot_cons_fst less b l
        have hab : a ≤ b := not_lt.mp (fun h => hba ((hless b a).mpr h))
        have : (splitPivot less (a :: b :: l)).1 = a :: b :: t := by
          simp [splitPivot, hba, ht]
        rw [this]
        rw [ht] at ih
        exact List.Sorted.cons hab ih

theorem splitPivot_pivot (hless : ∀ a b, less a b = true ↔ a < b) (r : List α) {p : α}
    {front : List α} (h : (splitPivot less r).2 = p :: front) :
    ∃ a ∈ (splitPivot less r).1, p < a := by
  induction r with
  | nil => simp [splitPivot] at h
  | cons a r ih =>
    cases r with
    | nil => simp [splitPivot] at h
    | cons b l =>
      by_cases hba : less b a = true
      · simp only [splitPivot, hba, if_true] at h ⊢
        have hb : b = p := (List.cons.inj h).1
        exact ⟨a, List.mem_singleton_self a, hb ▸ (hless b a).mp hba⟩
      · simp only [splitPivot, hba] at h ⊢
        obtain ⟨c, hc, hpc⟩ := ih h
        exact ⟨c, List.mem_cons_of_mem a hc, hpc⟩

theorem swapPivot_spec (hless : ∀ a b, less a b = true ↔ a < b) (p : α) :
    ∀ s : List α, (∃ a ∈ s, p < a) →
      ∃ s₁ s₂, s = s₁ ++ (swapPivot less p s).1 :: s₂ ∧
        (swapPivot less p s).2 = s₁ ++ p :: s₂ ∧ (∀ x ∈ s₁, x ≤ p) ∧
        p < (swapPivot less p s).1 := by
  intro s
  induction s with
  | nil => rintro ⟨a, ha, _⟩; cases ha
  | cons e s ih =>
    rintro ⟨a, ha, hpa⟩
    by_cases hpe : less p e = true
    · refine ⟨[], s, ?_, ?_, ?_, ?_⟩
      · simp [swapPivot, hpe]
      · simp [swapPivot, hpe]
      · intro x hx; cases hx
      · simpa [swapPivot, hpe] using (hless p e).mp hpe
    · have hep : e ≤ p := not_lt.mp (fun h => hpe ((hless p e).mpr h))
      have has : a ∈ s := by
        rcases List.mem_cons.mp ha with h | h
        · exact absurd hpa (by rw [h]; exact not_lt.mpr hep)
        · exact h
      obtain ⟨s₁, s₂, h1, h2, h3, h4⟩ := ih ⟨a, has, hpa⟩
      refine ⟨e :: s₁, s₂, ?_, ?_, ?_, ?_⟩
      · simp only [swapPivot, hpe, List.cons_append]
        exact congrArg (e :: ·) h1
      · simp only [swapPivot, hpe, List.cons_append]
        exact congrArg (e :: ·) h2
      · intro x hx
        rcases List.mem_cons.mp hx with h | h
        · exact h ▸ hep
        · exact h3 x h
      · simpa [swapPivot, hpe] using h4

/-- Shape of a successful step: the pivot `p` in front of the non-ascending tail is
exchanged with the least element `e` of the tail above it, and the tail is put in
ascending order. -/
theorem next_permutation_true (hless : ∀ a b, less a b = true ↔ a < b) {xs ys : List α}
    (h : next_permutation less xs = (ys, true)) :
    ∃ front p e s₁ s₂, xs = front ++ p :: (s₁ ++ e :: s₂).reverse ∧
      ys = front ++ e :: (s₁ ++ p :: s₂) ∧ (s₁ ++ e :: s₂).Sorted (· ≤ ·) ∧
      (∀ x ∈ s₁, x ≤ p) ∧ p < e := by
  have happ := splitPivot_append less xs.reverse
  have hsorted := splitPivot_sorted hless xs.reverse
  have hpiv := fun p front => @splitPivot_pivot α _ less hless xs.reverse p front
  unfold next_permutation at h
  rcases hsp : splitPivot less xs.reverse with ⟨s, rest⟩
  rw [hsp] at h happ hsorted hpiv
  cases rest with
  | nil => simp at h
  | cons p front =>
    simp only [Prod.mk.injEq, and_true] at h
    obtain ⟨s₁, s₂, h1, h2, h3, h4⟩ := swapPivot_spec hless p s (hpiv p front rfl)
    refine ⟨front.reverse, p, (swapPivot less p s).1, s₁, s₂, ?_, ?_, ?_, h3, h4⟩
    · rw [← h1]
      have := congrArg List.reverse happ
      simpa using this.symm
    · rw [← h, h2]
    · rw [← h1]; exact hsorted

/-- Shape of the exhausted step: the sequence was non-ascending and is reversed. -/
theorem next_permutation_false (hless : ∀ a b, less a b = true ↔ a < b) {xs ys : List α}
    (h : next_permutation less xs = (ys, false)) :
    ys = xs.reverse ∧ ys.Sorted (· ≤ ·) := by
  have happ := splitPivot_append less xs.reverse
  have hsorted := splitPivot_sorted hless xs.reverse
  unfold next_permutation at h
  rcases hsp : splitPivot less xs.reverse with ⟨s, rest⟩
  rw [hsp] at h happ hsorted
  cases rest with
  | nil =>
    simp only [Prod.mk.injEq, and_true] at h
    simp only [List.append_nil] at happ
    subst h
    exact ⟨happ, hsorted⟩
  | cons p front => simp at h

theorem lex_irrefl (l : List α) : ¬ List.Lex (· < ·) l l := by
  induction l with
  | nil => intro h; cases h
  | cons a l ih =>
    intro h
    cases h with
    | cons h' => exact ih h'
    | rel h' => exact lt_irrefl a h'

theorem lex_trans {l₁ l₂ l₃ : List α} (h₁ : List.Lex (· < ·) l₁ l₂)
    (h₂ : List.Lex (· < ·) l₂ l₃) : List.Lex (· < ·) l₁ l₃ := by
  induction h₁ generalizing l₃ with
  | nil =>
    cases h₂ with
    | cons _ => exact List.Lex.nil
    | rel _ => exact List.Lex.nil
  | cons _ ih =>
    cases h₂ with
    | cons h' => exact List.Lex.cons (ih h')
    | rel h' => exact List.Lex.rel h'
  | rel hab =>
    cases h₂ with
    | cons _ => exact List.Lex.rel hab
    | rel h' => exact List.Lex.rel (lt_trans hab h')

theorem lex_trichotomy (l₁ l₂ : List α) :
    List.Lex (· < ·) l₁ l₂ ∨ l₁ = l₂ ∨ List.Lex (· < ·) l₂ l₁ :=
  trichotomous_of (List.Lex (· < ·)) l₁ l₂

theorem sorted_swap {p e : α} {s₁ s₂ : List α} (hs : (s₁ ++ e :: s₂).Sorted (· ≤ ·))
    (hle : ∀ x ∈ s₁, x ≤ p) (hpe : p < e) : (s₁ ++ p :: s₂).Sorted (· ≤ ·) := by
  obtain ⟨h1, h2, h3⟩ := List.pairwise_append.mp hs
  have h2' := List.pairwise_cons.mp h2
  refine List.pairwise_append.mpr
    ⟨h1, List.pairwise_cons.mpr ⟨fun b hb => le_trans hpe.le (h2'.1 b hb), h2'.2⟩, ?_⟩
  intro a ha b hb
  rcases List.mem_cons.mp hb with hb | hb
  · rw [hb]; exact hle a ha
  · exact h3 a ha b (List.mem_cons_of_mem _ hb)

/-- The arrangement produced by a successful step is the least one above the current
arrangement. -/
theorem lex_least_above {p e : α} {s₁ s₂ : List α} (hs : (s₁ ++ e :: s₂).Sorted (· ≤ ·))
    (hle : ∀ x ∈ s₁, x ≤ p) (hpe : p < e) (front : List α) :
    ∀ q : List α, q.Perm (front ++ p :: (s₁ ++ e :: s₂).reverse) →
      List.Lex (· < ·) (front ++ p :: (s₁ ++ e :: s₂).reverse) q →
      ¬ List.Lex (· < ·) q (front ++ e :: (s₁ ++ p :: s₂)) := by
  induction front with
  | nil =>
    intro q hq hlt hgt
    simp only [List.nil_append] at hq hlt hgt
    cases hlt with
    | cons h' =>
      have hdesc : ((s₁ ++ e :: s₂).reverse).Sorted (· ≥ ·) := by
        unfold List.Sorted
        rw [List.pairwise_reverse]
        exact hs
      exact not_lex_of_sorted_ge hdesc ((List.perm_cons p).mp hq) h'
    | @rel _ _ b q' hpb =>
      have hb : b ∈ p :: (s₁ ++ e :: s₂).reverse := hq.subset (List.mem_cons_self b q')
      have hb' : b ∈ s₁ ++ e :: s₂ := by
        rcases List.mem_cons.mp hb with h | h
        · exact absurd hpb (by rw [h]; exact lt_irrefl p)
        · exact List.mem_reverse.mp h
      have heb : e ≤ b := by
        rcases List.mem_append.mp hb' with h | h
        · exact absurd hpb (not_lt.mpr (hle b h))
        · rcases List.mem_cons.mp h with h | h
          · exact h ▸ le_refl _
          · have h2 := (List.pairwise_append.mp hs).2.1
            exact (List.pairwise_cons.mp h2).1 b h
      cases hgt with
      | cons h' =>
        have hperm : q'.Perm (s₁ ++ p :: s₂) := by
          have := hq.trans (swap_perm [] p _ s₁ s₂).symm
          simp only [List.nil_append] at this
          exact (List.perm_cons _).mp this
        exact not_lex_of_sorted_le (sorted_swap hs hle hpe) hperm h'
      | rel h' => exact absurd h' (not_lt.mpr heb)
  | cons a front ih =>
    intro q hq hlt hgt
    simp only [List.cons_append] at hq hlt hgt
    cases hlt with
    | cons h' =>
      cases hgt with
      | cons h'' => exact ih _ ((List.perm_cons a).mp hq) h' h''
      | rel h'' => exact lt_irrefl a h''
    | rel hab =>
      cases hgt with
      | cons _ => exact lt_irrefl a hab
      | rel h'' => exact lt_asymm hab h''

/-- A successful step of `next_permutation`: a rearrangement, strictly greater, and
the least such. -/
theorem next_permutation_spec_true (hless : ∀ a b, less a b = true ↔ a < b) {xs ys : List α}
    (h : next_permutation less xs = (ys, true)) :
    ys.Perm xs ∧ List.Lex (· < ·) xs ys ∧
      ∀ q : List α, q.Perm xs → List.Lex (· < ·) xs q → ¬ List.Lex (· < ·) q ys := by
  obtain ⟨front, p, e, s₁, s₂, hxs, hys, hs, hle, hpe⟩ := next_permutation_true hless h
  subst hxs hys
  refine ⟨swap_perm front p e s₁ s₂, ?_, lex_least_above hs hle hpe front⟩
  exact List.Lex.append_left _ (List.Lex.rel hpe) front

/-- The exhausted step of `next_permutation`: the current arrangement was the
greatest, and the sequence is left in ascending order. -/
theorem next_permutation_spec_false (hless : ∀ a b, less a b = true ↔ a < b)
    {xs ys : List α} (h : next_permutation less xs = (ys, false)) :
    ys.Perm xs ∧ ys.Sorted (· ≤ ·) ∧ ∀ q : List α, q.Perm xs → ¬ List.Lex (· < ·) xs q := by
  obtain ⟨hrev, hsorted⟩ := next_permutation_false hless h
  refine ⟨hrev ▸ List.reverse_perm xs, hsorted, ?_⟩
  have hdesc : xs.Sorted (· ≥ ·) := by
    have h2 : (xs.reverse).Sorted (· ≤ ·) := hrev ▸ hsorted
    unfold List.Sorted at h2
    rw [List.pairwise_reverse] at h2
    exact h2
  intro q hq
  exact not_lex_of_sorted_ge hdesc hq

end NextPermutation

/-! ## The enumeration driven by `next_permutation` -/

section Enumerate

variable {α : Type} [LinearOrder α] {less : α → α → Bool}

theorem morePerms_lt_factorial {ps c : List α} (hc : c.Perm ps) :
    morePerms ps c < ps.length.factorial := by
  unfold morePerms
  have hmem : c ∈ ps.permutations.toFinset :=
    List.mem_toFinset.mpr (List.mem_permutations.mpr hc)
  have hss : (ps.permutations.toFinset).filter (fun q => List.Lex (· < ·) c q) ⊂
      ps.permutations.toFinset :=
    Finset.filter_ssubset.mpr ⟨c, hmem, lex_irrefl c⟩
  calc _ < (ps.permutations.toFinset).card := Finset.card_lt_card hss
    _ ≤ ps.permutations.length := List.toFinset_card_le _
    _ = ps.length.factorial := List.length_permutations ps

theorem morePerms_lt {ps c c' : List α} (hc' : c'.Perm ps) (h : List.Lex (· < ·) c c') :
    morePerms ps c' < morePerms ps c := by
  unfold morePerms
  apply Finset.card_lt_card
  refine (Finset.ssubset_iff_of_subset ?_).mpr ⟨c', ?_, ?_⟩
  · intro q hq
    rw [Finset.mem_filter] at hq ⊢
    exact ⟨hq.1, lex_trans h hq.2⟩
  · rw [Finset.mem_filter]
    exact ⟨List.mem_toFinset.mpr (List.mem_permutations.mpr hc'), h⟩
  · rw [Finset.mem_filter]
    exact fun hq => lex_irrefl c' hq.2

/-- From any arrangement `c` of `ps`, with a budget above the number of arrangements
greater than `c`, the enumeration ends; it visits, in strictly increasing
lexicographic order, exactly the arrangements of `ps` that are not below `c`, and
leaves the sequence in ascending order. -/
theorem enumerate_spec (hless : ∀ a b, less a b = true ↔ a < b) (ps : List α) :
    ∀ (fuel : Nat) (c : List α), c.Perm ps → morePerms ps c < fuel →
      ∃ tr last, enumerate less fuel c = some (c :: tr, last) ∧
        (c :: tr).Pairwise (List.Lex (· < ·)) ∧ (∀ o ∈ c :: tr, o.Perm ps) ∧
        (∀ q : List α, q.Perm ps → ¬ List.Lex (· < ·) q c → q ∈ c :: tr) ∧
        last.Perm ps ∧ last.Sorted (· ≤ ·) := by
  intro fuel
  induction fuel with
  | zero => intro c _ h; exact absurd h (Nat.not_lt_zero _)
  | succ fuel ih =>
    intro c hc hfuel
    rcases hnp : next_permutation less c with ⟨c', b⟩
    cases b with
    | false =>
      obtain ⟨hperm, hsorted, hgreatest⟩ := next_permutation_spec_false hless hnp
      refine ⟨[], c', ?_, ?_, ?_, ?_, hperm.trans hc, hsorted⟩
      · simp [enumerate, hnp]
      · simp
      · intro o ho
        rw [List.mem_singleton.mp ho]; exact hc
      · intro q hq hnot
        rcases lex_trichotomy q c with h | h | h
        · exact absurd h hnot
        · rw [h]; exact List.mem_singleton_self c
        · exact absurd h (hgreatest q (hq.trans hc.symm))
    | true =>
      obtain ⟨hperm, hlt, hleast⟩ := next_permutation_spec_true hless hnp
      have hc' : c'.Perm ps := hperm.trans hc
      have hm : morePerms ps c' < fuel :=
        lt_of_lt_of_le (morePerms_lt hc' hlt) (Nat.lt_succ_iff.mp hfuel)
      obtain ⟨tr, last, henum, hpw, hall, hcomplete, hlast⟩ := ih c' hc' hm
      refine ⟨c' :: tr, last, ?_, ?_, ?_, ?_, hlast⟩
      · simp [enumerate, hnp, henum]
      · refine List.pairwise_cons.mpr ⟨?_, hpw⟩
        intro o ho
        rcases List.mem_cons.mp ho with h | h
        · rw [h]; exact hlt
        · exact lex_trans hlt ((List.pairwise_cons.mp hpw).1 o h)
      · intro o ho
        rcases List.mem_cons.mp ho with h | h
        · rw [h]; exact hc
        · exact hall o h
      · intro q hq hnot
        rcases lex_trichotomy q c with h | h | h
        · exact absurd h hnot
        · rw [h]; exact List.mem_cons_self c _
        · exact List.mem_cons_of_mem c
            (hcomplete q hq (hleast q (hq.trans hc.symm) h))

end Enumerate

theorem Point3D.lt_def {R : Type} [LinearOrder R] (a b : Point3D R) :
    a < b ↔ a.x < b.x ∨ a.x = b.x ∧ (a.y < b.y ∨ a.y = b.y ∧ a.z < b.z) := by
  show toLex (a.x, toLex (a.y, a.z)) < toLex (b.x, toLex (b.y, b.z)) ↔ _
  rw [Prod.Lex.lt_iff]
  simp only [Prod.Lex.lt_iff]

section PointOrder

variable {R : Type} [DoubleOps R] [LinearOrder R] {isCoord isLength : R → Prop}

/-- On well-formed points `Point3D::operator<` decides the lexicographic order on
`(x, y, z)`. -/
theorem Point3D.lt_iff (hlaw : Lawful isCoord isLength) (a b : Point3D R)
    (ha : a.WF isCoord) (hb : b.WF isCoord) : Point3D.lt a b = true ↔ a < b := by
  rw [Point3D.lt_def]
  unfold Point3D.lt
  have lx := hlaw.coord_lt a.x b.x ha.1 hb.1
  have ly := hlaw.coord_lt a.y b.y ha.2.1 hb.2.1
  have lz := hlaw.coord_lt a.z b.z ha.2.2 hb.2.2
  have nx := hlaw.coord_ne a.x b.x ha.1 hb.1
  have ny := hlaw.coord_ne a.y b.y ha.2.1 hb.2.1
  by_cases hx : a.x = b.x
  · have h1 : DoubleOps.ne a.x b.x = false := by
      rw [Bool.eq_false_iff]; intro h; exact nx.mp h hx
    by_cases hy : a.y = b.y
    · have h2 : DoubleOps.ne a.y b.y = false := by
        rw [Bool.eq_false_iff]; intro h; exact ny.mp h hy
      simp only [h1, h2, Bool.false_eq_true, if_false, lz]
      simp [hx, hy]
    · have h2 : DoubleOps.ne a.y b.y = true := ny.mpr hy
      simp only [h1, h2, Bool.false_eq_true, if_false, if_true, ly]
      simp [hx, hy]
  · have h1 : DoubleOps.ne a.x b.x = true := nx.mpr hx
    simp only [h1, if_true, lx]
    simp [hx]

end PointOrder

/-! ## The body of the loop -/

theorem elemAt_eq {α : Type} (front : List α) (a : α) (rest : List α) :
    elemAt (front ++ a :: rest) front.length = .ok a := by
  unfold elemAt
  rw [List.getElem?_append_right (le_refl _)]
  simp

theorem sumLoop_eq {R : Type} [DoubleOps R] (rest : List (Point3D R)) :
    ∀ (front : List (Point3D R)) (a : Point3D R) (cur : R),
      sumLoop (front ++ a :: rest) rest.length front.length cur =
        .ok ((List.zip (a :: rest) rest).foldl
          (fun acc ab => DoubleOps.add acc (calcDistance ab.1 ab.2)) cur) := by
  induction rest with
  | nil => intro front a cur; rfl
  | cons b rest ih =>
    intro front a cur
    have h1 : elemAt (front ++ a :: b :: rest) front.length = .ok a := elemAt_eq front a _
    have h2 : elemAt (front ++ a :: b :: rest) (front.length + 1) = .ok b := by
      have := elemAt_eq (front ++ [a]) b rest
      simpa using this
    have h3 := ih (front ++ [a]) b (DoubleOps.add cur (calcDistance a b))
    simp only [List.append_assoc, List.singleton_append, List.length_append,
      List.length_singleton] at h3
    simp only [List.length_cons, sumLoop, h1, h2, h3, List.zip_cons_cons, List.foldl_cons]

/-- Index safety and meaning of the loop body: on a non-empty ordering whose size fits
`size_t`, lines 73 to 78 compute the specification's path length. -/
theorem pathLength_eq_spec {R : Type} [DoubleOps R] (start : Point3D R)
    {q : List (Point3D R)} (hne : q ≠ []) (hsz : q.length < 2 ^ 64) :
    ∃ len, specLength start q = some len ∧ pathLength start q = .ok len := by
  cases q with
  | nil => exact absurd rfl hne
  | cons p rest =>
    refine ⟨_, rfl, ?_⟩
    have hb : ((p :: rest).length + 2 ^ 64 - 1) % 2 ^ 64 = rest.length := by
      simp only [List.length_cons] at hsz ⊢
      omega
    have h0 : elemAt (p :: rest) 0 = .ok p := elemAt_eq [] p rest
    have h1 := sumLoop_eq rest [] p (calcDistance start p)
    simp only [List.nil_append, List.length_nil] at h1
    simp only [pathLength, h0, hb, h1]

/-- The loop of `solveTSP` runs through the orderings of `enumerate`, folding the
update of lines 81 to 84. -/
theorem searchLoop_eq {R : Type} [DoubleOps R] (start : Point3D R) :
    ∀ (fuel : Nat) (c : List (Point3D R)) (m : R) (b : List (Point3D R))
      (log tr : List (List (Point3D R))) (last : List (Point3D R)),
      enumerate Point3D.lt fuel c = some (tr, last) →
      (∀ o ∈ tr, ∃ len, pathLength start o = .ok len) →
      searchLoop start fuel c m b log =
        .ok ⟨⟨(tr.foldl (improve start) (m, b)).1, (tr.foldl (improve start) (m, b)).2⟩,
          last, log ++ tr⟩ := by
  intro fuel
  induction fuel with
  | zero => intro c m b log tr last h; simp [enumerate] at h
  | succ fuel ih =>
    intro c m b log tr last h hlen
    rcases hnp : next_permutation Point3D.lt c with ⟨c', flag⟩
    cases flag with
    | false =>
      simp only [enumerate, hnp, Option.some.injEq, Prod.mk.injEq] at h
      obtain ⟨htr, hlast⟩ := h
      subst htr hlast
      obtain ⟨len, hl⟩ := hlen c (List.mem_singleton_self c)
      simp only [searchLoop, hl, hnp, List.foldl_cons, List.foldl_nil, improve]
    | true =>
      simp only [enumerate, hnp] at h
      rcases hen : enumerate Point3D.lt fuel c' with _ | ⟨tr', last'⟩
      · simp [hen] at h
      · simp only [hen, Option.some.injEq, Prod.mk.injEq] at h
        obtain ⟨htr, hlast⟩ := h
        subst htr hlast
        obtain ⟨len, hl⟩ := hlen c (List.mem_cons_self c tr')
        have hrec := ih c' (if DoubleOps.lt len m = true then (len, c) else (m, b)).1
          (if DoubleOps.lt len m = true then (len, c) else (m, b)).2 (log ++ [c]) tr' last' hen
          (fun o ho => hlen o (List.mem_cons_of_mem c ho))
        simp only [searchLoop, hl, hnp, hrec, List.foldl_cons, improve, List.append_assoc,
          List.singleton_append]

/-! ## `std::sort` -/

section SortSpec

variable {α : Type} [LinearOrder α] {less : α → α → Bool}

theorem sort_perm {β : Type} (less : β → β → Bool) (l : List β) : (sort less l).Perm l :=
  List.perm_insertionSort _ l

theorem sort_sorted (hless : ∀ a b, less a b = true ↔ a < b) (l : List α) :
    (sort less l).Sorted (· ≤ ·) := by
  have hle : ∀ a b, less b a = false ↔ a ≤ b := by
    intro a b
    rw [← not_lt, ← hless b a, Bool.not_eq_true]
  haveI : IsTotal α (fun a b => less b a = false) :=
    ⟨fun a b => by rw [hle, hle]; exact le_total a b⟩
  haveI : IsTrans α (fun a b => less b a = false) :=
    ⟨fun a b c => by rw [hle, hle, hle]; exact le_trans⟩
  have h := List.sorted_insertionSort (fun a b => less b a = false) l
  exact List.Pairwise.imp (fun {a b} hab => (hle a b).mp hab) h

theorem sort_eq_of_perm (hless : ∀ a b, less a b = true ↔ a < b) {l₁ l₂ : List α}
    (h : l₁.Perm l₂) : sort less l₁ = sort less l₂ :=
  List.eq_of_perm_of_sorted (((sort_perm less l₁).trans h).trans (sort_perm less l₂).symm)
    (sort_sorted hless l₁) (sort_sorted hless l₂)

end SortSpec

/-! ## The minimum kept by the loop -/

section Minimum

variable {R : Type} [DoubleOps R] [LinearOrder R] {isCoord isLength : R → Prop}

theorem foldl_isLength (hlaw : Lawful isCoord isLength) :
    ∀ (l : List (Point3D R × Point3D R)) (cur : R), isLength cur →
      (∀ ab ∈ l, ab.1.WF isCoord ∧ ab.2.WF isCoord) →
      isLength (l.foldl (fun acc ab => DoubleOps.add acc (calcDistance ab.1 ab.2)) cur) := by
  intro l
  induction l with
  | nil => intro cur hcur _; exact hcur
  | cons ab l ih =>
    intro cur hcur h
    have hab := h ab (List.mem_cons_self ab l)
    exact ih _ (hlaw.length_add _ _ hcur (hlaw.length_dist _ _ hab.1 hab.2))
      (fun x hx => h x (List.mem_cons_of_mem ab hx))

/-- The path length of well-formed points is a well-formed length. -/
theorem specLength_isLength (hlaw : Lawful isCoord isLength) {start : Point3D R}
    (hstart : start.WF isCoord) {q : List (Point3D R)} (hq : ∀ p ∈ q, p.WF isCoord) {len : R}
    (h : specLength start q = some len) : isLength len := by
  cases q with
  | nil => cases h
  | cons p rest =>
    simp only [specLength, Option.some.injEq] at h
    rw [← h]
    apply foldl_isLength hlaw _ _
      (hlaw.length_dist _ _ hstart (hq p (List.mem_cons_self p rest)))
    intro ab hab
    have := List.of_mem_zip hab
    exact ⟨hq _ this.1, hq _ (List.mem_cons_of_mem p this.2)⟩

/-- After the update has been folded over the orderings `tr`: the kept length is at
most every measured length; and either nothing was below the initial `m` and the pair
is untouched, or the kept ordering is the first of `tr` with the kept length, which is
its own length and is below `m`. -/
theorem foldl_improve_spec (hlaw : Lawful isCoord isLength) (start : Point3D R) :
    ∀ (tr : List (List (Point3D R))) (m : R) (b : List (Point3D R)), isLength m →
      (∀ o ∈ tr, ∃ len, pathLength start o = .ok len ∧ isLength len) →
      (∀ o ∈ tr, ∀ len, pathLength start o = .ok len →
          (tr.foldl (improve start) (m, b)).1 ≤ len) ∧
        ((tr.foldl (improve start) (m, b) = (m, b) ∧
            ∀ o ∈ tr, ∀ len, pathLength start o = .ok len → m ≤ len) ∨
          ∃ l₁ l₂, tr = l₁ ++ (tr.foldl (improve start) (m, b)).2 :: l₂ ∧
            pathLength start (tr.foldl (improve start) (m, b)).2 =
              .ok (tr.foldl (improve start) (m, b)).1 ∧
            (tr.foldl (improve start) (m, b)).1 < m ∧
            ∀ o ∈ l₁, ∀ len, pathLength start o = .ok len →
              (tr.foldl (improve start) (m, b)).1 < len) := by
  intro tr
  induction tr with
  | nil =>
    intro m b _ _
    exact ⟨fun o ho => (by cases ho), Or.inl ⟨rfl, fun o ho => (by cases ho)⟩⟩
  | cons o tr ih =>
    intro m b hm hlen
    obtain ⟨len₀, hl₀, hL₀⟩ := hlen o (List.mem_cons_self o tr)
    have hlen' : ∀ o' ∈ tr, ∃ len, pathLength start o' = .ok len ∧ isLength len :=
      fun o' ho' => hlen o' (List.mem_cons_of_mem o ho')
    by_cases hlt : len₀ < m
    · have himp : improve start (m, b) o = (len₀, o) := by
        simp [improve, hl₀, (hlaw.length_lt len₀ m hL₀ hm).mpr hlt]
      rw [List.foldl_cons, himp]
      obtain ⟨hmin, hdisj⟩ := ih len₀ o hL₀ hlen'
      generalize tr.foldl (improve start) (len₀, o) = r at hmin hdisj
      have hr : r.1 ≤ len₀ := by
        rcases hdisj with ⟨h, _⟩ | ⟨_, _, _, _, h, _⟩
        · rw [h]
        · exact h.le
      refine ⟨?_, Or.inr ?_⟩
      · intro o' ho' len hl
        rcases List.mem_cons.mp ho' with h | h
        · rw [h, hl₀] at hl
          cases hl
          exact hr
        · exact hmin o' h len hl
      · rcases hdisj with ⟨h, _⟩ | ⟨l₁, l₂, h1, h2, h3, h4⟩
        · refine ⟨[], tr, ?_, ?_, ?_, ?_⟩
          · rw [h]; rfl
          · rw [h]; exact hl₀
          · rw [h]; exact hlt
          · intro o' ho'; cases ho'
        · refine ⟨o :: l₁, l₂, ?_, h2, lt_trans h3 hlt, ?_⟩
          · rw [List.cons_append, ← h1]
          · intro o' ho' len hl
            rcases List.mem_cons.mp ho' with h | h
            · rw [h, hl₀] at hl
              cases hl
              exact h3
            · exact h4 o' h len hl
    · have himp : improve start (m, b) o = (m, b) := by
        have : DoubleOps.lt len₀ m = false := by
          rw [Bool.eq_false_iff]; exact fun h => hlt ((hlaw.length_lt len₀ m hL₀ hm).mp h)
        simp [improve, hl₀, this]
      rw [List.foldl_cons, himp]
      obtain ⟨hmin, hdisj⟩ := ih m b hm hlen'
      generalize tr.foldl (improve start) (m, b) = r at hmin hdisj
      have hr : r.1 ≤ len₀ := by
        rcases hdisj with ⟨h, _⟩ | ⟨_, _, _, _, h, _⟩
        · rw [h]; exact not_lt.mp hlt
        · exact le_trans h.le (not_lt.mp hlt)
      refine ⟨?_, ?_⟩
      · intro o' ho' len hl
        rcases List.mem_cons.mp ho' with h | h
        · rw [h, hl₀] at hl
          cases hl
          exact hr
        · exact hmin o' h len hl
      · rcases hdisj with ⟨h, hall⟩ | ⟨l₁, l₂, h1, h2, h3, h4⟩
        · refine Or.inl ⟨h, ?_⟩
          intro o' ho' len hl
          rcases List.mem_cons.mp ho' with h' | h'
          · rw [h', hl₀] at hl
            cases hl
            exact not_lt.mp hlt
          · exact hall o' h' len hl
        · refine Or.inr ⟨o :: l₁, l₂, ?_, h2, h3, ?_⟩
          · rw [List.cons_append, ← h1]
          · intro o' ho' len hl
            rcases List.mem_cons.mp ho' with h | h
            · rw [h, hl₀] at hl
              cases hl
              exact lt_of_lt_of_le h3 (not_lt.mp hlt)
            · exact h4 o' h len hl

end Minimum

/-! ## A run of `solveTSP` -/

section RunSpec

variable {R : Type} [DoubleOps R] [LinearOrder R] {isCoord isLength : R → Prop}

/-- A run of `solveTSP` on a non-empty list of well-formed points: it returns; the
orderings it evaluates are, in strictly increasing lexicographic order, all the
arrangements of the input; each has a path length; the result is the update of lines
81 to 84 folded over them from `(max, [])`; and the argument is left sorted. -/
theorem solveTSPRun_spec (hlaw : Lawful isCoord isLength) (start : Point3D R)
    (ps : List (Point3D R)) (hstart : start.WF isCoord) (hps : ∀ p ∈ ps, p.WF isCoord)
    (hne : ps ≠ []) (hsz : ps.length < 2 ^ 64) :
    ∃ tr : List (List (Point3D R)),
      solveTSPRun start ps =
        .ok ⟨⟨(tr.foldl (improve start) (DoubleOps.maxVal, [])).1,
              (tr.foldl (improve start) (DoubleOps.maxVal, [])).2⟩,
            sort Point3D.lt ps, tr⟩ ∧
      tr.Pairwise (List.Lex (· < ·)) ∧ (∀ o ∈ tr, o.Perm ps) ∧
      (∀ q : List (Point3D R), q.Perm ps → q ∈ tr) ∧
      (∀ o ∈ tr, ∃ len, pathLength start o = .ok len ∧ specLength start o = some len ∧
        isLength len) ∧
      (sort Point3D.lt ps).Sorted (· ≤ ·) ∧ tr.head? = some (sort Point3D.lt ps) := by
  have hless' : ∀ a b : Point3D R, decide (a < b) = true ↔ a < b := fun a b => by simp
  have hagree : ∀ a ∈ ps, ∀ b ∈ ps, Point3D.lt a b = decide (a < b) := by
    intro a ha b hb
    exact Bool.eq_iff_iff.mpr
      ((Point3D.lt_iff hlaw a b (hps a ha) (hps b hb)).trans (hless' a b).symm)
  have hsort : sort Point3D.lt ps = sort (fun a b : Point3D R => decide (a < b)) ps :=
    sort_congr ps hagree
  have hc₀ : (sort Point3D.lt ps).Perm ps := sort_perm _ ps
  have hs₀ : (sort Point3D.lt ps).Sorted (· ≤ ·) := hsort ▸ sort_sorted hless' ps
  obtain ⟨tr, last, henum, hpw, hall, hcomplete, hlp, hls⟩ :=
    enumerate_spec hless' ps ps.length.factorial (sort Point3D.lt ps) hc₀
      (morePerms_lt_factorial hc₀)
  have henum' : enumerate Point3D.lt ps.length.factorial (sort Point3D.lt ps) =
      some (sort Point3D.lt ps :: tr, last) :=
    (enumerate_congr ps hagree _ _ hc₀).trans henum
  have hlast : last = sort Point3D.lt ps :=
    List.eq_of_perm_of_sorted (hlp.trans hc₀.symm) hls hs₀
  have hlen : ∀ o ∈ sort Point3D.lt ps :: tr, ∃ len, pathLength start o = .ok len ∧
      specLength start o = some len ∧ isLength len := by
    intro o ho
    have hperm := hall o ho
    have hone : o ≠ [] := fun h => hne (List.Perm.eq_nil (h ▸ hperm.symm))
    obtain ⟨len, h1, h2⟩ :=
      pathLength_eq_spec start hone (by rw [hperm.length_eq]; exact hsz)
    exact ⟨len, h2, h1, specLength_isLength hlaw hstart
      (fun p hp => hps p (hperm.subset hp)) h1⟩
  have hloop := searchLoop_eq start ps.length.factorial (sort Point3D.lt ps)
    DoubleOps.maxVal [] [] _ last henum' (fun o ho => (hlen o ho).imp fun _ h => h.1)
  refine ⟨sort Point3D.lt ps :: tr, ?_, hpw, hall, ?_, hlen, hs₀, rfl⟩
  · unfold solveTSPRun
    rw [hloop, hlast]
    rfl
  · intro q hq
    exact hcomplete q hq (not_lex_of_sorted_le hs₀ (hq.trans hc₀.symm))

theorem solveTSP_of_run {S : Type} [DoubleOps S] {start : Point3D S} {ps : List (Point3D S)}
    {run : Run S} (h : solveTSPRun start ps = .ok run) :
    solveTSP start ps = .ok run.result := by
  simp only [solveTSP, h]

/-- The result of `solveTSP` on a non-empty list of well-formed points, in the terms of
the specification: the returned length is at most the path length of every
arrangement; and either no arrangement is below `max` and the result is `(max, [])`,
or the returned ordering is the first evaluated one whose path length is the returned
length, which is below `max`. -/
theorem solveTSP_spec (hlaw : Lawful isCoord isLength) (start : Point3D R)
    (ps : List (Point3D R)) (hstart : start.WF isCoord) (hps : ∀ p ∈ ps, p.WF isCoord)
    (hne : ps ≠ []) (hsz : ps.length < 2 ^ 64) :
    ∃ (r : TSPResult R) (tr : List (List (Point3D R))),
      solveTSPRun start ps = .ok ⟨r, sort Point3D.lt ps, tr⟩ ∧
      tr.Pairwise (List.Lex (· < ·)) ∧ (∀ o ∈ tr, o.Perm ps) ∧
      (∀ q : List (Point3D R), q.Perm ps → q ∈ tr) ∧ isLength r.minDistance ∧
      (∀ q : List (Point3D R), q.Perm ps →
        ∃ len, specLength start q = some len ∧ isLength len ∧ r.minDistance ≤ len) ∧
      ((r = ⟨DoubleOps.maxVal, []⟩ ∧ ∀ q : List (Point3D R), q.Perm ps →
          ∀ len, specLength start q = some len → DoubleOps.maxVal ≤ len) ∨
        ∃ l₁ l₂, tr = l₁ ++ r.bestPath :: l₂ ∧
          specLength start r.bestPath = some r.minDistance ∧
          r.minDistance < DoubleOps.maxVal ∧
          ∀ o ∈ l₁, ∀ len, specLength start o = some len → r.minDistance < len) := by
  obtain ⟨tr, hrun, hpw, hall, hcomplete, hlen, _, _⟩ :=
    solveTSPRun_spec hlaw start ps hstart hps hne hsz
  obtain ⟨hmin, hdisj⟩ := foldl_improve_spec hlaw start tr DoubleOps.maxVal []
    hlaw.length_max (fun o ho => (hlen o ho).imp fun _ h => ⟨h.1, h.2.2⟩)
  have hconv : ∀ o ∈ tr, ∀ len, specLength start o = some len → pathLength start o = .ok len := by
    intro o ho len hs
    obtain ⟨len', h1, h2, _⟩ := hlen o ho
    rw [h2] at hs
    cases hs
    exact h1
  generalize tr.foldl (improve start) (DoubleOps.maxVal, []) = r at hrun hmin hdisj
  refine ⟨⟨r.1, r.2⟩, tr, hrun, hpw, hall, hcomplete, ?_, ?_, ?_⟩
  · rcases hdisj with ⟨h, _⟩ | ⟨l₁, l₂, h1, h2, _, _⟩
    · rw [h]; exact hlaw.length_max
    · have hmem : r.2 ∈ tr := by
        rw [h1]; simp
      obtain ⟨len', p1, _, p3⟩ := hlen _ hmem
      rw [h2] at p1
      cases p1
      exact p3
  · intro q hq
    obtain ⟨len, h1, h2, h3⟩ := hlen q (hcomplete q hq)
    exact ⟨len, h2, h3, hmin q (hcomplete q hq) len h1⟩
  · rcases hdisj with ⟨h, hge⟩ | ⟨l₁, l₂, h1, h2, h3, h4⟩
    · refine Or.inl ⟨?_, ?_⟩
      · rw [h]
      · intro q hq len hs
        exact hge q (hcomplete q hq) len (hconv q (hcomplete q hq) len hs)
    · refine Or.inr ⟨l₁, l₂, h1, ?_, h3, ?_⟩
      · have hmem : r.2 ∈ tr := by
          rw [h1]; simp
        obtain ⟨len', p1, p2, _⟩ := hlen _ hmem
        rw [h2] at p1
        cases p1
        exact p2
      · intro o ho len hs
        have hmem : o ∈ tr := by rw [h1]; exact List.mem_append_left _ ho
        exact h4 o ho len (hconv o hmem len hs)

end RunSpec

/-! ## Binary64 obeys the laws -/

namespace F64

theorem lt_iff_key (a b : F64) :
    a < b ↔ (key a).1 < (key b).1 ∨ (key a).1 = (key b).1 ∧ (key a).2 < (key b).2 := by
  show toLex ((key a).1, (key a).2) < toLex ((key b).1, (key b).2) ↔ _
  rw [Prod.Lex.lt_iff]

theorem ofUnits_cases (negative : Bool) (u : Nat) :
    ofUnits negative u = (if negative then ninf else pinf) ∨
      ofUnits negative u = fin (if negative then -(u : Int) else (u : Int)) := by
  by_cases h : overflowUnits ≤ u
  · exact Or.inl (if_pos h)
  · exact Or.inr (if_neg h)

theorem round_isLength {k : Int} (hk : 0 ≤ k) (d : Nat) (sticky : Bool) :
    isLength (round k d sticky) := by
  have h : decide (k < 0) = false := by simpa using hk
  unfold round
  rw [h]
  rcases ofUnits_cases false (roundUnits k.natAbs d sticky) with h' | h'
  · rw [h']; exact True.intro
  · rw [h']; exact Int.natCast_nonneg _

theorem round_ne_nan (k : Int) (d : Nat) (sticky : Bool) : round k d sticky ≠ nan := by
  unfold round
  rcases ofUnits_cases (decide (k < 0)) (roundUnits k.natAbs d sticky) with h' | h'
  · rw [h']; split <;> exact fun h => by cases h
  · rw [h']; exact fun h => by cases h

theorem add_isLength {a b : F64} (ha : isLength a) (hb : isLength b) :
    isLength (add a b) := by
  cases a <;> cases b <;> simp_all [isLength, add]
  exact round_isLength (add_nonneg ha hb) 0 false

theorem sub_ne_nan {a b : F64} (ha : isFinite a) (hb : isFinite b) : sub a b ≠ nan := by
  cases a <;> cases b <;> simp_all [isFinite, sub, neg, add]
  exact round_ne_nan _ _ _

theorem mul_self_isLength {a : F64} (ha : a ≠ nan) : isLength (mul a a) := by
  cases a with
  | nan => exact absurd rfl ha
  | ninf => simp [mul, sgn, isLength]
  | pinf => simp [mul, sgn, isLength]
  | fin k =>
    simp only [mul]
    exact round_isLength (mul_self_nonneg k) 1074 false

theorem sqrt_isLength {a : F64} (ha : isLength a) : isLength (sqrt a) := by
  cases a with
  | nan => exact absurd ha (by simp [isLength])
  | ninf => exact absurd ha (by simp [isLength])
  | pinf => simp [sqrt, isLength]
  | fin k =>
    have hk : ¬ k < 0 := not_lt.mpr ha
    simp only [sqrt, hk, if_false]
    exact round_isLength (Int.natCast_nonneg _) 0 _

/-- Binary64 obeys the laws of `Lawful`, with the finite numbers as coordinates and
the numbers from `0` to `+∞` as lengths. -/
theorem lawful : Lawful isFinite isLength where
  coord_lt := by
    intro a b ha hb
    cases a <;> cases b <;> simp_all [isFinite]
    rw [lt_iff_key]
    show F64.lt _ _ = true ↔ _
    simp [F64.lt, key]
  coord_ne := by
    intro a b ha hb
    cases a <;> cases b <;> simp_all [isFinite]
    show F64.ne _ _ = true ↔ _
    simp [F64.ne]
  length_lt := by
    intro a b ha hb
    rw [lt_iff_key]
    show F64.lt _ _ = true ↔ _
    cases a <;> cases b <;> simp_all [isLength, F64.lt, key]
  length_max := by
    show (0 : Int) ≤ (((2 ^ 53 - 1) * 2 ^ 2045 : Nat) : Int)
    exact Int.natCast_nonneg _
  length_add := fun a b ha hb => add_isLength ha hb
  length_dist := by
    intro a b ha hb
    show isLength (sqrt (add (add (mul (sub a.x b.x) (sub a.x b.x))
      (mul (sub a.y b.y) (sub a.y b.y))) (mul (sub a.z b.z) (sub a.z b.z))))
    exact sqrt_isLength (add_isLength (add_isLength
      (mul_self_isLength (sub_ne_nan ha.1 hb.1)) (mul_self_isLength (sub_ne_nan ha.2.1 hb.2.1)))
      (mul_self_isLength (sub_ne_nan ha.2.2 hb.2.2)))

end F64

/-! ## The claims -/

/-!
In the statements below `hlaw` fixes an arithmetic that obeys `Lawful` (binary64 does,
`F64.lawful`), `hstart` and `hps` say that the coordinates are well-formed (finite, for
binary64: the "real-valued coordinates" of the specification), and `hsz` that the size
of the destination vector is a `size_t`.  Path lengths are those of `specLength`, the
formula of the specification.
-/

section Claims

variable {R : Type} [DoubleOps R] [LinearOrder R] {isCoord isLength : R → Prop}

theorem sort_lt_eq_of_perm (hlaw : Lawful isCoord isLength) {ps qs : List (Point3D R)}
    (hps : ∀ p ∈ ps, p.WF isCoord) (hperm : ps.Perm qs) :
    sort Point3D.lt ps = sort Point3D.lt qs := by
  have hless' : ∀ a b : Point3D R, decide (a < b) = true ↔ a < b := fun a b => by simp
  have hagree : ∀ a ∈ ps, ∀ b ∈ ps, Point3D.lt a b = decide (a < b) := by
    intro a ha b hb
    exact Bool.eq_iff_iff.mpr
      ((Point3D.lt_iff hlaw a b (hps a ha) (hps b hb)).trans (hless' a b).symm)
  have hagree' : ∀ a ∈ qs, ∀ b ∈ qs, Point3D.lt a b = decide (a < b) :=
    fun a ha b hb => hagree a (hperm.symm.subset ha) b (hperm.symm.subset hb)
  rw [sort_congr ps hagree, sort_congr qs hagree']
  exact sort_eq_of_perm hless' hperm

/-- When some arrangement is shorter than `max`, the loop has kept an ordering: the
first evaluated one with the least path length. -/
theorem solveTSP_spec_below (hlaw : Lawful isCoord isLength) (start : Point3D R)
    (ps : List (Point3D R)) (hstart : start.WF isCoord) (hps : ∀ p ∈ ps, p.WF isCoord)
    (hne : ps ≠ []) (hsz : ps.length < 2 ^ 64)
    (hbelow : ∃ q len, q.Perm ps ∧ specLength start q = some len ∧ len < DoubleOps.maxVal) :
    ∃ (r : TSPResult R) (l₁ l₂ : List (List (Point3D R))),
      solveTSPRun start ps = .ok ⟨r, sort Point3D.lt ps, l₁ ++ r.bestPath :: l₂⟩ ∧
      (l₁ ++ r.bestPath :: l₂).Pairwise (List.Lex (· < ·)) ∧
      (∀ o ∈ l₁ ++ r.bestPath :: l₂, o.Perm ps) ∧
      (∀ q : List (Point3D R), q.Perm ps → q ∈ l₁ ++ r.bestPath :: l₂) ∧
      (∀ q : List (Point3D R), q.Perm ps →
        ∃ len, specLength start q = some len ∧ r.minDistance ≤ len) ∧
      specLength start r.bestPath = some r.minDistance ∧
      (∀ o ∈ l₁, ∀ len, specLength start o = some len → r.minDistance < len) := by
  obtain ⟨r, tr, hrun, hpw, hall, hcomplete, _, hmin, hdisj⟩ :=
    solveTSP_spec hlaw start ps hstart hps hne hsz
  rcases hdisj with ⟨_, hge⟩ | ⟨l₁, l₂, h1, h2, _, h4⟩
  · obtain ⟨q, len, hq, hs, hlt⟩ := hbelow
    exact absurd hlt (not_lt.mpr (hge q hq len hs))
  · refine ⟨r, l₁, l₂, h1 ▸ hrun, h1 ▸ hpw, h1 ▸ hall, h1 ▸ hcomplete, ?_, h2, h4⟩
    intro q hq
    obtain ⟨len, h, _, h'⟩ := hmin q hq
    exact ⟨len, h, h'⟩

/-- C1 (optimality, P2): for every start point and every non-empty destination list
`ps` (coordinates well-formed, that is finite for binary64; a size that fits `size_t`),
`solveTSP` returns, and the returned `minDistance` is less than or equal to the path
length `distance(start, q[0]) + Σ distance(q[i], q[i+1])` of every permutation `q` of
`ps`; in the program's own terms, no such path length is `<` the returned one. -/
theorem solveTSP_optimal (hlaw : Lawful isCoord isLength) (start : Point3D R)
    (ps : List (Point3D R)) (hstart : start.WF isCoord) (hps : ∀ p ∈ ps, p.WF isCoord)
    (hne : ps ≠ []) (hsz : ps.length < 2 ^ 64) :
    ∃ r, solveTSP start ps = .ok r ∧
      ∀ q : List (Point3D R), q.Perm ps →
        ∃ len, specLength start q = some len ∧ r.minDistance ≤ len ∧
          DoubleOps.lt len r.minDistance = false := by
  obtain ⟨r, tr, hrun, _, _, _, hr, hmin, _⟩ :=
    solveTSP_spec hlaw start ps hstart hps hne hsz
  refine ⟨r, solveTSP_of_run hrun, ?_⟩
  intro q hq
  obtain ⟨len, h, hl, h'⟩ := hmin q hq
  refine ⟨len, h, h', ?_⟩
  rw [Bool.eq_false_iff]
  exact fun hlt => absurd ((hlaw.length_lt len r.minDistance hl hr).mp hlt) (not_lt.mpr h')

/-- C2 (result consistency), amended: for every start point and every non-empty
destination list of well-formed points of which some ordering has a path length below
`numeric_limits<double>::max()`, the returned `minDistance` is the path length of the
returned `bestPath` under the defined formula. -/
theorem solveTSP_consistent (hlaw : Lawful isCoord isLength) (start : Point3D R)
    (ps : List (Point3D R)) (hstart : start.WF isCoord) (hps : ∀ p ∈ ps, p.WF isCoord)
    (hne : ps ≠ []) (hsz : ps.length < 2 ^ 64)
    (hbelow : ∃ q len, q.Perm ps ∧ specLength start q = some len ∧ len < DoubleOps.maxVal) :
    ∃ r, solveTSP start ps = .ok r ∧ specLength start r.bestPath = some r.minDistance := by
  obtain ⟨r, l₁, l₂, hrun, _, _, _, _, h, _⟩ :=
    solveTSP_spec_below hlaw start ps hstart hps hne hsz hbelow
  exact ⟨r, solveTSP_of_run hrun, h⟩

/-- C3 (orderings are permutations), amended: for every start point and every
non-empty destination list `ps` of well-formed points, every ordering whose length
the loop evaluates is a permutation of `ps` (same length, every point as often as in
`ps`); so is the returned `bestPath` when some ordering has a path length below
`numeric_limits<double>::max()`. -/
theorem solveTSP_orderings_perm (hlaw : Lawful isCoord isLength) (start : Point3D R)
    (ps : List (Point3D R)) (hstart : start.WF isCoord) (hps : ∀ p ∈ ps, p.WF isCoord)
    (hne : ps ≠ []) (hsz : ps.length < 2 ^ 64) :
    ∃ run, solveTSPRun start ps = .ok run ∧
      (∀ o ∈ run.evaluated, o.Perm ps ∧ o.length = ps.length) ∧
      ((∃ q len, q.Perm ps ∧ specLength start q = some len ∧ len < DoubleOps.maxVal) →
        run.result.bestPath.Perm ps ∧ run.result.bestPath.length = ps.length) := by
  obtain ⟨r, tr, hrun, _, hall, _, _, _, hdisj⟩ :=
    solveTSP_spec hlaw start ps hstart hps hne hsz
  refine ⟨_, hrun, fun o ho => ⟨hall o ho, (hall o ho).length_eq⟩, ?_⟩
  intro hbelow
  rcases hdisj with ⟨_, hge⟩ | ⟨l₁, l₂, h1, _, _, _⟩
  · obtain ⟨q, len, hq, hs, hlt⟩ := hbelow
    exact absurd hlt (not_lt.mpr (hge q hq len hs))
  · have hmem : r.bestPath ∈ tr := by rw [h1]; simp
    exact ⟨hall _ hmem, (hall _ hmem).length_eq⟩

/-- C4 (permutation completeness, P1), amended: for any destination list of size
`n ≥ 1`, coincident points included, every ordering the loop of `solveTSP` evaluates is
a permutation of the input, none is evaluated twice and no permutation of the input is
omitted; the number of evaluated orderings is exactly `n!` when the points are pairwise
distinct. -/
theorem solveTSP_evaluates_all (hlaw : Lawful isCoord isLength) (start : Point3D R)
    (ps : List (Point3D R)) (hstart : start.WF isCoord) (hps : ∀ p ∈ ps, p.WF isCoord)
    (hne : ps ≠ []) (hsz : ps.length < 2 ^ 64) :
    ∃ run, solveTSPRun start ps = .ok run ∧
      (∀ o ∈ run.evaluated, o.Perm ps) ∧ run.evaluated.Nodup ∧
      (∀ q : List (Point3D R), q.Perm ps → q ∈ run.evaluated) ∧
      (ps.Nodup → run.evaluated.length = ps.length.factorial) := by
  obtain ⟨r, tr, hrun, hpw, hall, hcomplete, _, _, _⟩ :=
    solveTSP_spec hlaw start ps hstart hps hne hsz
  have hnd : tr.Nodup := by
    unfold List.Nodup
    exact List.Pairwise.imp (fun {a b} hab (heq : a = b) => lex_irrefl b (heq ▸ hab)) hpw
  refine ⟨_, hrun, hall, hnd, hcomplete, ?_⟩
  intro hdistinct
  have hperm : tr.Perm ps.permutations :=
    (List.perm_ext_iff_of_nodup hnd (List.nodup_permutations ps hdistinct)).mpr
      (fun q => ⟨fun h => List.mem_permutations.mpr (hall q h),
        fun h => hcomplete q (List.mem_permutations.mp h)⟩)
  show tr.length = _
  rw [hperm.length_eq, List.length_permutations]

/-- Over a lawful arithmetic, in which points that the comparison does not order are
equal, `solveTSP` returns the same result for two lists that are permutations of each
other, and for the list given in sorted order. -/
theorem solveTSP_eq_of_perm (hlaw : Lawful isCoord isLength) (start : Point3D R)
    (ps qs : List (Point3D R)) (hstart : start.WF isCoord) (hps : ∀ p ∈ ps, p.WF isCoord)
    (hne : ps ≠ []) (hsz : ps.length < 2 ^ 64) (hperm : ps.Perm qs) :
    ∃ r, solveTSP start ps = .ok r ∧ solveTSP start qs = .ok r ∧
      solveTSP start (sort Point3D.lt ps) = .ok r := by
  obtain ⟨r, tr, hrun, _⟩ := solveTSP_spec hlaw start ps hstart hps hne hsz
  have key : ∀ qs : List (Point3D R), ps.Perm qs → solveTSP start qs = .ok r := by
    intro qs hperm
    have h : solveTSPRun start qs = solveTSPRun start ps := by
      unfold solveTSPRun
      rw [← sort_lt_eq_of_perm hlaw hps hperm, hperm.length_eq]
    exact solveTSP_of_run (h.trans hrun)
  exact ⟨r, solveTSP_of_run hrun, key qs hperm, key _ (sort_perm _ ps).symm⟩

/-- C6 (tie-break), amended: for every start point and non-empty destination list of
well-formed points of which some ordering has a path length below
`numeric_limits<double>::max()`, the returned `bestPath` is a permutation of the
destinations of minimal path length, every ordering evaluated before it is strictly
longer (an ordering of equal length met later does not replace it), and it is the
lexicographically smallest ordering of minimal length under the `(x, y, z)` order. -/
theorem solveTSP_tie_break (hlaw : Lawful isCoord isLength) (start : Point3D R)
    (ps : List (Point3D R)) (hstart : start.WF isCoord) (hps : ∀ p ∈ ps, p.WF isCoord)
    (hne : ps ≠ []) (hsz : ps.length < 2 ^ 64)
    (hbelow : ∃ q len, q.Perm ps ∧ specLength start q = some len ∧ len < DoubleOps.maxVal) :
    ∃ (r : TSPResult R) (l₁ l₂ : List (List (Point3D R))),
      solveTSPRun start ps = .ok ⟨r, sort Point3D.lt ps, l₁ ++ r.bestPath :: l₂⟩ ∧
      r.bestPath.Perm ps ∧ specLength start r.bestPath = some r.minDistance ∧
      (∀ q : List (Point3D R), q.Perm ps →
        ∃ len, specLength start q = some len ∧ r.minDistance ≤ len) ∧
      (∀ o ∈ l₁, ∀ len, specLength start o = some len → r.minDistance < len) ∧
      (∀ q : List (Point3D R), q.Perm ps → specLength start q = some r.minDistance →
        q = r.bestPath ∨ List.Lex (· < ·) r.bestPath q) := by
  obtain ⟨r, l₁, l₂, hrun, hpw, hall, hcomplete, hmin, hbest, hbefore⟩ :=
    solveTSP_spec_below hlaw start ps hstart hps hne hsz hbelow
  refine ⟨r, l₁, l₂, hrun, hall _ (by simp), hbest, hmin, hbefore, ?_⟩
  intro q hq hlenq
  rcases List.mem_append.mp (hcomplete q hq) with h | h
  · exact absurd (hbefore q h _ hlenq) (lt_irrefl _)
  · rcases List.mem_cons.mp h with h | h
    · exact Or.inl h
    · exact Or.inr ((List.pairwise_cons.mp (List.pairwise_append.mp hpw).2.1).1 q h)

end Claims

/-- C7 (empty input), amended: `solveTSP` does not validate its argument; called with an
empty destination list, its first action is the element access `points[0]` of line 73,
which is out of range (undefined behaviour in C++, the fault `outOfRange` here): no
`InvalidInput` error is raised and no result is returned. -/
theorem solveTSP_empty {R : Type} [DoubleOps R] (start : Point3D R) :
    elemAt ([] : List (Point3D R)) 0 = .error Fault.outOfRange ∧
      solveTSP start [] = .error Fault.outOfRange :=
  ⟨rfl, rfl⟩

/-- C8 (one destination, P5), amended: for every start point and every single
destination `p`, the loop body runs exactly once; `solveTSP(start, [p])` returns
`minDistance = distance(start, p)` and `bestPath = [p]` when that distance is below
`numeric_limits<double>::max()`, and `(max, [])` otherwise. -/
theorem solveTSP_single {R : Type} [DoubleOps R] (start p : Point3D R) :
    solveTSPRun start [p] =
        .ok ⟨if DoubleOps.lt (calcDistance start p) DoubleOps.maxVal = true
              then ⟨calcDistance start p, [p]⟩ else ⟨DoubleOps.maxVal, []⟩,
            [p], [[p]]⟩ ∧
      solveTSP start [p] =
        .ok (if DoubleOps.lt (calcDistance start p) DoubleOps.maxVal = true
              then ⟨calcDistance start p, [p]⟩ else ⟨DoubleOps.maxVal, []⟩) := by
  suffices h : solveTSPRun start [p] =
      .ok ⟨if DoubleOps.lt (calcDistance start p) DoubleOps.maxVal = true
            then ⟨calcDistance start p, [p]⟩ else ⟨DoubleOps.maxVal, []⟩,
          [p], [[p]]⟩ from ⟨h, solveTSP_of_run h⟩
  have hb : (([p] : List (Point3D R)).length + 2 ^ 64 - 1) % 2 ^ 64 = 0 := by
    show (1 + 2 ^ 64 - 1) % 2 ^ 64 = 0
    norm_num
  have hp : pathLength start [p] = .ok (calcDistance start p) := by
    show sumLoop [p] ((([p] : List (Point3D R)).length + 2 ^ 64 - 1) % 2 ^ 64) 0
      (calcDistance start p) = _
    rw [hb]
    rfl
  have hn : next_permutation Point3D.lt [p] = ([p], false) := rfl
  show searchLoop start 1 [p] DoubleOps.maxVal [] [] = _
  rw [searchLoop]
  simp only [hp, hn, List.nil_append]
  by_cases h : DoubleOps.lt (calcDistance start p) DoubleOps.maxVal = true
  · simp only [h, if_true]
  · simp only [h, Bool.false_eq_true, if_false]

/-! ## The claims at concrete inputs, in binary64 -/

theorem pt_wf (x y z : Int) : (pt x y z).WF F64.isFinite :=
  ⟨trivial, trivial, trivial⟩

theorem twoPoints_wf : ∀ p ∈ twoPoints, p.WF F64.isFinite := by
  simp [twoPoints, pt_wf]

/-- The ordering `(1,0,0), (0,1,0)` has a path length below `max`. -/
theorem twoPoints_below :
    ∃ q len, q.Perm twoPoints ∧ specLength origin q = some len ∧
      len < (DoubleOps.maxVal : F64) := by
  refine ⟨twoPoints, _, List.Perm.refl _, rfl, ?_⟩
  refine (F64.lawful.length_lt _ _ ?_ F64.lawful.length_max).mp (by decide!)
  exact specLength_isLength F64.lawful (pt_wf 0 0 0) twoPoints_wf rfl

/-- Witness of C1 at the origin and `(1,0,0), (0,1,0)`. -/
theorem solveTSP_optimal_witness :
    twoPoints ≠ [] ∧ twoPoints.length < 2 ^ 64 ∧
      ∃ r, solveTSP origin twoPoints = .ok r ∧
        ∀ q : List (Point3D F64), q.Perm twoPoints →
          ∃ len, specLength origin q = some len ∧ r.minDistance ≤ len ∧
            DoubleOps.lt len r.minDistance = false :=
  ⟨by decide, by decide,
    solveTSP_optimal F64.lawful origin twoPoints (pt_wf 0 0 0) twoPoints_wf (by decide)
      (by decide)⟩

/-- Counterexample to C2 as stated: from the origin to `(2^700, 0, 0)` and `(0, 2^700, 0)`
every `dx*dx` or `dy*dy` overflows, each path length is `+∞`, the test
`currentDistance < minDistance` never succeeds, and `solveTSP` returns `max` with an
empty `bestPath`, which has no path length. -/
theorem solveTSP_consistent_counterexample :
    solveTSP origin [farX, farY] = .ok ⟨F64.maxVal, []⟩ ∧
      ¬ ∃ r, solveTSP origin [farX, farY] = .ok r ∧
        specLength origin r.bestPath = some r.minDistance := by
  have h : solveTSP origin [farX, farY] = .ok ⟨F64.maxVal, []⟩ := by decide!
  refine ⟨h, ?_⟩
  rintro ⟨r, h1, h2⟩
  rw [h] at h1
  cases h1
  cases h2

/-- Witness of C2 (amended) at the origin and `(1,0,0), (0,1,0)`. -/
theorem solveTSP_consistent_witness :
    twoPoints ≠ [] ∧ twoPoints.length < 2 ^ 64 ∧
      ∃ r, solveTSP origin twoPoints = .ok r ∧
        specLength origin r.bestPath = some r.minDistance :=
  ⟨by decide, by decide,
    solveTSP_consistent F64.lawful origin twoPoints (pt_wf 0 0 0) twoPoints_wf (by decide)
      (by decide) twoPoints_below⟩

/-- Counterexample to C3 as stated: for the single destination `(2^700, 0, 0)` the
returned `bestPath` is empty, not a permutation of the destinations. -/
theorem solveTSP_orderings_perm_counterexample :
    solveTSP origin [farX] = .ok ⟨F64.maxVal, []⟩ ∧
      ¬ ∃ r, solveTSP origin [farX] = .ok r ∧ r.bestPath.Perm [farX] := by
  have h : solveTSP origin [farX] = .ok ⟨F64.maxVal, []⟩ := by decide!
  refine ⟨h, ?_⟩
  rintro ⟨r, h1, h2⟩
  rw [h] at h1
  cases h1
  exact absurd h2.length_eq (by decide)

/-- Witness of C3 (amended) at the origin and `(1,0,0), (0,1,0)`. -/
theorem solveTSP_orderings_perm_witness :
    twoPoints ≠ [] ∧ twoPoints.length < 2 ^ 64 ∧
      (∃ q len, q.Perm twoPoints ∧ specLength origin q = some len ∧
        len < (DoubleOps.maxVal : F64)) ∧
      ∃ run, solveTSPRun origin twoPoints = .ok run ∧
        (∀ o ∈ run.evaluated, o.Perm twoPoints ∧ o.length = twoPoints.length) ∧
        run.result.bestPath.Perm twoPoints ∧
        run.result.bestPath.length = twoPoints.length :=
  ⟨by decide, by decide, twoPoints_below,
    (solveTSP_orderings_perm F64.lawful origin twoPoints (pt_wf 0 0 0) twoPoints_wf
      (by decide) (by decide)).imp fun _ h => ⟨h.1, h.2.1, h.2.2 twoPoints_below⟩⟩

/-- Counterexample to C4 as stated: with the two coincident destinations
`(2,0,0), (2,0,0)`, `next_permutation` finds no element below its successor and
returns `false` at once; the loop evaluates one ordering, not `2! = 2`. -/
theorem solveTSP_evaluates_all_counterexample :
    solveTSPRun origin [pt 2 0 0, pt 2 0 0] =
        .ok ⟨⟨F64.ofInt 2, [pt 2 0 0, pt 2 0 0]⟩, [pt 2 0 0, pt 2 0 0],
          [[pt 2 0 0, pt 2 0 0]]⟩ ∧
      ¬ ∃ run, solveTSPRun origin [pt 2 0 0, pt 2 0 0] = .ok run ∧
        run.evaluated.length = Nat.factorial 2 := by
  have h : solveTSPRun origin [pt 2 0 0, pt 2 0 0] =
      .ok ⟨⟨F64.ofInt 2, [pt 2 0 0, pt 2 0 0]⟩, [pt 2 0 0, pt 2 0 0],
        [[pt 2 0 0, pt 2 0 0]]⟩ := by decide!
  refine ⟨h, ?_⟩
  rintro ⟨run, h1, h2⟩
  rw [h] at h1
  cases h1
  exact absurd h2 (by decide)

/-- Witness of C4 (amended) at the origin and the distinct points `(1,0,0), (0,1,0)`. -/
theorem solveTSP_evaluates_all_witness :
    twoPoints ≠ [] ∧ twoPoints.length < 2 ^ 64 ∧ twoPoints.Nodup ∧
      ∃ run, solveTSPRun origin twoPoints = .ok run ∧
        (∀ o ∈ run.evaluated, o.Perm twoPoints) ∧ run.evaluated.Nodup ∧
        (∀ q : List (Point3D F64), q.Perm twoPoints → q ∈ run.evaluated) ∧
        run.evaluated.length = twoPoints.length.factorial :=
  ⟨by decide, by decide, by decide!,
    (solveTSP_evaluates_all F64.lawful origin twoPoints (pt_wf 0 0 0) twoPoints_wf
      (by decide) (by decide)).imp
        fun _ h => ⟨h.1, h.2.1, h.2.2.1, h.2.2.2.1, h.2.2.2.2 (by decide!)⟩⟩

/-- Counterexample to C6 as stated: for the destinations `(2^700, 0, 0)` and
`(0, 0, -2^600)` every ordering has the path length `+∞`, the minimum, and the returned
`bestPath` is empty: it is none of the orderings of minimal length. -/
theorem solveTSP_tie_break_counterexample :
    solveTSP origin [farX, farZ] = .ok ⟨F64.maxVal, []⟩ ∧
      specLength origin [farX, farZ] = some F64.pinf ∧
      specLength origin [farZ, farX] = some F64.pinf ∧
      ¬ ∃ r, solveTSP origin [farX, farZ] = .ok r ∧ r.bestPath.Perm [farX, farZ] := by
  have h : solveTSP origin [farX, farZ] = .ok ⟨F64.maxVal, []⟩ := by decide!
  refine ⟨h, by decide!, by decide!, ?_⟩
  rintro ⟨r, h1, h2⟩
  rw [h] at h1
  cases h1
  exact absurd h2.length_eq (by decide)

/-- Witness of C6 (amended) at the origin and `(1,0,0), (0,1,0)`. -/
theorem solveTSP_tie_break_witness :
    twoPoints ≠ [] ∧ twoPoints.length < 2 ^ 64 ∧
      ∃ (r : TSPResult F64) (l₁ l₂ : List (List (Point3D F64))),
        solveTSPRun origin twoPoints =
          .ok ⟨r, sort Point3D.lt twoPoints, l₁ ++ r.bestPath :: l₂⟩ ∧
        r.bestPath.Perm twoPoints ∧ specLength origin r.bestPath = some r.minDistance ∧
        (∀ q : List (Point3D F64), q.Perm twoPoints →
          ∃ len, specLength origin q = some len ∧ r.minDistance ≤ len) ∧
        (∀ o ∈ l₁, ∀ len, specLength origin o = some len → r.minDistance < len) ∧
        (∀ q : List (Point3D F64), q.Perm twoPoints →
          specLength origin q = some r.minDistance →
            q = r.bestPath ∨ List.Lex (· < ·) r.bestPath q) :=
  ⟨by decide, by decide,
    solveTSP_tie_break F64.lawful origin twoPoints (pt_wf 0 0 0) twoPoints_wf (by decide)
      (by decide) twoPoints_below⟩

/-- Counterexample to C7 as stated: called with no destination, the engine reaches the
element access `points[0]`; it has no `InvalidInput` outcome. -/
theorem solveTSP_empty_counterexample :
    solveTSP origin [] = .error Fault.outOfRange := by
  decide

/-- Counterexample to C8 as stated: for the single destination `(0, 0, -2^600)`,
`dz*dz` overflows, the distance from the origin is `+∞`, and `solveTSP` returns `max`
and an empty `bestPath` instead of that distance and `[p]`. -/
theorem solveTSP_single_counterexample :
    calcDistance origin farZ = F64.pinf ∧
      solveTSP origin [farZ] = .ok ⟨F64.maxVal, []⟩ := by
  decide!

/-- C9 (scenario): with start `(0,0,0)` and destinations `(1,0,0), (0,1,0), (1,1,0)`,
`solveTSP` evaluates the six orderings, none of which is shorter than `3`, and returns
the total length exactly `3` with the ordering `(0,1,0), (1,1,0), (1,0,0)`, the reverse
of `(1,0,0), (1,1,0), (0,1,0)`, which has the same length and comes later. -/
theorem solveTSP_unitSquare :
    solveTSPRun origin unitSquare =
        .ok ⟨⟨F64.ofInt 3, [pt 0 1 0, pt 1 1 0, pt 1 0 0]⟩,
          [pt 0 1 0, pt 1 0 0, pt 1 1 0],
          [[pt 0 1 0, pt 1 0 0, pt 1 1 0], [pt 0 1 0, pt 1 1 0, pt 1 0 0],
           [pt 1 0 0, pt 0 1 0, pt 1 1 0], [pt 1 0 0, pt 1 1 0, pt 0 1 0],
           [pt 1 1 0, pt 0 1 0, pt 1 0 0], [pt 1 1 0, pt 1 0 0, pt 0 1 0]]⟩ ∧
      solveTSP origin unitSquare = .ok ⟨F64.ofInt 3, [pt 0 1 0, pt 1 1 0, pt 1 0 0]⟩ ∧
      specLength origin [pt 1 0 0, pt 1 1 0, pt 0 1 0] = some (F64.ofInt 3) ∧
      (List.map
          (fun o => (specLength origin o).map (fun len => F64.lt len (F64.ofInt 3)))
          [[pt 0 1 0, pt 1 0 0, pt 1 1 0], [pt 0 1 0, pt 1 1 0, pt 1 0 0],
           [pt 1 0 0, pt 0 1 0, pt 1 1 0], [pt 1 0 0, pt 1 1 0, pt 0 1 0],
           [pt 1 1 0, pt 0 1 0, pt 1 0 0], [pt 1 1 0, pt 1 0 0, pt 0 1 0]] =
        List.replicate 6 (some false)) := by
  decide!

/-! ## Coincident points: exact zero-length edges in binary64 -/

namespace F64

theorem log2Bound_spec (n : Nat) :
    ∀ fuel j : Nat, n < 2 ^ 2 ^ (j + fuel) → n < 2 ^ 2 ^ log2Bound n fuel j := by
  intro fuel
  induction fuel with
  | zero => intro j h; simpa [log2Bound] using h
  | succ fuel ih =>
    intro j h
    unfold log2Bound
    split
    · assumption
    · exact ih (j + 1) (by rwa [show j + 1 + fuel = j + (fuel + 1) by omega])

theorem log2Search_spec (n : Nat) :
    ∀ j lo : Nat, 2 ^ lo ≤ n → n < 2 ^ (lo + 2 ^ j) →
      2 ^ log2Search n j lo ≤ n ∧ n < 2 ^ (log2Search n j lo + 1) := by
  intro j
  induction j with
  | zero => intro lo h1 h2; exact ⟨h1, by simpa [log2Search] using h2⟩
  | succ j ih =>
    intro lo h1 h2
    unfold log2Search
    split
    · rename_i h
      exact ih (lo + 2 ^ j) h (by rwa [show lo + 2 ^ j + 2 ^ j = lo + 2 ^ (j + 1) by rw [pow_succ]; omega])
    · rename_i h
      exact ih lo h1 (not_le.mp h)

/-- The number of binary digits: `2^(bitLen n - 1) ≤ n < 2^(bitLen n)`. -/
theorem bitLen_spec {n : Nat} (hn : n ≠ 0) : 2 ^ (bitLen n - 1) ≤ n ∧ n < 2 ^ bitLen n := by
  have hb : n < 2 ^ 2 ^ log2Bound n n 0 := by
    apply log2Bound_spec
    rw [Nat.zero_add]
    exact lt_of_lt_of_le (Nat.lt_two_pow n)
      (Nat.pow_le_pow_right (by norm_num) (Nat.lt_two_pow n).le)
  have h := log2Search_spec n (log2Bound n n 0) 0 (by simpa using Nat.pos_of_ne_zero hn)
    (by simpa using hb)
  unfold bitLen
  rw [if_neg hn, Nat.add_sub_cancel]
  exact h

theorem lt_two_pow_bitLen (n : Nat) : n < 2 ^ bitLen n := by
  by_cases hn : n = 0
  · subst hn; simp [bitLen]
  · exact (bitLen_spec hn).2


/-- The rounded value is a significand of at most 53 bits (or `2^53`) times a power
of two. -/
theorem roundUnits_shape (n d : Nat) (sticky : Bool) :
    ∃ a t : Nat, a ≤ 2 ^ 53 ∧ roundUnits n d sticky = a * 2 ^ t := by
  have hq : n / 2 ^ max d (bitLen n - 53) < 2 ^ 53 := by
    rw [Nat.div_lt_iff_lt_mul (Nat.two_pow_pos _), ← pow_add]
    exact lt_of_lt_of_le (lt_two_pow_bitLen n) (Nat.pow_le_pow_right (by norm_num) (by omega))
  unfold roundUnits
  simp only []
  split
  · exact ⟨_, _, hq, rfl⟩
  · exact ⟨_, _, hq.le, rfl⟩

/-- Rounding leaves a value of that shape unchanged. -/
theorem roundUnits_of_shape {v a t : Nat} (ha : a ≤ 2 ^ 53) (hv : v = a * 2 ^ t) :
    roundUnits v 0 false = v := by
  have hdvd : 2 ^ max 0 (bitLen v - 53) ∣ v := by
    by_cases hv0 : v = 0
    · rw [hv0]; exact dvd_zero _
    · have hb := (bitLen_spec hv0).1
      rw [Nat.zero_max]
      rcases Nat.lt_or_eq_of_le ha with h | h
      · have h1 : 2 ^ (bitLen v - 1) < 2 ^ (53 + t) := by
          calc 2 ^ (bitLen v - 1) ≤ v := hb
            _ = a * 2 ^ t := hv
            _ < 2 ^ 53 * 2 ^ t := Nat.mul_lt_mul_of_pos_right h (Nat.two_pow_pos t)
            _ = 2 ^ (53 + t) := (pow_add 2 53 t).symm
        have h2 : bitLen v - 1 < 53 + t := (Nat.pow_lt_pow_iff_right (by norm_num : 1 < 2)).mp h1
        have h3 : 2 ^ t ∣ v := ⟨a, by rw [hv, Nat.mul_comm]⟩
        exact (Nat.pow_dvd_pow 2 (by omega)).trans h3
      · have h1 : v = 2 ^ (53 + t) := by rw [hv, h, pow_add]
        have h2 : bitLen v - 1 ≤ 53 + t :=
          (Nat.pow_le_pow_iff_right (by norm_num : 1 < 2)).mp (le_of_le_of_eq hb h1)
        have h3 : 2 ^ (53 + t) ∣ v := Dvd.intro 1 (by rw [Nat.mul_one]; exact h1.symm)
        exact (Nat.pow_dvd_pow 2 (by omega)).trans h3
  unfold roundUnits
  simp only []
  generalize max 0 (bitLen v - 53) = drop at hdvd
  have hrem : v % 2 ^ drop = 0 := Nat.mod_eq_zero_of_dvd hdvd
  have hup : (decide (drop ≠ 0) &&
      (decide (2 ^ drop / 2 < v % 2 ^ drop) ||
        (decide (v % 2 ^ drop = 2 ^ drop / 2) &&
          (false || decide (v / 2 ^ drop % 2 = 1))))) = false := by
    rw [hrem]
    by_cases hd : drop = 0
    · simp [hd]
    · have : 0 < 2 ^ drop / 2 := by
        obtain ⟨k, rfl⟩ := Nat.exists_eq_succ_of_ne_zero hd
        rw [pow_succ, Nat.mul_div_cancel _ (by norm_num)]
        exact Nat.two_pow_pos k
      simp [this.ne, this.ne']
  rw [hup]
  simp only [Bool.false_eq_true, if_false, Nat.sub_zero]
  exact Nat.div_mul_cancel hdvd

theorem roundUnits_idem (n d : Nat) (sticky : Bool) :
    roundUnits (roundUnits n d sticky) 0 false = roundUnits n d sticky := by
  obtain ⟨a, t, ha, h⟩ := roundUnits_shape n d sticky
  exact roundUnits_of_shape ha h


/-- Adding zero to a rounded non-negative value is exact. -/
theorem add_round_zero {k : Int} (hk : 0 ≤ k) (d : Nat) (sticky : Bool) :
    add (round k d sticky) (fin 0) = round k d sticky := by
  have h : decide (k < 0) = false := by simpa using hk
  unfold round
  rw [h]
  generalize hu : roundUnits k.natAbs d sticky = u
  have hidem : roundUnits u 0 false = u := hu ▸ roundUnits_idem k.natAbs d sticky
  by_cases ho : overflowUnits ≤ u
  · have h1 : ofUnits false u = pinf := if_pos ho
    rw [h1]
    rfl
  · have h1 : ofUnits false u = fin (u : Int) := if_neg ho
    rw [h1]
    show round ((u : Int) + 0) 0 false = fin (u : Int)
    have h2 : decide (((u : Int) + 0) < 0) = false := by simp
    unfold round
    rw [h2, Int.add_zero, Int.natAbs_ofNat, hidem]
    exact h1

/-- Adding zero to a square root is exact. -/
theorem add_sqrt_zero {a : F64} (ha : isLength a) : add (sqrt a) (fin 0) = sqrt a := by
  cases a with
  | nan => exact absurd ha (by simp [isLength])
  | ninf => exact absurd ha (by simp [isLength])
  | pinf => rfl
  | fin k =>
    have hk : ¬ k < 0 := not_lt.mpr ha
    simp only [sqrt, hk, if_false]
    exact add_round_zero (Int.natCast_nonneg _) 0 _

theorem sub_self_fin (a : Int) : sub (fin a) (fin a) = round 0 0 false := by
  show round (a + -a) 0 false = _
  rw [Int.add_right_neg]

theorem dist_zero :
    sqrt (add (add (mul (round 0 0 false) (round 0 0 false))
      (mul (round 0 0 false) (round 0 0 false))) (mul (round 0 0 false) (round 0 0 false))) =
      fin 0 := by
  decide!

/-- A finite point is at distance zero from itself. -/
theorem calcDistance_self {p : Point3D F64} (hp : p.WF isFinite) :
    calcDistance p p = fin 0 := by
  obtain ⟨x, y, z⟩ := p
  obtain ⟨hx, hy, hz⟩ := hp
  cases x <;> cases y <;> cases z <;> simp only [isFinite] at hx hy hz
  show sqrt (add (add (mul (sub _ _) (sub _ _)) (mul (sub _ _) (sub _ _)))
    (mul (sub _ _) (sub _ _))) = _
  rw [sub_self_fin, sub_self_fin, sub_self_fin]
  exact dist_zero

/-- The distance between finite points is unchanged by adding a zero-length edge. -/
theorem calcDistance_add_zero {s p : Point3D F64} (hs : s.WF isFinite) (hp : p.WF isFinite) :
    add (calcDistance s p) (fin 0) = calcDistance s p := by
  show add (sqrt (add (add (mul (sub s.x p.x) (sub s.x p.x))
      (mul (sub s.y p.y) (sub s.y p.y))) (mul (sub s.z p.z) (sub s.z p.z)))) (fin 0) = sqrt _
  exact add_sqrt_zero (add_isLength (add_isLength
    (mul_self_isLength (sub_ne_nan hs.1 hp.1)) (mul_self_isLength (sub_ne_nan hs.2.1 hp.2.1)))
    (mul_self_isLength (sub_ne_nan hs.2.2 hp.2.2)))

end F64

/-- The run on two coincident destinations, for any arithmetic in which `p < p` is
false: one ordering is evaluated. -/
theorem solveTSPRun_pair {R : Type} [DoubleOps R] (s p : Point3D R)
    (hirr : Point3D.lt p p = false) :
    solveTSPRun s [p, p] =
      .ok ⟨if DoubleOps.lt (DoubleOps.add (calcDistance s p) (calcDistance p p))
              DoubleOps.maxVal = true
            then ⟨DoubleOps.add (calcDistance s p) (calcDistance p p), [p, p]⟩
            else ⟨DoubleOps.maxVal, []⟩,
          [p, p], [[p, p]]⟩ := by
  have hp : pathLength s [p, p] =
      .ok (DoubleOps.add (calcDistance s p) (calcDistance p p)) := by
    obtain ⟨len, h1, h2⟩ := pathLength_eq_spec s (q := [p, p]) (by simp)
      (by show 2 < 2 ^ 64; norm_num)
    have h3 : specLength s [p, p] =
        some (DoubleOps.add (calcDistance s p) (calcDistance p p)) := rfl
    rw [h3] at h1
    cases h1
    exact h2
  have hn : next_permutation Point3D.lt [p, p] = ([p, p], false) := by
    simp [next_permutation, splitPivot, hirr]
  have hs : sort Point3D.lt [p, p] = [p, p] := by
    simp [sort, List.insertionSort, List.orderedInsert]
  have hf : ([p, p] : List (Point3D R)).length.factorial = 1 + 1 := rfl
  unfold solveTSPRun
  rw [hs, hf, searchLoop]
  simp only [hp, hn, List.nil_append]
  by_cases h : DoubleOps.lt (DoubleOps.add (calcDistance s p) (calcDistance p p))
      DoubleOps.maxVal = true
  · simp only [h, if_true]
  · simp only [h, Bool.false_eq_true, if_false]

/-- C10 (coincident points), amended: for every finite start point `s` and finite point
`p` with `distance(s, p)` below `numeric_limits<double>::max()`, `solveTSP(s, [p, p])`
does not fail and returns the length of the defined formula,
`distance(s, p) + distance(p, p) = distance(s, p) + 0 = distance(s, p)`, with
`bestPath = [p, p]`; for `s = (0,0,0)` and `p = (2,0,0)` the returned length is `2`
(the open-path formula), not `4`. -/
theorem solveTSP_coincident :
    (∀ s p : Point3D F64, s.WF F64.isFinite → p.WF F64.isFinite →
        DoubleOps.lt (calcDistance s p) (DoubleOps.maxVal : F64) = true →
        calcDistance p p = F64.ofInt 0 ∧
          DoubleOps.add (calcDistance s p) (F64.ofInt 0) = calcDistance s p ∧
          specLength s [p, p] = some (calcDistance s p) ∧
          solveTSP s [p, p] = .ok ⟨calcDistance s p, [p, p]⟩) ∧
      calcDistance origin (pt 2 0 0) = F64.ofInt 2 ∧
      solveTSP origin [pt 2 0 0, pt 2 0 0] = .ok ⟨F64.ofInt 2, [pt 2 0 0, pt 2 0 0]⟩ ∧
      F64.ofInt 2 ≠ F64.ofInt 4 := by
  refine ⟨?_, by decide!, by decide!, by decide!⟩
  intro s p hs hp hlt
  have h0 : calcDistance p p = F64.ofInt 0 := by
    rw [F64.calcDistance_self hp]; decide!
  have h1 : DoubleOps.add (calcDistance s p) (F64.ofInt 0) = calcDistance s p := by
    have : F64.ofInt 0 = F64.fin 0 := by decide!
    rw [this]
    exact F64.calcDistance_add_zero hs hp
  have hsum : DoubleOps.add (calcDistance s p) (calcDistance p p) = calcDistance s p := by
    rw [h0, h1]
  have hirr : Point3D.lt p p = false := by
    rw [Bool.eq_false_iff]
    exact fun h => lt_irrefl p ((Point3D.lt_iff F64.lawful p p hp hp).mp h)
  have hrun := solveTSPRun_pair s p hirr
  rw [hsum, if_pos hlt] at hrun
  refine ⟨h0, h1, ?_, solveTSP_of_run hrun⟩
  show some (DoubleOps.add (calcDistance s p) (calcDistance p p)) = _
  rw [hsum]

/-- Witness of C10 (amended) at the origin and `(2,0,0)`. -/
theorem solveTSP_coincident_witness :
    DoubleOps.lt (calcDistance origin (pt 2 0 0)) (DoubleOps.maxVal : F64) = true ∧
      calcDistance (pt 2 0 0) (pt 2 0 0) = F64.ofInt 0 ∧
      solveTSP origin [pt 2 0 0, pt 2 0 0] =
        .ok ⟨calcDistance origin (pt 2 0 0), [pt 2 0 0, pt 2 0 0]⟩ :=
  have h := solveTSP_coincident.1 origin (pt 2 0 0) (pt_wf 0 0 0) (pt_wf 2 0 0) (by decide!)
  ⟨by decide!, h.1, h.2.2.2⟩

/-- Counterexample to C10 as stated: for `p = (2^700, 0, 0)` the distance from the origin
overflows to `+∞`, and `solveTSP(s, [p, p])` returns `max` with an empty `bestPath`
instead of that distance with `[p, p]`. -/
theorem solveTSP_coincident_counterexample :
    calcDistance origin farX = F64.pinf ∧
      solveTSP origin [farX, farX] = .ok ⟨F64.maxVal, []⟩ := by
  decide!

/-! ## Runs of the loop, for any arithmetic -/

/-- What a finished run of the loop consists of, for any arithmetic: the orderings of
`enumerate`, the update folded over them, and a length for each. -/
theorem searchLoop_ok {R : Type} [DoubleOps R] (start : Point3D R) :
    ∀ (fuel : Nat) (c : List (Point3D R)) (m : R) (b : List (Point3D R))
      (log : List (List (Point3D R))) (run : Run R),
      searchLoop start fuel c m b log = .ok run →
      ∃ tr, enumerate Point3D.lt fuel c = some (tr, run.points) ∧
        run.evaluated = log ++ tr ∧
        (run.result.minDistance, run.result.bestPath) = tr.foldl (improve start) (m, b) ∧
        ∀ o ∈ tr, ∃ len, pathLength start o = .ok len := by
  intro fuel
  induction fuel with
  | zero => intro c m b log run h; simp [searchLoop] at h
  | succ fuel ih =>
    intro c m b log run h
    rcases hp : pathLength start c with e | len
    · simp [searchLoop, hp] at h
    · rcases hnp : next_permutation Point3D.lt c with ⟨c', flag⟩
      cases flag with
      | true =>
        simp only [searchLoop, hp, hnp] at h
        obtain ⟨tr, h1, h2, h3, h4⟩ := ih _ _ _ _ _ h
        refine ⟨c :: tr, ?_, ?_, ?_, ?_⟩
        · simp only [enumerate, hnp, h1]
        · rw [h2]; simp
        · rw [h3]; simp only [List.foldl_cons, improve, hp]
        · intro o ho
          rcases List.mem_cons.mp ho with h' | h'
          · exact ⟨len, h' ▸ hp⟩
          · exact h4 o h'
      | false =>
        simp only [searchLoop, hp, hnp, Except.ok.injEq] at h
        subst h
        refine ⟨[c], ?_, rfl, ?_, ?_⟩
        · simp only [enumerate, hnp]
        · simp only [List.foldl_cons, List.foldl_nil, improve, hp]
        · intro o ho
          exact ⟨len, (List.mem_singleton.mp ho) ▸ hp⟩

/-- A larger budget does not change a finished run. -/
theorem searchLoop_mono {R : Type} [DoubleOps R] (start : Point3D R) :
    ∀ (fuel : Nat) (c : List (Point3D R)) (m : R) (b : List (Point3D R))
      (log : List (List (Point3D R))) (run : Run R),
      searchLoop start fuel c m b log = .ok run →
      ∀ k, searchLoop start (fuel + k) c m b log = .ok run := by
  intro fuel
  induction fuel with
  | zero => intro c m b log run h; simp [searchLoop] at h
  | succ fuel ih =>
    intro c m b log run h k
    rw [show fuel + 1 + k = (fuel + k) + 1 by omega]
    rcases hp : pathLength start c with e | len
    · simp [searchLoop, hp] at h
    · rcases hnp : next_permutation Point3D.lt c with ⟨c', flag⟩
      cases flag with
      | true =>
        simp only [searchLoop, hp, hnp] at h ⊢
        exact ih _ _ _ _ _ h k
      | false =>
        simp only [searchLoop, hp, hnp] at h ⊢
        exact h

/-- The enumeration ends on the ordering at which `next_permutation` returns `false`. -/
theorem enumerate_last {α : Type} (less : α → α → Bool) :
    ∀ (fuel : Nat) (c : List α) (tr : List (List α)) (last : List α),
      enumerate less fuel c = some (tr, last) →
      ∃ g, tr.getLast? = some g ∧ next_permutation less g = (last, false) := by
  intro fuel
  induction fuel with
  | zero => intro c tr last h; simp [enumerate] at h
  | succ fuel ih =>
    intro c tr last h
    rcases hnp : next_permutation less c with ⟨c', flag⟩
    cases flag with
    | true =>
      simp only [enumerate, hnp] at h
      rcases hen : enumerate less fuel c' with _ | ⟨tr', last'⟩
      · simp [hen] at h
      · simp only [hen, Option.some.injEq, Prod.mk.injEq] at h
        obtain ⟨htr, hlast⟩ := h
        subst htr hlast
        obtain ⟨g, hg, hn⟩ := ih c' tr' last' hen
        refine ⟨g, ?_, hn⟩
        cases tr' with
        | nil => simp at hg
        | cons t ts => simpa using hg
    | false =>
      simp only [enumerate, hnp, Option.some.injEq, Prod.mk.injEq] at h
      obtain ⟨htr, hlast⟩ := h
      subst htr hlast
      exact ⟨c, rfl, hnp⟩

/-! ## The remaining claims -/

section Claims2

variable {R : Type} [DoubleOps R] [LinearOrder R] {isCoord isLength : R → Prop}

theorem lt_agree (hlaw : Lawful isCoord isLength) {ps : List (Point3D R)}
    (hps : ∀ p ∈ ps, p.WF isCoord) :
    ∀ a ∈ ps, ∀ b ∈ ps, Point3D.lt a b = decide (a < b) := by
  intro a ha b hb
  exact Bool.eq_iff_iff.mpr
    ((Point3D.lt_iff hlaw a b (hps a ha) (hps b hb)).trans (by simp))

/-- C13 (totality): for every start point and every non-empty destination list,
`solveTSP` terminates and returns a result: the loop ends within `n!` iterations, every
larger iteration budget gives the same run, and the orderings it goes through are
strictly increasing in the lexicographic order, all of them permutations of the input. -/
theorem solveTSP_total (hlaw : Lawful isCoord isLength) (start : Point3D R)
    (ps : List (Point3D R)) (hstart : start.WF isCoord) (hps : ∀ p ∈ ps, p.WF isCoord)
    (hne : ps ≠ []) (hsz : ps.length < 2 ^ 64) :
    ∃ run, solveTSP start ps = .ok run.result ∧ solveTSPRun start ps = .ok run ∧
      (∀ fuel, ps.length.factorial ≤ fuel →
        searchLoop start fuel (sort Point3D.lt ps) DoubleOps.maxVal [] [] = .ok run) ∧
      run.evaluated.Pairwise (List.Lex (· < ·)) ∧ (∀ o ∈ run.evaluated, o.Perm ps) ∧
      run.evaluated.length ≤ ps.length.factorial := by
  obtain ⟨tr, hrun, hpw, hall, _, _, _, _⟩ :=
    solveTSPRun_spec hlaw start ps hstart hps hne hsz
  refine ⟨_, solveTSP_of_run hrun, hrun, ?_, hpw, hall, ?_⟩
  · intro fuel hfuel
    obtain ⟨k, rfl⟩ := Nat.exists_eq_add_of_le hfuel
    exact searchLoop_mono start _ _ _ _ _ _ hrun k
  · have hnd : tr.Nodup := by
      unfold List.Nodup
      exact List.Pairwise.imp (fun {a b} hab (heq : a = b) => lex_irrefl b (heq ▸ hab)) hpw
    have hsub : tr ⊆ ps.permutations := fun o ho => List.mem_permutations.mpr (hall o ho)
    have := (List.subperm_of_subset hnd hsub).length_le
    rwa [List.length_permutations] at this

/-- C16 (next-permutation step): for every current ordering `c` of well-formed points,
the step either signals continuation, and then the new content is the least
permutation of the same points that is lexicographically greater than `c`, or signals
exhaustion; it signals exhaustion exactly when `c` is non-increasing, that is exactly
when no permutation of `c` is greater than `c`. -/
theorem next_permutation_step (hlaw : Lawful isCoord isLength) (c : List (Point3D R))
    (hc : ∀ p ∈ c, p.WF isCoord) :
    ((next_permutation Point3D.lt c).2 = true →
      (next_permutation Point3D.lt c).1.Perm c ∧
      List.Lex (· < ·) c (next_permutation Point3D.lt c).1 ∧
      ∀ q : List (Point3D R), q.Perm c → List.Lex (· < ·) c q →
        q = (next_permutation Point3D.lt c).1 ∨
          List.Lex (· < ·) (next_permutation Point3D.lt c).1 q) ∧
    ((next_permutation Point3D.lt c).2 = false ↔ c.Sorted (· ≥ ·)) ∧
    ((next_permutation Point3D.lt c).2 = false ↔
      ∀ q : List (Point3D R), q.Perm c → ¬ List.Lex (· < ·) c q) := by
  have hless' : ∀ a b : Point3D R, decide (a < b) = true ↔ a < b := fun a b => by simp
  rw [next_permutation_congr c (lt_agree hlaw hc)]
  rcases hnp : next_permutation (fun a b : Point3D R => decide (a < b)) c with ⟨c', flag⟩
  cases flag with
  | true =>
    obtain ⟨hperm, hlt, hleast⟩ := next_permutation_spec_true hless' hnp
    refine ⟨fun _ => ⟨hperm, hlt, ?_⟩, ?_, ?_⟩
    · intro q hq hcq
      rcases lex_trichotomy q c' with h | h | h
      · exact absurd h (hleast q hq hcq)
      · exact Or.inl h
      · exact Or.inr h
    · simp only [Bool.true_eq_false, false_iff]
      exact fun hs => not_lex_of_sorted_ge hs hperm hlt
    · simp only [Bool.true_eq_false, false_iff]
      exact fun hg => hg c' hperm hlt
  | false =>
    obtain ⟨hperm, hsorted, hgreatest⟩ := next_permutation_spec_false hless' hnp
    obtain ⟨hrev, _⟩ := next_permutation_false hless' hnp
    refine ⟨fun h => (by cases h), ?_, ?_⟩
    · simp only [true_iff]
      have h2 : (c.reverse).Sorted (· ≤ ·) := hrev ▸ hsorted
      unfold List.Sorted at h2 ⊢
      rw [List.pairwise_reverse] at h2
      exact h2
    · simp only [true_iff]
      exact hgreatest

/-- C19 (the argument after the call): for every non-empty destination list `ps`, when
`solveTSP` returns, the vector passed by reference holds the points of `ps` in
ascending lexicographic order, whatever ordering is returned as `bestPath`: the last
ordering evaluated is the descending one, and the step that returns `false` on it
reverses it. -/
theorem solveTSP_argument_sorted (hlaw : Lawful isCoord isLength) (start : Point3D R)
    (ps : List (Point3D R)) (hstart : start.WF isCoord) (hps : ∀ p ∈ ps, p.WF isCoord)
    (hne : ps ≠ []) (hsz : ps.length < 2 ^ 64) :
    ∃ run, solveTSPRun start ps = .ok run ∧ run.points = sort Point3D.lt ps ∧
      run.points.Perm ps ∧ run.points.Sorted (· ≤ ·) ∧
      ∃ g, run.evaluated.getLast? = some g ∧ g.Sorted (· ≥ ·) ∧
        next_permutation Point3D.lt g = (run.points, false) ∧ run.points = g.reverse := by
  obtain ⟨tr, hrun, _, hall, _, _, hsorted, _⟩ :=
    solveTSPRun_spec hlaw start ps hstart hps hne hsz
  refine ⟨_, hrun, rfl, sort_perm _ ps, hsorted, ?_⟩
  obtain ⟨tr', henum, hev, _, _⟩ := searchLoop_ok start _ _ _ _ _ _ hrun
  simp only [List.nil_append] at hev
  subst hev
  obtain ⟨g, hg, hn⟩ := enumerate_last _ _ _ _ _ henum
  have hgmem : g ∈ tr := List.mem_of_getLast?_eq_some hg
  have hgwf : ∀ p ∈ g, p.WF isCoord := fun p hp => hps p ((hall g hgmem).subset hp)
  have hless' : ∀ a b : Point3D R, decide (a < b) = true ↔ a < b := fun a b => by simp
  have hn' := hn
  rw [next_permutation_congr g (lt_agree hlaw hgwf)] at hn'
  obtain ⟨hrev, hasc⟩ := next_permutation_false hless' hn'
  refine ⟨g, hg, ?_, hn, hrev⟩
  have h2 : (g.reverse).Sorted (· ≤ ·) := hrev ▸ hasc
  unfold List.Sorted at h2 ⊢
  rw [List.pairwise_reverse] at h2
  exact h2

/-- C14 (the point comparison): on well-formed points `Point3D::operator<` is the
lexicographic order on `(x, y, z)` and a strict total order: it is irreflexive and
transitive, and for any two points exactly one of `a < b`, `b < a`, or `a` and `b` having
equal `x`, `y` and `z` holds. -/
theorem Point3D.lt_strict_total (hlaw : Lawful isCoord isLength) (a b c : Point3D R)
    (ha : a.WF isCoord) (hb : b.WF isCoord) (hc : c.WF isCoord) :
    (Point3D.lt a b = true ↔
      a.x < b.x ∨ a.x = b.x ∧ (a.y < b.y ∨ a.y = b.y ∧ a.z < b.z)) ∧
    Point3D.lt a a = false ∧
    (Point3D.lt a b = true → Point3D.lt b c = true → Point3D.lt a c = true) ∧
    ((Point3D.lt a b = true ∧ Point3D.lt b a = false ∧
        ¬ (a.x = b.x ∧ a.y = b.y ∧ a.z = b.z)) ∨
      (Point3D.lt a b = false ∧ Point3D.lt b a = true ∧
        ¬ (a.x = b.x ∧ a.y = b.y ∧ a.z = b.z)) ∨
      (Point3D.lt a b = false ∧ Point3D.lt b a = false ∧
        a.x = b.x ∧ a.y = b.y ∧ a.z = b.z)) := by
  have hab := Point3D.lt_iff hlaw a b ha hb
  have hba := Point3D.lt_iff hlaw b a hb ha
  have hbc := Point3D.lt_iff hlaw b c hb hc
  have hac := Point3D.lt_iff hlaw a c ha hc
  have haa := Point3D.lt_iff hlaw a a ha ha
  have hnab : Point3D.lt a b = false ↔ ¬ a < b := by rw [← hab, Bool.not_eq_true]
  have hnba : Point3D.lt b a = false ↔ ¬ b < a := by rw [← hba, Bool.not_eq_true]
  have heq : a = b ↔ a.x = b.x ∧ a.y = b.y ∧ a.z = b.z := by
    cases a; cases b; simp
  refine ⟨hab.trans (Point3D.lt_def a b), ?_, ?_, ?_⟩
  · rw [Bool.eq_false_iff]
    exact fun h => lt_irrefl a (haa.mp h)
  · exact fun h1 h2 => hac.mpr (lt_trans (hab.mp h1) (hbc.mp h2))
  · rw [hab, hba, hnab, hnba, ← heq]
    rcases lt_trichotomy a b with h | h | h
    · exact Or.inl ⟨h, lt_asymm h, ne_of_lt h⟩
    · exact Or.inr (Or.inr ⟨h ▸ lt_irrefl a, h ▸ lt_irrefl a, h⟩)
    · exact Or.inr (Or.inl ⟨lt_asymm h, h, (ne_of_lt h).symm⟩)

/-- C18 (enumeration with repeated points): for every non-empty destination list,
coincident points included, the orderings evaluated by the loop are strictly
increasing in the lexicographic order, so none is evaluated twice; every permutation of
the input is one of them; their number is the number of distinct arrangements of the
input (the length of any list of these without repetition), which is `n!` exactly when
the points are pairwise distinct. -/
theorem solveTSP_enumeration_distinct (hlaw : Lawful isCoord isLength) (start : Point3D R)
    (ps : List (Point3D R)) (hstart : start.WF isCoord) (hps : ∀ p ∈ ps, p.WF isCoord)
    (hne : ps ≠ []) (hsz : ps.length < 2 ^ 64) :
    ∃ run, solveTSPRun start ps = .ok run ∧
      run.evaluated.Pairwise (List.Lex (· < ·)) ∧ run.evaluated.Nodup ∧
      (∀ q : List (Point3D R), q.Perm ps → q ∈ run.evaluated) ∧
      (∀ arr : List (List (Point3D R)), arr.Nodup → (∀ q, q ∈ arr ↔ q.Perm ps) →
        run.evaluated.length = arr.length) ∧
      (run.evaluated.length = ps.length.factorial ↔ ps.Nodup) := by
  obtain ⟨tr, hrun, hpw, hall, hcomplete, _, _, _⟩ :=
    solveTSPRun_spec hlaw start ps hstart hps hne hsz
  have hnd : tr.Nodup := by
    unfold List.Nodup
    exact List.Pairwise.imp (fun {a b} hab (heq : a = b) => lex_irrefl b (heq ▸ hab)) hpw
  refine ⟨_, hrun, hpw, hnd, hcomplete, ?_, ?_⟩
  · intro arr harr hmem
    exact ((List.perm_ext_iff_of_nodup hnd harr).mpr
      (fun q => ⟨fun h => (hmem q).mpr (hall q h), fun h => hcomplete q ((hmem q).mp h)⟩)).length_eq
  · show tr.length = _ ↔ _
    have hsub : tr.Subperm ps.permutations :=
      List.subperm_of_subset hnd (fun o ho => List.mem_permutations.mpr (hall o ho))
    constructor
    · intro h
      have hperm : tr.Perm ps.permutations :=
        hsub.perm_of_length_le (by rw [h, List.length_permutations])
      exact List.nodup_permutations_iff.mp (hperm.nodup_iff.mp hnd)
    · intro h
      have hperm : tr.Perm ps.permutations :=
        (List.perm_ext_iff_of_nodup hnd (List.nodup_permutations ps h)).mpr
          (fun q => ⟨fun h => List.mem_permutations.mpr (hall q h),
            fun h => hcomplete q (List.mem_permutations.mp h)⟩)
      rw [hperm.length_eq, List.length_permutations]

end Claims2

theorem foldl_improve_none {R : Type} [DoubleOps R] (start : Point3D R) :
    ∀ (tr : List (List (Point3D R))) (m : R) (b : List (Point3D R)),
      (∀ o ∈ tr, ∀ len, pathLength start o = .ok len → DoubleOps.lt len m = false) →
      tr.foldl (improve start) (m, b) = (m, b) := by
  intro tr
  induction tr with
  | nil => intro m b _; rfl
  | cons o tr ih =>
    intro m b h
    have himp : improve start (m, b) o = (m, b) := by
      unfold improve
      rcases hp : pathLength start o with e | len
      · rfl
      · simp only [h o (List.mem_cons_self o tr) len hp, Bool.false_eq_true, if_false]
    rw [List.foldl_cons, himp]
    exact ih m b (fun o' ho' => h o' (List.mem_cons_of_mem o ho'))

theorem searchLoop_in_range {R : Type} [DoubleOps R] (start : Point3D R) (n : Nat)
    (hn : 0 < n) (hn2 : n < 2 ^ 64) :
    ∀ (fuel : Nat) (c : List (Point3D R)) (m : R) (b : List (Point3D R))
      (log : List (List (Point3D R))), c.length = n →
      searchLoop start fuel c m b log ≠ .error Fault.outOfRange := by
  intro fuel
  induction fuel with
  | zero => intro c m b log _; simp [searchLoop]
  | succ fuel ih =>
    intro c m b log hc
    have hne : c ≠ [] := fun h => by rw [h] at hc; simp at hc; omega
    obtain ⟨len, _, hp⟩ := pathLength_eq_spec start hne (hc ▸ hn2)
    have hperm := next_permutation_perm Point3D.lt c
    rcases hnp : next_permutation Point3D.lt c with ⟨c', flag⟩
    rw [hnp] at hperm
    cases flag with
    | true =>
      simp only [searchLoop, hp, hnp]
      exact ih _ _ _ _ (hperm.length_eq.trans hc)
    | false =>
      simp only [searchLoop, hp, hnp]
      exact fun h => by cases h

/-- C17 (index safety): for every non-empty destination list (of a size that fits
`size_t`) and any arithmetic, the bound `size - 1` does not wrap, every ordering the
loop handles is a permutation of the input, in each of them the accesses `points[0]`
and `points[i]`, `points[i + 1]` for `i < size - 1` are within bounds, and no run ends in
an out-of-range access. -/
theorem solveTSP_index_safe {R : Type} [DoubleOps R] (start : Point3D R)
    (ps : List (Point3D R)) (hne : ps ≠ []) (hsz : ps.length < 2 ^ 64) :
    (ps.length + 2 ^ 64 - 1) % 2 ^ 64 = ps.length - 1 ∧
    (∀ run, solveTSPRun start ps = .ok run → ∀ o ∈ run.evaluated, o.Perm ps) ∧
    (∀ o : List (Point3D R), o.Perm ps →
      (∃ p0, elemAt o 0 = .ok p0) ∧
      (∀ i, i < (o.length + 2 ^ 64 - 1) % 2 ^ 64 →
        (∃ a, elemAt o i = .ok a) ∧ ∃ b, elemAt o (i + 1) = .ok b) ∧
      ∃ len, pathLength start o = .ok len) ∧
    (∀ fuel, searchLoop start fuel (sort Point3D.lt ps) DoubleOps.maxVal [] [] ≠
      .error Fault.outOfRange) ∧
    solveTSPRun start ps ≠ .error Fault.outOfRange := by
  have hpos : 0 < ps.length := List.length_pos.mpr hne
  have hat : ∀ (o : List (Point3D R)) (i : Nat), i < o.length → ∃ a, elemAt o i = .ok a := by
    intro o i hi
    exact ⟨o[i], by simp [elemAt, List.getElem?_eq_getElem hi]⟩
  have hsort : (sort Point3D.lt ps).length = ps.length := (sort_perm _ ps).length_eq
  refine ⟨by omega, ?_, ?_, ?_, ?_⟩
  · intro run hrun o ho
    obtain ⟨tr, henum, hev, _, _⟩ := searchLoop_ok start _ _ _ _ _ _ hrun
    simp only [List.nil_append] at hev
    rw [hev] at ho
    have key : ∀ (fuel : Nat) (c : List (Point3D R)) (tr : List (List (Point3D R)))
        (last : List (Point3D R)), c.Perm ps →
        enumerate Point3D.lt fuel c = some (tr, last) → ∀ o ∈ tr, o.Perm ps := by
      intro fuel
      induction fuel with
      | zero => intro c tr last _ h; simp [enumerate] at h
      | succ fuel ih =>
        intro c tr last hc h o ho
        have hperm := next_permutation_perm Point3D.lt c
        rcases hnp : next_permutation Point3D.lt c with ⟨c', flag⟩
        rw [hnp] at hperm
        cases flag with
        | true =>
          simp only [enumerate, hnp] at h
          rcases hen : enumerate Point3D.lt fuel c' with _ | ⟨tr', last'⟩
          · simp [hen] at h
          · simp only [hen, Option.some.injEq, Prod.mk.injEq] at h
            obtain ⟨htr, _⟩ := h
            subst htr
            rcases List.mem_cons.mp ho with h' | h'
            · exact h' ▸ hc
            · exact ih c' tr' last' (hperm.trans hc) hen o h'
        | false =>
          simp only [enumerate, hnp, Option.some.injEq, Prod.mk.injEq] at h
          obtain ⟨htr, _⟩ := h
          subst htr
          exact (List.mem_singleton.mp ho) ▸ hc
    exact key _ _ _ _ (sort_perm _ ps) henum o ho
  · intro o ho
    have hlen : o.length = ps.length := ho.length_eq
    have hone : o ≠ [] := fun h => by rw [h] at hlen; simp at hlen; omega
    refine ⟨hat o 0 (by omega), ?_, ?_⟩
    · intro i hi
      have hi' : i < o.length - 1 := by omega
      exact ⟨hat o i (by omega), hat o (i + 1) (by omega)⟩
    · obtain ⟨len, _, hp⟩ := pathLength_eq_spec start hone (hlen ▸ hsz)
      exact ⟨len, hp⟩
  · intro fuel
    exact searchLoop_in_range start ps.length hpos hsz fuel _ _ _ _ hsort
  · exact searchLoop_in_range start ps.length hpos hsz _ _ _ _ _ hsort

section Claims3

variable {R : Type} [DoubleOps R] [LinearOrder R] {isCoord isLength : R → Prop}

/-- C20 (the sentinel): `minDistance` starts at `max` and is replaced only by a length
that is `<` it, so for a non-empty destination list the returned `bestPath` is
non-empty, and then of size `n`, if and only if some ordering has a path length `<`
`max`; when no ordering has one, `solveTSP` returns `minDistance = max` with an empty
`bestPath`.  The last part holds for any points of the carrier, also when lengths are
not comparable: a run in which no evaluated length is `<` `max` returns `(max, [])`. -/
theorem solveTSP_sentinel (hlaw : Lawful isCoord isLength) (start : Point3D R)
    (ps : List (Point3D R)) (hstart : start.WF isCoord) (hps : ∀ p ∈ ps, p.WF isCoord)
    (hne : ps ≠ []) (hsz : ps.length < 2 ^ 64) :
    (∃ r, solveTSP start ps = .ok r ∧
      (r.bestPath ≠ [] ↔ ∃ q len, q.Perm ps ∧ specLength start q = some len ∧
        DoubleOps.lt len DoubleOps.maxVal = true) ∧
      (r.bestPath ≠ [] → r.bestPath.length = ps.length ∧
        specLength start r.bestPath = some r.minDistance ∧
        DoubleOps.lt r.minDistance DoubleOps.maxVal = true) ∧
      (r.bestPath = [] → r = ⟨DoubleOps.maxVal, []⟩)) ∧
    ∀ (s' : Point3D R) (ps' : List (Point3D R)) (run : Run R),
      solveTSPRun s' ps' = .ok run →
      (∀ o ∈ run.evaluated, ∀ len, pathLength s' o = .ok len →
        DoubleOps.lt len DoubleOps.maxVal = false) →
      run.result = ⟨DoubleOps.maxVal, []⟩ := by
  constructor
  · obtain ⟨r, tr, hrun, _, hall, _, hr, hmin, hdisj⟩ :=
      solveTSP_spec hlaw start ps hstart hps hne hsz
    refine ⟨r, solveTSP_of_run hrun, ?_⟩
    rcases hdisj with ⟨h, hge⟩ | ⟨l₁, l₂, h1, h2, h3, _⟩
    · subst h
      refine ⟨?_, fun h => absurd rfl h, fun _ => rfl⟩
      constructor
      · exact fun h => absurd rfl h
      · rintro ⟨q, len, hq, hs, hlt⟩
        obtain ⟨len', hs', hl', _⟩ := hmin q hq
        rw [hs] at hs'
        cases hs'
        exact absurd ((hlaw.length_lt len _ hl' hlaw.length_max).mp hlt)
          (not_lt.mpr (hge q hq len hs))
    · have hmem : r.bestPath ∈ tr := by rw [h1]; simp
      have hperm := hall _ hmem
      have hnonempty : r.bestPath ≠ [] :=
        fun h => hne (List.Perm.eq_nil (h ▸ hperm.symm))
      have hlt : DoubleOps.lt r.minDistance DoubleOps.maxVal = true :=
        (hlaw.length_lt _ _ hr hlaw.length_max).mpr h3
      exact ⟨⟨fun _ => ⟨r.bestPath, r.minDistance, hperm, h2, hlt⟩, fun _ => hnonempty⟩,
        fun _ => ⟨hperm.length_eq, h2, hlt⟩, fun h => absurd h hnonempty⟩
  · intro s' ps' run hrun hnone
    obtain ⟨tr, _, hev, hfold, _⟩ := searchLoop_ok s' _ _ _ _ _ _ hrun
    simp only [List.nil_append] at hev
    rw [hev] at hnone
    rw [foldl_improve_none s' tr _ _ hnone] at hfold
    obtain ⟨⟨m, b⟩, pts, ev⟩ := run
    simp only [Prod.mk.injEq] at hfold
    obtain ⟨hm, hb⟩ := hfold
    subst hm hb
    rfl

end Claims3

/-! ## The input collaborator and `main` -/

theorem readCount_pos {S R : Type} [InputStream S R] :
    ∀ (fuel : Nat) (s : S) (n : Int) (s' : S), readCount fuel s = some (n, s') → 1 ≤ n := by
  intro fuel
  induction fuel with
  | zero => intro s n s' h; simp [readCount] at h
  | succ fuel ih =>
    intro s n s' h
    rcases hr : InputStream.readInt s with ⟨_ | k, s1⟩
    · simp only [readCount, hr] at h
      exact ih _ _ _ h
    · simp only [readCount, hr] at h
      by_cases hk : k < 1
      · rw [if_pos hk] at h
        exact ih _ _ _ h
      · rw [if_neg hk] at h
        simp only [Option.some.injEq, Prod.mk.injEq] at h
        omega

theorem readPoints_length {S R : Type} [InputStream S R] :
    ∀ (n : Nat) (s : S) (points : List (Point3D R)),
      (readPoints n s points).1.length = points.length + n := by
  intro n
  induction n with
  | zero => intro s points; rfl
  | succ n ih =>
    intro s points
    rw [readPoints, ih]
    simp only [List.length_append, List.length_singleton]
    omega

/-- C15 (the input collaborator): whenever `getPointsFromUser` returns, the count it
accepted is an integer `≥ 1` and the returned vector holds exactly that many points, so
`main` calls `solveTSP` only with a non-empty destination list; a failed extraction and
a count below `1` are discarded and the count is asked for again; a count `≥ 1` is
accepted at once. -/
theorem getPointsFromUser_nonempty {S R : Type} [InputStream S R] [DoubleOps R] (zero : R)
    (fuel : Nat) (s : S) :
    (∀ points s', getPointsFromUser fuel s = some (points, s') →
      ∃ (n : Int) (s1 : S), readCount fuel s = some (n, s1) ∧ 1 ≤ n ∧
        points.length = n.toNat ∧ points ≠ []) ∧
    (∀ res, main zero fuel s = some res →
      ∃ targets s', getPointsFromUser fuel s = some (targets, s') ∧ targets ≠ [] ∧
        res = solveTSP ⟨zero, zero, zero⟩ targets) ∧
    (∀ s1, InputStream.readInt s = (none, s1) →
      getPointsFromUser (fuel + 1) s = getPointsFromUser fuel (InputStream.discardLine s1)) ∧
    (∀ n s1, InputStream.readInt s = (some n, s1) → n < 1 →
      getPointsFromUser (fuel + 1) s = getPointsFromUser fuel (InputStream.discardLine s1)) ∧
    (∀ n s1, InputStream.readInt s = (some n, s1) → 1 ≤ n →
      getPointsFromUser (fuel + 1) s = some (readPoints n.toNat s1 [])) := by
  have h1 : ∀ points s', getPointsFromUser fuel s = some (points, s') →
      ∃ (n : Int) (s1 : S), readCount fuel s = some (n, s1) ∧ 1 ≤ n ∧
        points.length = n.toNat ∧ points ≠ [] := by
    intro points s' h
    unfold getPointsFromUser at h
    rcases hc : readCount fuel s with _ | ⟨n, s1⟩
    · simp [hc] at h
    · simp only [hc, Option.some.injEq] at h
      have hn := readCount_pos fuel s n s1 hc
      have hlen : points.length = n.toNat := by
        have := readPoints_length n.toNat s1 ([] : List (Point3D R))
        rw [h] at this
        simpa using this
      refine ⟨n, s1, rfl, hn, hlen, ?_⟩
      intro hnil
      rw [hnil] at hlen
      simp only [List.length_nil] at hlen
      omega
  refine ⟨h1, ?_, ?_, ?_, ?_⟩
  · intro res h
    unfold main at h
    rcases hg : getPointsFromUser fuel s with _ | ⟨targets, s'⟩
    · simp [hg] at h
    · simp only [hg, Option.some.injEq] at h
      obtain ⟨_, _, _, _, _, hne⟩ := h1 targets s' hg
      exact ⟨targets, s', rfl, hne, h.symm⟩
  · intro s1 hr
    simp only [getPointsFromUser, readCount, hr]
  · intro n s1 hr hn
    simp only [getPointsFromUser, readCount, hr, if_pos hn]
  · intro n s1 hr hn
    simp only [getPointsFromUser, readCount, hr, if_neg (not_lt.mpr hn)]

/-- Witness of C15 on the typed input `abc`, `0`, `2`, `1 0 0`, `0 1 0`: two wrong
answers are discarded, the count `2` is accepted and two points are returned. -/
theorem getPointsFromUser_nonempty_witness :
    getPointsFromUser 3 typedInput =
        some ([dpt 1 0 0, dpt 0 1 0], ⟨false, [Token.newline]⟩) ∧
      main (Double.num (F64.ofInt 0)) 3 typedInput =
        some (solveTSP zeroPos [dpt 1 0 0, dpt 0 1 0]) ∧
      ∃ (n : Int) (s1 : Cin), readCount 3 typedInput = some (n, s1) ∧ 1 ≤ n ∧
        [dpt 1 0 0, dpt 0 1 0].length = n.toNat ∧ [dpt 1 0 0, dpt 0 1 0] ≠ [] :=
  ⟨by decide!, by decide!,
    (getPointsFromUser_nonempty (Double.num (F64.ofInt 0)) 3 typedInput).1
      [dpt 1 0 0, dpt 0 1 0] ⟨false, [Token.newline]⟩ (by decide!)⟩

/-! ## The closed route of the header comment -/

/-- C11 (round trip), the code at the failing input: from the origin to the single
destination `(2,0,0)` `solveTSP` returns `2`, the length of the open path, while the
route that returns to the origin, the only one there is, has the length `4`. -/
theorem solveTSP_not_round_trip :
    solveTSP origin [pt 2 0 0] = .ok ⟨F64.ofInt 2, [pt 2 0 0]⟩ ∧
      roundTripLength origin [pt 2 0 0] = some (F64.ofInt 4) ∧
      F64.lt (F64.ofInt 2) (F64.ofInt 4) = true := by
  decide!


/-! ## The remaining claims at concrete inputs, in binary64 -/

/-- Counterexample to C12 as stated: called with `(1,0,0), (0,1,0)`, `solveTSP` leaves
`(0,1,0), (1,0,0)` in the caller's vector. -/
theorem solveTSP_argument_changed_counterexample :
    (solveTSPRun origin twoPoints).toOption.map Run.points = some [pt 0 1 0, pt 1 0 0] ∧
      [pt 0 1 0, pt 1 0 0] ≠ twoPoints := by
  decide!

/-- Witness of C13 at the origin and `(1,0,0), (0,1,0)`. -/
theorem solveTSP_total_witness :
    twoPoints ≠ [] ∧ twoPoints.length < 2 ^ 64 ∧
      ∃ run, solveTSP origin twoPoints = .ok run.result ∧
        solveTSPRun origin twoPoints = .ok run ∧
        (∀ fuel, twoPoints.length.factorial ≤ fuel →
          searchLoop origin fuel (sort Point3D.lt twoPoints) DoubleOps.maxVal [] [] =
            .ok run) ∧
        run.evaluated.Pairwise (List.Lex (· < ·)) ∧
        (∀ o ∈ run.evaluated, o.Perm twoPoints) ∧
        run.evaluated.length ≤ twoPoints.length.factorial :=
  ⟨by decide, by decide,
    solveTSP_total F64.lawful origin twoPoints (pt_wf 0 0 0) twoPoints_wf (by decide)
      (by decide)⟩

/-- Witness of C14 at `(1,0,0)`, `(0,1,0)` and `(1,1,0)`. -/
theorem lt_strict_total_witness :
    Point3D.lt (pt 1 0 0) (pt 1 0 0) = false ∧
      (Point3D.lt (pt 0 1 0) (pt 1 0 0) = true → Point3D.lt (pt 1 0 0) (pt 1 1 0) = true →
        Point3D.lt (pt 0 1 0) (pt 1 1 0) = true) ∧
      Point3D.lt (pt 0 1 0) (pt 1 0 0) = true ∧ Point3D.lt (pt 1 0 0) (pt 0 1 0) = false :=
  have h := Point3D.lt_strict_total F64.lawful (pt 0 1 0) (pt 1 0 0) (pt 1 1 0) (pt_wf 0 1 0)
    (pt_wf 1 0 0) (pt_wf 1 1 0)
  ⟨(Point3D.lt_strict_total F64.lawful (pt 1 0 0) (pt 1 0 0) (pt 1 0 0) (pt_wf 1 0 0)
      (pt_wf 1 0 0) (pt_wf 1 0 0)).2.1, h.2.2.1, by decide!, by decide!⟩

/-- Witness of C16: from `(0,1,0), (1,0,0)` the step continues with `(1,0,0), (0,1,0)`,
the least greater ordering; from `(1,0,0), (0,1,0)`, the greatest ordering of these two
points, it signals exhaustion. -/
theorem next_permutation_step_witness :
    (next_permutation Point3D.lt [pt 0 1 0, pt 1 0 0] = (twoPoints, true) ∧
      List.Lex (· < ·) [pt 0 1 0, pt 1 0 0]
        (next_permutation Point3D.lt [pt 0 1 0, pt 1 0 0]).1) ∧
      (next_permutation Point3D.lt twoPoints).2 = false ∧ twoPoints.Sorted (· ≥ ·) ∧
      ∀ q : List (Point3D F64), q.Perm twoPoints → ¬ List.Lex (· < ·) twoPoints q :=
  have h := next_permutation_step F64.lawful twoPoints twoPoints_wf
  have h' := next_permutation_step F64.lawful [pt 0 1 0, pt 1 0 0]
    (by simp [pt_wf])
  ⟨⟨by decide!, (h'.1 (by decide!)).2.1⟩, by decide!, h.2.1.mp (by decide!),
    h.2.2.mp (by decide!)⟩

/-- Witness of C17 at the origin and `(1,0,0), (0,1,0)`. -/
theorem solveTSP_index_safe_witness :
    twoPoints ≠ [] ∧ twoPoints.length < 2 ^ 64 ∧
      (twoPoints.length + 2 ^ 64 - 1) % 2 ^ 64 = twoPoints.length - 1 ∧
      solveTSPRun origin twoPoints ≠ .error Fault.outOfRange :=
  have h := solveTSP_index_safe origin twoPoints (by decide) (by decide)
  ⟨by decide, by decide, h.1, h.2.2.2.2⟩

/-- Witness of C18 at the origin and `(1,0,0), (0,1,0)`: two arrangements. -/
theorem solveTSP_enumeration_distinct_witness :
    twoPoints ≠ [] ∧ twoPoints.length < 2 ^ 64 ∧ twoPoints.Nodup ∧
      ∃ run, solveTSPRun origin twoPoints = .ok run ∧
        run.evaluated.Pairwise (List.Lex (· < ·)) ∧ run.evaluated.Nodup ∧
        (∀ q : List (Point3D F64), q.Perm twoPoints → q ∈ run.evaluated) ∧
        run.evaluated.length = twoPoints.length.factorial :=
  ⟨by decide, by decide, by decide!,
    (solveTSP_enumeration_distinct F64.lawful origin twoPoints (pt_wf 0 0 0) twoPoints_wf
      (by decide) (by decide)).imp
        fun _ h => ⟨h.1, h.2.1, h.2.2.1, h.2.2.2.1, h.2.2.2.2.2.mpr (by decide!)⟩⟩

/-- Witness of C19 at the origin and `(1,0,0), (0,1,0)`. -/
theorem solveTSP_argument_sorted_witness :
    twoPoints ≠ [] ∧ twoPoints.length < 2 ^ 64 ∧
      ∃ run, solveTSPRun origin twoPoints = .ok run ∧
        run.points = sort Point3D.lt twoPoints ∧ run.points.Perm twoPoints ∧
        run.points.Sorted (· ≤ ·) ∧
        ∃ g, run.evaluated.getLast? = some g ∧ g.Sorted (· ≥ ·) ∧
          next_permutation Point3D.lt g = (run.points, false) ∧ run.points = g.reverse :=
  ⟨by decide, by decide,
    solveTSP_argument_sorted F64.lawful origin twoPoints (pt_wf 0 0 0) twoPoints_wf
      (by decide) (by decide)⟩

/-- A length that is not comparable: the distance of `infPoint` from itself is NaN,
which is not `<` `max`, and `solveTSP` returns `max` with an empty `bestPath`. -/
theorem infPoint_run :
    calcDistance infPoint infPoint = F64.nan ∧
      pathLength infPoint [infPoint] = .ok F64.nan ∧
      F64.lt F64.nan F64.maxVal = false ∧
      solveTSPRun infPoint [infPoint] = .ok ⟨⟨F64.maxVal, []⟩, [infPoint], [[infPoint]]⟩ := by
  decide!

/-- Witness of C20: at the origin and `(1,0,0), (0,1,0)` for the first part, and at the
NaN length of `infPoint` for the second. -/
theorem solveTSP_sentinel_witness :
    twoPoints ≠ [] ∧ twoPoints.length < 2 ^ 64 ∧
      (∃ r, solveTSP origin twoPoints = .ok r ∧
        (r.bestPath ≠ [] ↔ ∃ q len, q.Perm twoPoints ∧ specLength origin q = some len ∧
          DoubleOps.lt len (DoubleOps.maxVal : F64) = true) ∧
        (r.bestPath ≠ [] → r.bestPath.length = twoPoints.length ∧
          specLength origin r.bestPath = some r.minDistance ∧
          DoubleOps.lt r.minDistance (DoubleOps.maxVal : F64) = true) ∧
        (r.bestPath = [] → r = ⟨DoubleOps.maxVal, []⟩)) ∧
      (Run.result ⟨⟨F64.maxVal, []⟩, [infPoint], [[infPoint]]⟩ : TSPResult F64) =
        ⟨DoubleOps.maxVal, []⟩ :=
  have h := solveTSP_sentinel F64.lawful origin twoPoints (pt_wf 0 0 0) twoPoints_wf
    (by decide) (by decide)
  ⟨by decide, by decide, h.1,
    h.2 infPoint [infPoint] ⟨⟨F64.maxVal, []⟩, [infPoint], [[infPoint]]⟩ infPoint_run.2.2.2
      (by
        intro o ho len hl
        rw [List.mem_singleton.mp ho, infPoint_run.2.1] at hl
        cases hl
        exact infPoint_run.2.2.1)⟩

/-! ## Maps between arithmetics -/

section Maps

variable {α β : Type} {less : α → α → Bool} {less' : β → β → Bool} {g : α → β}

theorem orderedInsert_map (h : ∀ a b, less' (g a) (g b) = less a b) (a : α) (l : List α) :
    (l.map g).orderedInsert (fun a b => less' b a = false) (g a) =
      (l.orderedInsert (fun a b => less b a = false) a).map g := by
  induction l with
  | nil => rfl
  | cons b l ih =>
    simp only [List.map_cons, List.orderedInsert, h]
    split
    · rfl
    · rw [List.map_cons, ih]

theorem sort_map (h : ∀ a b, less' (g a) (g b) = less a b) (l : List α) :
    sort less' (l.map g) = (sort less l).map g := by
  unfold sort
  induction l with
  | nil => rfl
  | cons a l ih =>
    simp only [List.map_cons, List.insertionSort]
    rw [ih, orderedInsert_map h]

theorem splitPivot_map (h : ∀ a b, less' (g a) (g b) = less a b) :
    ∀ l : List α, splitPivot less' (l.map g) =
      ((splitPivot less l).1.map g, (splitPivot less l).2.map g)
  | [] => rfl
  | [a] => rfl
  | a :: b :: l => by
    have ih := splitPivot_map h (b :: l)
    simp only [List.map_cons] at ih ⊢
    simp only [splitPivot, h]
    split
    · rfl
    · rw [ih]; rfl

theorem swapPivot_map (h : ∀ a b, less' (g a) (g b) = less a b) (p : α) :
    ∀ l : List α, swapPivot less' (g p) (l.map g) =
      (g (swapPivot less p l).1, (swapPivot less p l).2.map g)
  | [] => rfl
  | e :: s => by
    have ih := swapPivot_map h p s
    simp only [List.map_cons, swapPivot, h]
    split
    · rfl
    · rw [ih]; rfl

theorem next_permutation_map (h : ∀ a b, less' (g a) (g b) = less a b) (l : List α) :
    next_permutation less' (l.map g) =
      ((next_permutation less l).1.map g, (next_permutation less l).2) := by
  unfold next_permutation
  rw [← List.map_reverse, splitPivot_map h]
  rcases splitPivot less l.reverse with ⟨s, _ | ⟨p, front⟩⟩
  · rfl
  · simp only [List.map_cons, swapPivot_map h, List.map_append, List.map_reverse]

theorem elemAt_map (l : List α) (i : Nat) :
    elemAt (l.map g) i = (elemAt l i).map g := by
  unfold elemAt
  rw [List.getElem?_map]
  cases l[i]? <;> rfl

end Maps

section Hom

variable {R S : Type} [DoubleOps R] [DoubleOps S] {f : R → S}

theorem calcDistance_map (hf : DoubleOps.Hom f) (a b : Point3D R) :
    calcDistance (a.map f) (b.map f) = f (calcDistance a b) := by
  simp only [calcDistance, Point3D.map, hf.add, hf.sub, hf.mul, hf.sqrt]

theorem Point3D.lt_map (hf : DoubleOps.Hom f) (a b : Point3D R) :
    Point3D.lt (a.map f) (b.map f) = Point3D.lt a b := by
  simp only [Point3D.lt, Point3D.map, hf.lt, hf.ne]

theorem sumLoop_map (hf : DoubleOps.Hom f) (points : List (Point3D R)) :
    ∀ (iters i : Nat) (cur : R),
      sumLoop (points.map (Point3D.map f)) iters i (f cur) =
        (sumLoop points iters i cur).map f
  | 0, _, _ => rfl
  | iters + 1, i, cur => by
    simp only [sumLoop, elemAt_map]
    rcases elemAt points i with e | a <;> rcases elemAt points (i + 1) with e' | b <;>
      try rfl
    simp only [Except.map]
    rw [calcDistance_map hf, ← hf.add]
    exact sumLoop_map hf points iters (i + 1) _


theorem pathLength_map_aux (hf : DoubleOps.Hom f) (start : Point3D R) (points : List (Point3D R))
    (n : Nat) :
    (match elemAt (points.map (Point3D.map f)) 0 with
      | .ok p0 => sumLoop (points.map (Point3D.map f)) n 0 (calcDistance (start.map f) p0)
      | .error e => .error e) =
    (match elemAt points 0 with
      | .ok p0 => sumLoop points n 0 (calcDistance start p0)
      | .error e => .error e : Except Fault R).map f := by
  rw [elemAt_map]
  rcases elemAt points 0 with e | p0
  · rfl
  · simp only [Except.map]
    rw [calcDistance_map hf]
    exact sumLoop_map hf points n 0 _

theorem pathLength_map (hf : DoubleOps.Hom f) (start : Point3D R) (points : List (Point3D R)) :
    pathLength (start.map f) (points.map (Point3D.map f)) =
      (pathLength start points).map f := by
  unfold pathLength
  rw [List.length_map]
  exact pathLength_map_aux hf start points _

theorem searchLoop_map (hf : DoubleOps.Hom f) (start : Point3D R) :
    ∀ (fuel : Nat) (points : List (Point3D R)) (minDistance : R) (bestPath : List (Point3D R))
      (log : List (List (Point3D R))),
      searchLoop (start.map f) fuel (points.map (Point3D.map f)) (f minDistance)
          (bestPath.map (Point3D.map f)) (log.map (List.map (Point3D.map f))) =
        (searchLoop start fuel points minDistance bestPath log).map (Run.map f)
  | 0, _, _, _, _ => rfl
  | fuel + 1, points, minDistance, bestPath, log => by
    rw [searchLoop, searchLoop, pathLength_map hf,
      next_permutation_map (Point3D.lt_map hf) points]
    rcases pathLength start points with e | len
    · rfl
    · rcases next_permutation Point3D.lt points with ⟨points', flag⟩
      simp only [Except.map, hf.lt]
      cases flag with
      | true =>
        have ih := searchLoop_map hf start fuel points'
        by_cases hlt : DoubleOps.lt len minDistance = true
        · simp only [hlt, if_true]
          have := ih len points (log ++ [points])
          simpa using this
        · simp only [hlt, if_false]
          have := ih minDistance bestPath (log ++ [points])
          simpa using this
      | false =>
        by_cases hlt : DoubleOps.lt len minDistance = true
        · simp [hlt, Run.map, TSPResult.map]
        · simp [hlt, Run.map, TSPResult.map]

theorem solveTSPRun_map (hf : DoubleOps.Hom f) (start : Point3D R) (points : List (Point3D R)) :
    solveTSPRun (start.map f) (points.map (Point3D.map f)) =
      (solveTSPRun start points).map (Run.map f) := by
  unfold solveTSPRun
  rw [sort_map (Point3D.lt_map hf), List.length_map, ← hf.maxVal]
  exact searchLoop_map hf start _ _ _ [] []

theorem solveTSP_map (hf : DoubleOps.Hom f) (start : Point3D R) (points : List (Point3D R)) :
    solveTSP (start.map f) (points.map (Point3D.map f)) =
      (solveTSP start points).map (TSPResult.map f) := by
  unfold solveTSP
  rw [solveTSPRun_map hf]
  rcases solveTSPRun start points with e | run <;> rfl

end Hom

/-! ## The sign of zero -/

namespace Double

theorem toF64_neg (a : Double) : (neg a).toF64 = F64.neg a.toF64 := by
  cases a with
  | negZero => rfl
  | num v =>
    by_cases h : v = F64.fin 0
    · subst h; simp [neg, toF64, F64.neg]
    · simp [neg, toF64, h]

theorem toF64_add (a b : Double) : (add a b).toF64 = F64.add a.toF64 b.toF64 := by
  cases a <;> cases b <;> first | rfl | decide!

theorem toF64_mul (a b : Double) : (mul a b).toF64 = F64.mul a.toF64 b.toF64 := by
  unfold mul
  by_cases h : F64.mul a.toF64 b.toF64 = F64.fin 0
  · rw [if_pos h, h]; split <;> rfl
  · rw [if_neg h]; rfl

theorem toF64_sqrt (a : Double) : (sqrt a).toF64 = F64.sqrt a.toF64 := by
  cases a with
  | negZero => decide!
  | num v => rfl

/-- Forgetting the sign of zero commutes with every operation. -/
theorem toF64_hom : DoubleOps.Hom toF64 where
  add := toF64_add
  sub a b := by
    show (add a (neg b)).toF64 = F64.add a.toF64 (F64.neg b.toF64)
    rw [toF64_add, toF64_neg]
  mul := toF64_mul
  sqrt := toF64_sqrt
  lt _ _ := rfl
  ne _ _ := rfl
  maxVal := rfl

/-- Two stored values that stand for the same number are the same, unless one of them
is the zero of negative sign. -/
theorem eq_of_toF64_eq {a b : Double} (ha : a ≠ negZero) (hb : b ≠ negZero)
    (h : a.toF64 = b.toF64) : a = b := by
  cases a with
  | negZero => exact absurd rfl ha
  | num v =>
    cases b with
    | negZero => exact absurd rfl hb
    | num w => exact congrArg num h

theorem add_ne_negZero {a : Double} (ha : a ≠ negZero) (b : Double) : add a b ≠ negZero := by
  cases a with
  | negZero => exact absurd rfl ha
  | num v => cases b <;> simp [add]

theorem mul_self_ne_negZero (a : Double) : mul a a ≠ negZero := by
  unfold mul
  split
  · simp
  · simp

theorem sqrt_ne_negZero {a : Double} (ha : a ≠ negZero) : sqrt a ≠ negZero := by
  cases a with
  | negZero => exact absurd rfl ha
  | num v => simp [sqrt]

end Double

theorem calcDistance_ne_negZero (a b : Point3D Double) : calcDistance a b ≠ Double.negZero :=
  Double.sqrt_ne_negZero
    (Double.add_ne_negZero (Double.add_ne_negZero (Double.mul_self_ne_negZero _) _) _)

theorem sumLoop_ne_negZero (points : List (Point3D Double)) :
    ∀ (iters i : Nat) (cur len : Double), cur ≠ Double.negZero →
      sumLoop points iters i cur = .ok len → len ≠ Double.negZero
  | 0, _, cur, len, hcur, h => by
    simp only [sumLoop, Except.ok.injEq] at h
    exact h ▸ hcur
  | iters + 1, i, cur, len, hcur, h => by
    simp only [sumLoop] at h
    rcases h1 : elemAt points i with e | a <;> rcases h2 : elemAt points (i + 1) with e' | b <;>
      simp only [h1, h2, reduceCtorEq] at h
    exact sumLoop_ne_negZero points iters (i + 1) _ len (Double.add_ne_negZero hcur _) h

/-- A path length is never the zero of negative sign. -/
theorem pathLength_ne_negZero (start : Point3D Double) (points : List (Point3D Double))
    (len : Double) (h : pathLength start points = .ok len) : len ≠ Double.negZero := by
  unfold pathLength at h
  rcases h0 : elemAt points 0 with e | p0
  · simp only [h0, reduceCtorEq] at h
  · rw [h0] at h
    exact sumLoop_ne_negZero points _ 0 _ len (calcDistance_ne_negZero _ _) h

/-! ## The shape of a run, for any arithmetic -/

theorem enumerate_perm {α : Type} (less : α → α → Bool) :
    ∀ (fuel : Nat) (c : List α) (tr : List (List α)) (last : List α),
      enumerate less fuel c = some (tr, last) → (∀ o ∈ tr, o.Perm c) ∧ last.Perm c := by
  intro fuel
  induction fuel with
  | zero => intro c tr last h; simp [enumerate] at h
  | succ fuel ih =>
    intro c tr last h
    have hperm := next_permutation_perm less c
    rcases hnp : next_permutation less c with ⟨c', flag⟩
    rw [hnp] at hperm
    cases flag with
    | true =>
      simp only [enumerate, hnp] at h
      rcases hen : enumerate less fuel c' with _ | ⟨tr', last'⟩
      · simp [hen] at h
      · simp only [hen, Option.some.injEq, Prod.mk.injEq] at h
        obtain ⟨htr, hlast⟩ := h
        subst htr hlast
        obtain ⟨h1, h2⟩ := ih c' tr' last' hen
        refine ⟨?_, h2.trans hperm⟩
        intro o ho
        rcases List.mem_cons.mp ho with h' | h'
        · exact h' ▸ List.Perm.refl _
        · exact (h1 o h').trans hperm
    | false =>
      simp only [enumerate, hnp, Option.some.injEq, Prod.mk.injEq] at h
      obtain ⟨htr, hlast⟩ := h
      subst htr hlast
      exact ⟨fun o ho => (List.mem_singleton.mp ho) ▸ List.Perm.refl _, hperm⟩

theorem foldl_improve_shape {R : Type} [DoubleOps R] (start : Point3D R) :
    ∀ (tr : List (List (Point3D R))) (m : R) (b : List (Point3D R)),
      tr.foldl (improve start) (m, b) = (m, b) ∨
        ((tr.foldl (improve start) (m, b)).2 ∈ tr ∧
          pathLength start (tr.foldl (improve start) (m, b)).2 =
            .ok (tr.foldl (improve start) (m, b)).1) := by
  intro tr
  induction tr with
  | nil => intro m b; exact Or.inl rfl
  | cons o tr ih =>
    intro m b
    rw [List.foldl_cons]
    have himp : improve start (m, b) o = (m, b) ∨
        ∃ len, pathLength start o = .ok len ∧ improve start (m, b) o = (len, o) := by
      unfold improve
      rcases hp : pathLength start o with e | len
      · exact Or.inl rfl
      · by_cases hlt : DoubleOps.lt len m = true
        · exact Or.inr ⟨len, rfl, by simp only [hlt, if_true]⟩
        · exact Or.inl (by simp [hlt])
    rcases himp with h | ⟨len, hp, h⟩
    · rw [h]
      rcases ih m b with h' | ⟨h1, h2⟩
      · exact Or.inl h'
      · exact Or.inr ⟨List.mem_cons_of_mem _ h1, h2⟩
    · rw [h]
      rcases ih len o with h' | ⟨h1, h2⟩
      · rw [h']
        exact Or.inr ⟨List.mem_cons_self _ _, hp⟩
      · exact Or.inr ⟨List.mem_cons_of_mem _ h1, h2⟩

/-- What a returned run consists of, for any arithmetic: the argument is left as a
rearrangement of the input, and the result is `(max, [])` or a rearrangement of the
input with its own path length. -/
theorem solveTSPRun_shape {R : Type} [DoubleOps R] (start : Point3D R) (ps : List (Point3D R))
    (run : Run R) (h : solveTSPRun start ps = .ok run) :
    run.points.Perm ps ∧
      (run.result = ⟨DoubleOps.maxVal, []⟩ ∨
        (run.result.bestPath.Perm ps ∧
          pathLength start run.result.bestPath = .ok run.result.minDistance)) := by
  obtain ⟨tr, henum, _, hfold, _⟩ := searchLoop_ok start _ _ _ _ _ _ h
  obtain ⟨hall, hlast⟩ := enumerate_perm _ _ _ _ _ henum
  refine ⟨hlast.trans (sort_perm _ ps), ?_⟩
  rcases foldl_improve_shape start tr DoubleOps.maxVal [] with h' | ⟨h1, h2⟩
  · left
    rw [h'] at hfold
    rcases run with ⟨⟨m, b⟩, _, _⟩
    simp only [Prod.mk.injEq] at hfold
    rw [hfold.1, hfold.2]
  · right
    rw [← hfold] at h1 h2
    exact ⟨(hall _ h1).trans (sort_perm _ ps), h2⟩

theorem solveTSP_run {R : Type} [DoubleOps R] {start : Point3D R} {ps : List (Point3D R)}
    {r : TSPResult R} (h : solveTSP start ps = .ok r) :
    ∃ run, solveTSPRun start ps = .ok run ∧ run.result = r := by
  unfold solveTSP at h
  rcases hrun : solveTSPRun start ps with e | run
  · simp only [hrun, reduceCtorEq] at h
  · simp only [hrun, Except.ok.injEq] at h
    exact ⟨run, rfl, h⟩

/-- Two lists with the same image under a map that is injective on a set holding
their elements are equal. -/
theorem map_eq_of_injOn {α β : Type} (g : α → β) (s : List α)
    (hinj : ∀ a ∈ s, ∀ b ∈ s, g a = g b → a = b) :
    ∀ l₁ l₂ : List α, l₁ ⊆ s → l₂ ⊆ s → l₁.map g = l₂.map g → l₁ = l₂
  | [], [], _, _, _ => rfl
  | [], _ :: _, _, _, h => by simp at h
  | _ :: _, [], _, _, h => by simp at h
  | a :: l₁, b :: l₂, h₁, h₂, h => by
    simp only [List.map_cons, List.cons.injEq] at h
    have ha := h₁ (List.mem_cons_self a l₁)
    have hb := h₂ (List.mem_cons_self b l₂)
    rw [hinj a ha b hb h.1,
      map_eq_of_injOn g s hinj l₁ l₂ (fun x hx => h₁ (List.mem_cons_of_mem _ hx))
        (fun x hx => h₂ (List.mem_cons_of_mem _ hx)) h.2]

/-! ## Stored doubles: the claims that depend on the sign of zero -/

theorem wf_toF64 {p : Point3D Double} (h : p.WF Double.isFinite) :
    (p.map Double.toF64).WF F64.isFinite := h

theorem wf_map_toF64 {ps : List (Point3D Double)} (h : ∀ p ∈ ps, p.WF Double.isFinite) :
    ∀ p ∈ ps.map (Point3D.map Double.toF64), p.WF F64.isFinite := by
  intro p hp
  obtain ⟨q, hq, rfl⟩ := List.mem_map.mp hp
  exact h q hq

/-- On finite stored points `Point3D::operator<` is the order of the numbers. -/
theorem lt_toF64 {a b : Point3D Double} (ha : a.WF Double.isFinite)
    (hb : b.WF Double.isFinite) :
    Point3D.lt a b = true ↔ a.map Double.toF64 < b.map Double.toF64 := by
  rw [← Point3D.lt_map Double.toF64_hom a b]
  exact Point3D.lt_iff F64.lawful _ _ (wf_toF64 ha) (wf_toF64 hb)

/-- Two finite stored points that `Point3D::operator<` does not order stand for the
same numbers. -/
theorem toF64_eq_iff {a b : Point3D Double} (ha : a.WF Double.isFinite)
    (hb : b.WF Double.isFinite) :
    a.map Double.toF64 = b.map Double.toF64 ↔
      Point3D.lt a b = false ∧ Point3D.lt b a = false := by
  rw [← Bool.not_eq_true, ← Bool.not_eq_true, lt_toF64 ha hb, lt_toF64 hb ha]
  constructor
  · intro h; rw [h]; exact ⟨lt_irrefl _, lt_irrefl _⟩
  · intro h; exact le_antisymm (not_lt.mp h.2) (not_lt.mp h.1)

theorem result_of_map {start : Point3D Double} {ps : List (Point3D Double)}
    {r : TSPResult F64}
    (h : solveTSP (start.map Double.toF64) (ps.map (Point3D.map Double.toF64)) = .ok r) :
    ∃ r', solveTSP start ps = .ok r' ∧ r'.map Double.toF64 = r ∧
      r'.minDistance ≠ Double.negZero ∧ r'.bestPath ⊆ ps := by
  rw [solveTSP_map Double.toF64_hom] at h
  rcases hr : solveTSP start ps with e | r'
  · rw [hr] at h; cases h
  · rw [hr] at h
    obtain ⟨run, hrun, hres⟩ := solveTSP_run hr
    obtain ⟨_, hshape⟩ := solveTSPRun_shape start ps run hrun
    rw [hres] at hshape
    refine ⟨r', rfl, Except.ok.inj h, ?_, ?_⟩
    · rcases hshape with h' | ⟨_, h'⟩
      · rw [h']; exact fun h => by cases h
      · exact pathLength_ne_negZero _ _ _ h'
    · rcases hshape with h' | ⟨h', _⟩
      · rw [h']; exact List.nil_subset _
      · exact h'.subset

/-- C5 (input-order invariance and determinism, P3 and P4), amended: for every finite
start point and any two non-empty destination lists of finite points that are
permutations of each other, `solveTSP` returns the identical `minDistance` and
orderings `bestPath` that hold the same numbers (they can differ in the sign of a zero
coordinate); the same holds for the list given in canonical sorted order.  When
destinations that `Point3D::operator<` does not order are identical as stored, the
returned `bestPath` is identical too. -/
theorem solveTSP_order_invariant (start : Point3D Double) (ps qs : List (Point3D Double))
    (hstart : start.WF Double.isFinite) (hps : ∀ p ∈ ps, p.WF Double.isFinite)
    (hne : ps ≠ []) (hsz : ps.length < 2 ^ 64) (hperm : ps.Perm qs) :
    ∃ r₁ r₂ r₃, solveTSP start ps = .ok r₁ ∧ solveTSP start qs = .ok r₂ ∧
      solveTSP start (sort Point3D.lt ps) = .ok r₃ ∧
      r₁.minDistance = r₂.minDistance ∧ r₁.minDistance = r₃.minDistance ∧
      r₁.bestPath.map (Point3D.map Double.toF64) =
        r₂.bestPath.map (Point3D.map Double.toF64) ∧
      r₁.bestPath.map (Point3D.map Double.toF64) =
        r₃.bestPath.map (Point3D.map Double.toF64) ∧
      ((∀ p ∈ ps, ∀ q ∈ ps, Point3D.lt p q = false → Point3D.lt q p = false → p = q) →
        r₁ = r₂ ∧ r₁ = r₃) := by
  have hne' : ps.map (Point3D.map Double.toF64) ≠ [] := fun h => hne (List.map_eq_nil_iff.mp h)
  have hsz' : (ps.map (Point3D.map Double.toF64)).length < 2 ^ 64 := by
    rw [List.length_map]; exact hsz
  obtain ⟨r, h1, h2, h3⟩ := solveTSP_eq_of_perm F64.lawful (start.map Double.toF64)
    (ps.map (Point3D.map Double.toF64)) (qs.map (Point3D.map Double.toF64))
    (wf_toF64 hstart) (wf_map_toF64 hps) hne' hsz' (hperm.map _)
  rw [sort_map (Point3D.lt_map Double.toF64_hom)] at h3
  obtain ⟨r₁, e1, m1, n1, s1⟩ := result_of_map h1
  obtain ⟨r₂, e2, m2, n2, s2⟩ := result_of_map h2
  obtain ⟨r₃, e3, m3, n3, s3⟩ := result_of_map h3
  have s2' : r₂.bestPath ⊆ ps := fun x hx => hperm.symm.subset (s2 hx)
  have s3' : r₃.bestPath ⊆ ps := fun x hx => (sort_perm _ ps).subset (s3 hx)
  have hm12 : r₁.minDistance = r₂.minDistance :=
    Double.eq_of_toF64_eq n1 n2 (congrArg TSPResult.minDistance (m1.trans m2.symm))
  have hm13 : r₁.minDistance = r₃.minDistance :=
    Double.eq_of_toF64_eq n1 n3 (congrArg TSPResult.minDistance (m1.trans m3.symm))
  have hb12 : r₁.bestPath.map (Point3D.map Double.toF64) =
      r₂.bestPath.map (Point3D.map Double.toF64) :=
    congrArg TSPResult.bestPath (m1.trans m2.symm)
  have hb13 : r₁.bestPath.map (Point3D.map Double.toF64) =
      r₃.bestPath.map (Point3D.map Double.toF64) :=
    congrArg TSPResult.bestPath (m1.trans m3.symm)
  refine ⟨r₁, r₂, r₃, e1, e2, e3, hm12, hm13, hb12, hb13, ?_⟩
  intro hid
  have hinj : ∀ a ∈ ps, ∀ b ∈ ps,
      Point3D.map Double.toF64 a = Point3D.map Double.toF64 b → a = b := by
    intro a ha b hb hab
    obtain ⟨l1, l2⟩ := (toF64_eq_iff (hps a ha) (hps b hb)).mp hab
    exact hid a ha b hb l1 l2
  have e12 := map_eq_of_injOn _ ps hinj _ _ s1 s2' hb12
  have e13 := map_eq_of_injOn _ ps hinj _ _ s1 s3' hb13
  rcases r₁ with ⟨a1, b1⟩
  rcases r₂ with ⟨a2, b2⟩
  rcases r₃ with ⟨a3, b3⟩
  simp only at hm12 hm13 e12 e13
  subst hm12 hm13 e12 e13
  exact ⟨rfl, rfl⟩

/-- The argument after a call on finite stored points: a rearrangement of the input
that holds the numbers of the input in sorted order, no point below an earlier one. -/
theorem solveTSPRun_stored (start : Point3D Double) (ps : List (Point3D Double))
    (hstart : start.WF Double.isFinite) (hps : ∀ p ∈ ps, p.WF Double.isFinite)
    (hne : ps ≠ []) (hsz : ps.length < 2 ^ 64) :
    ∃ run, solveTSPRun start ps = .ok run ∧ run.points.Perm ps ∧
      run.points.map (Point3D.map Double.toF64) =
        sort Point3D.lt (ps.map (Point3D.map Double.toF64)) ∧
      (sort Point3D.lt (ps.map (Point3D.map Double.toF64))).Sorted (· ≤ ·) ∧
      run.points.Pairwise (fun a b => Point3D.lt b a = false) := by
  have hne' : ps.map (Point3D.map Double.toF64) ≠ [] := fun h => hne (List.map_eq_nil_iff.mp h)
  have hsz' : (ps.map (Point3D.map Double.toF64)).length < 2 ^ 64 := by
    rw [List.length_map]; exact hsz
  obtain ⟨tr, hrun₀, _, _, _, _, hsorted, _⟩ := solveTSPRun_spec F64.lawful
    (start.map Double.toF64) (ps.map (Point3D.map Double.toF64))
    (wf_toF64 hstart) (wf_map_toF64 hps) hne' hsz'
  rw [solveTSPRun_map Double.toF64_hom] at hrun₀
  rcases hrun : solveTSPRun start ps with e | run
  · rw [hrun] at hrun₀; cases hrun₀
  rw [hrun] at hrun₀
  have hpts : run.points.map (Point3D.map Double.toF64) =
      sort Point3D.lt (ps.map (Point3D.map Double.toF64)) :=
    congrArg Run.points (Except.ok.inj hrun₀)
  obtain ⟨hperm, _⟩ := solveTSPRun_shape start ps run hrun
  refine ⟨run, rfl, hperm, hpts, hsorted, ?_⟩
  have h := hsorted
  unfold List.Sorted at h
  rw [← hpts, List.pairwise_map] at h
  refine List.Pairwise.imp_of_mem ?_ h
  intro a b ha hb hab
  rw [← Bool.not_eq_true, lt_toF64 (hps b (hperm.subset hb)) (hps a (hperm.subset ha))]
  exact not_lt.mpr hab

/-- C12 (effect on the argument), amended: `solveTSP` rearranges the caller's
destination sequence in place; after the call the list passed in holds the same points
in ascending lexicographic order (no point is below an earlier one), so it is still
in the order the caller supplied only if that order was ascending, and it is whenever
that order was strictly ascending. -/
theorem solveTSP_argument_changed (start : Point3D Double) (ps : List (Point3D Double))
    (hstart : start.WF Double.isFinite) (hps : ∀ p ∈ ps, p.WF Double.isFinite)
    (hne : ps ≠ []) (hsz : ps.length < 2 ^ 64) :
    ∃ run, solveTSPRun start ps = .ok run ∧ run.points.Perm ps ∧
      run.points.Pairwise (fun a b => Point3D.lt b a = false) ∧
      (run.points = ps → ps.Pairwise (fun a b => Point3D.lt b a = false)) ∧
      (ps.Pairwise (fun a b => Point3D.lt a b = true) → run.points = ps) := by
  obtain ⟨run, hrun, hperm, hpts, hsorted, hasc⟩ :=
    solveTSPRun_stored start ps hstart hps hne hsz
  refine ⟨run, hrun, hperm, hasc, fun h => h ▸ hasc, ?_⟩
  intro hstrict
  have hlt : (ps.map (Point3D.map Double.toF64)).Pairwise (· < ·) := by
    rw [List.pairwise_map]
    refine List.Pairwise.imp_of_mem ?_ hstrict
    intro a b ha hb hab
    exact (lt_toF64 (hps a ha) (hps b hb)).mp hab
  have hle : (ps.map (Point3D.map Double.toF64)).Sorted (· ≤ ·) :=
    List.Pairwise.imp (fun h => le_of_lt h) hlt
  have hnd : (ps.map (Point3D.map Double.toF64)).Nodup :=
    List.Pairwise.imp (fun h => ne_of_lt h) hlt
  have heq : run.points.map (Point3D.map Double.toF64) = ps.map (Point3D.map Double.toF64) :=
    hpts.trans (List.eq_of_perm_of_sorted (sort_perm _ _) hsorted hle)
  exact map_eq_of_injOn _ ps (fun a ha b hb h => List.inj_on_of_nodup_map hnd ha hb h) _ _
    hperm.subset (List.Subset.refl _) heq

/-- When `next_permutation` returns `false`, it has reversed the range. -/
theorem next_permutation_false_reverse {α : Type} (less : α → α → Bool) (g last : List α)
    (h : next_permutation less g = (last, false)) : last = g.reverse := by
  have happ := splitPivot_append less g.reverse
  unfold next_permutation at h
  rcases hs : splitPivot less g.reverse with ⟨s, _ | ⟨p, front⟩⟩
  · rw [hs] at h happ
    simp only [Prod.mk.injEq, and_true] at h
    rw [← h, ← happ, List.append_nil]
  · rw [hs] at h
    simp at h

/-- The argument after a call on finite stored points, as for the numbers: it is a
rearrangement of the input in ascending order, the reverse of the last ordering
evaluated, on which `next_permutation` returned `false` and in which no point is above
an earlier one. -/
theorem solveTSPRun_stored_reversed (start : Point3D Double) (ps : List (Point3D Double))
    (hstart : start.WF Double.isFinite) (hps : ∀ p ∈ ps, p.WF Double.isFinite)
    (hne : ps ≠ []) (hsz : ps.length < 2 ^ 64) :
    ∃ run, solveTSPRun start ps = .ok run ∧ run.points.Perm ps ∧
      run.points.Pairwise (fun a b => Point3D.lt b a = false) ∧
      ∃ g, run.evaluated.getLast? = some g ∧
        g.Pairwise (fun a b => Point3D.lt a b = false) ∧
        next_permutation Point3D.lt g = (run.points, false) ∧ run.points = g.reverse := by
  obtain ⟨run, hrun, hperm, _, _, hasc⟩ := solveTSPRun_stored start ps hstart hps hne hsz
  refine ⟨run, hrun, hperm, hasc, ?_⟩
  obtain ⟨tr, henum, hev, _, _⟩ := searchLoop_ok start _ _ _ _ _ _ hrun
  simp only [List.nil_append] at hev
  obtain ⟨g, hg, hn⟩ := enumerate_last _ _ _ _ _ henum
  have hrev := next_permutation_false_reverse _ _ _ hn
  refine ⟨g, hev ▸ hg, ?_, hn, hrev⟩
  have h := hasc
  rw [hrev, List.pairwise_reverse] at h
  exact h

/-! ## The sign of zero at concrete inputs -/

theorem dpt_wf (x y z : Int) : (dpt x y z).WF Double.isFinite :=
  ⟨trivial, trivial, trivial⟩

theorem zeroNeg_wf : zeroNeg.WF Double.isFinite :=
  ⟨trivial, trivial, trivial⟩

/-- Counterexample to C5 as stated: the destinations `(0,0,0)` and `(-0,0,0)`, which
`Point3D::operator<` does not order, are returned in the order in which they were
supplied, so the two input orders give two different `bestPath`. -/
theorem solveTSP_order_invariant_counterexample :
    [zeroPos, zeroNeg].Perm [zeroNeg, zeroPos] ∧
      solveTSP zeroPos [zeroPos, zeroNeg] =
        .ok ⟨Double.num (F64.ofInt 0), [zeroPos, zeroNeg]⟩ ∧
      solveTSP zeroPos [zeroNeg, zeroPos] =
        .ok ⟨Double.num (F64.ofInt 0), [zeroNeg, zeroPos]⟩ ∧
      [zeroPos, zeroNeg] ≠ [zeroNeg, zeroPos] :=
  ⟨List.Perm.swap _ _ _, by decide!, by decide!, by decide⟩

/-- Witness of C5 (amended) at the origin, `(1,0,0), (0,1,0)` and the same points
swapped: these destinations are ordered by `Point3D::operator<`, and the three results
are identical. -/
theorem solveTSP_order_invariant_witness :
    [dpt 1 0 0, dpt 0 1 0] ≠ [] ∧ [dpt 1 0 0, dpt 0 1 0].length < 2 ^ 64 ∧
      [dpt 1 0 0, dpt 0 1 0].Perm [dpt 0 1 0, dpt 1 0 0] ∧
      ∃ r₁ r₂ r₃, solveTSP zeroPos [dpt 1 0 0, dpt 0 1 0] = .ok r₁ ∧
        solveTSP zeroPos [dpt 0 1 0, dpt 1 0 0] = .ok r₂ ∧
        solveTSP zeroPos (sort Point3D.lt [dpt 1 0 0, dpt 0 1 0]) = .ok r₃ ∧
        r₁ = r₂ ∧ r₁ = r₃ :=
  ⟨by decide, by decide, List.Perm.swap _ _ _,
    (solveTSP_order_invariant zeroPos [dpt 1 0 0, dpt 0 1 0] [dpt 0 1 0, dpt 1 0 0]
      (dpt_wf 0 0 0) (by simp [dpt_wf]) (by decide) (by decide) (List.Perm.swap _ _ _)).imp
      fun _ h => h.imp fun _ h => h.imp fun _ h =>
        ⟨h.1, h.2.1, h.2.2.1, h.2.2.2.2.2.2.2 (by decide!)⟩⟩

/-- Witness of C12 (amended) at the origin and `(1,0,0), (0,1,0)`. -/
theorem solveTSP_argument_changed_witness :
    [dpt 1 0 0, dpt 0 1 0] ≠ [] ∧ [dpt 1 0 0, dpt 0 1 0].length < 2 ^ 64 ∧
      ∃ run, solveTSPRun zeroPos [dpt 1 0 0, dpt 0 1 0] = .ok run ∧
        run.points.Perm [dpt 1 0 0, dpt 0 1 0] ∧
        run.points.Pairwise (fun a b => Point3D.lt b a = false) ∧
        (run.points = [dpt 1 0 0, dpt 0 1 0] →
          [dpt 1 0 0, dpt 0 1 0].Pairwise (fun a b => Point3D.lt b a = false)) ∧
        ([dpt 1 0 0, dpt 0 1 0].Pairwise (fun a b => Point3D.lt a b = true) →
          run.points = [dpt 1 0 0, dpt 0 1 0]) :=
  ⟨by decide, by decide,
    solveTSP_argument_changed zeroPos [dpt 1 0 0, dpt 0 1 0] (dpt_wf 0 0 0)
      (by simp [dpt_wf]) (by decide) (by decide)⟩

/-- The supplied order `(0,0,0), (-0,0,0)` is ascending (neither point is below the
other), and the call leaves `(-0,0,0), (0,0,0)` in the caller's vector: an ascending
order that is not strictly ascending need not be kept. -/
theorem solveTSPRun_signed_zero :
    [zeroPos, zeroNeg].Pairwise (fun a b => Point3D.lt b a = false) ∧
      (solveTSPRun zeroPos [zeroPos, zeroNeg]).toOption.map Run.points =
        some [zeroNeg, zeroPos] ∧
      [zeroNeg, zeroPos] ≠ [zeroPos, zeroNeg] :=
  ⟨by decide!, by decide!, by decide⟩

/-- The two zeros reach `solveTSP` through `main`: the typed destinations `0 0 0` and
`-0 0 0` are returned in the order in which they were typed. -/
theorem main_signed_zero :
    main (Double.num (F64.ofInt 0)) 1 signedInput =
        some (.ok ⟨Double.num (F64.ofInt 0), [zeroPos, zeroNeg]⟩) ∧
      main (Double.num (F64.ofInt 0)) 1 signedInputSwapped =
        some (.ok ⟨Double.num (F64.ofInt 0), [zeroNeg, zeroPos]⟩) := by
  decide!

end TSP
